import Mathlib

/-!
# Verification of the `tokenize` pipeline of `niftty`

This file gives a shallow embedding, in Lean 4, of the core alignment /
classification / windowing pipeline implemented in `src/tokenize.ts` of the
`niftty` repository, and proves (or refutes) the specification claims about it.

Modelling conventions:

* JavaScript strings are modelled as `List Char` (`Str` below).
* The external line-diff and word-diff primitives (`diffLines`,
  `diffWordsWithSpace` from the `diff` npm package) are external collaborators;
  the pipeline is parameterised over them.  A concrete executable reference
  model (`refDiffLines` / `refDiffWords`, a minimal-edit diff with the same
  hunk conventions) is supplied for evaluating concrete scenarios.
* The external syntax tokenizer (shiki) is a black box returning per-line token
  arrays; the pipeline is parameterised over a function
  `hl : Str → List (List Tok)`, and `simpleHl` (one token per line) is used for
  concrete scenarios.
* The JavaScript sparse array `lineInfos` is modelled as a `List Entry`, where
  `Entry.hole` is an unset slot (index `0` is always a hole), `Entry.line` is a
  line record, and `Entry.collapsed` is a record carrying a `collapse` group
  (in the source this is a `LineInfo` whose `collapse` field is set; its `type`
  field reads as `"default"`, which `Entry.collapsed` mirrors via
  `entryIsDefault`).
-/

set_option autoImplicit false

/-- Characters of a JavaScript string. -/
abbrev Str := List Char

/-- The newline character. -/
def NL : Char := '\n'

/-- JavaScript `s.split(/\n/g)`: segments of `s` between newline characters
(always at least one segment; a trailing newline yields a trailing empty
segment). -/
def splitNL : Str → List Str
  | [] => [[]]
  | c :: rest =>
    if c = NL then [] :: splitNL rest
    else
      match splitNL rest with
      | [] => [[c]]
      | l :: ls => (c :: l) :: ls

/-- JavaScript `lines.join("\n")`. -/
def joinNL : List Str → Str
  | [] => []
  | [l] => l
  | l :: ls => l ++ NL :: joinNL ls

/-- JavaScript `s.endsWith("\n")`. -/
def endsWithNL (s : Str) : Bool := s.getLast? = some NL

/-- JavaScript `s.replace(/\n$/, "")`: drop a single trailing newline. -/
def stripTrailingNL (s : Str) : Str :=
  if endsWithNL s then s.dropLast else s

/-- JavaScript `v.substring(v.indexOf("\n") + 1)`: everything after the first
newline; the whole string when it has no newline (`indexOf` returns `-1`). -/
def dropThroughFirstNL (s : Str) : Str :=
  if NL ∈ s then (s.dropWhile (fun c => c ≠ NL)).drop 1 else s

/-- Line tokens of the external line-diff (`jsdiff`): the text split into
lines, each token keeping its trailing newline; the final token lacks one iff
the text does not end in a newline; the empty text has no tokens. -/
def lineToks : Str → List Str
  | [] => []
  | c :: rest =>
    if c = NL then [NL] :: lineToks rest
    else
      match lineToks rest with
      | [] => [[c]]
      | t :: ts => (c :: t) :: ts

theorem splitNL_ne_nil (s : Str) : splitNL s ≠ [] := by
  induction s with
  | nil => simp [splitNL]
  | cons c rest ih =>
    simp only [splitNL]
    split
    · simp
    · match h : splitNL rest with
      | [] => simp
      | l :: ls => simp

theorem joinNL_splitNL (s : Str) : joinNL (splitNL s) = s := by
  induction s with
  | nil => simp [splitNL, joinNL]
  | cons c rest ih =>
    simp only [splitNL]
    split
    · rename_i hc
      subst hc
      have h := splitNL_ne_nil rest
      match hs : splitNL rest with
      | [] => exact absurd hs h
      | l :: ls =>
        rw [hs] at ih
        simp only [joinNL]
        cases ls with
        | nil => simp [joinNL] at ih ⊢; exact ih
        | cons l2 ls2 => simpa [joinNL] using ih
    · have h := splitNL_ne_nil rest
      match hs : splitNL rest with
      | [] => exact absurd hs h
      | l :: ls =>
        rw [hs] at ih
        cases ls with
        | nil => simp only [joinNL] at ih ⊢; rw [ih]
        | cons l2 ls2 => simp only [joinNL] at ih ⊢; rw [List.cons_append, ih]

theorem lineToks_flatten (s : Str) : (lineToks s).flatten = s := by
  induction s with
  | nil => simp [lineToks]
  | cons c rest ih =>
    simp only [lineToks]
    split
    · rename_i hc
      subst hc
      simp [List.flatten, ih]
    · match h : lineToks rest with
      | [] =>
        rw [h] at ih
        simp only [List.flatten] at ih
        simp [List.flatten, ← ih]
      | t :: ts =>
        rw [h] at ih
        simp only [List.flatten] at ih ⊢
        simp only [List.cons_append, ih]

/-! ## Reference model of the external diff primitives

The `diff` npm package's `diffLines` / `diffWordsWithSpace` are external
collaborators.  `dscript` computes a minimal edit script (consuming equal heads
greedily, otherwise choosing the cheaper of delete-first / insert-first), and
`groupScript` converts a script into the package's hunk convention: maximal
runs, with the removed hunk emitted immediately before the added hunk at each
change point. -/

/-- A hunk as returned by the external diff: flags, covered text, and (for
line diffs) the number of line tokens. -/
structure Change where
  value : Str := []
  added : Bool := false
  removed : Bool := false
  count : Nat := 0
deriving DecidableEq, Repr

/-- An elementary edit operation on a token. -/
inductive DOp
  | keep (t : Str)
  | del (t : Str)
  | ins (t : Str)
deriving DecidableEq, Repr

/-- Whether an edit operation keeps its token. -/
def DOp.isKeep : DOp → Bool
  | .keep _ => true
  | _ => false

/-- The token carried by an edit operation. -/
def DOp.tok : DOp → Str
  | .keep t => t
  | .del t => t
  | .ins t => t

/-- Cost of an edit script: the number of non-keep operations. -/
def dcost (s : List DOp) : Nat := s.countP (fun o => !o.isKeep)

/-- Fuel-driven worker for `dscript` (fuel makes the recursion structural, so
that the function reduces definitionally on concrete inputs). -/
def dscriptF : Nat → List Str → List Str → List DOp
  | _, [], bs => bs.map .ins
  | _, a :: as, [] => (a :: as).map .del
  | 0, _ :: _, _ :: _ => []
  | fuel + 1, a :: as, b :: bs =>
    if a = b then .keep a :: dscriptF fuel as bs
    else
      let s1 := .del a :: dscriptF fuel as (b :: bs)
      let s2 := .ins b :: dscriptF fuel (a :: as) bs
      if dcost s1 ≤ dcost s2 then s1 else s2

/-- A minimal edit script between two token lists. -/
def dscript (as bs : List Str) : List DOp :=
  dscriptF (as.length + bs.length) as bs

/-- Build a hunk from a run of tokens. -/
def mkChange (toks : List Str) (add rem : Bool) : Change :=
  { value := toks.flatten, added := add, removed := rem, count := toks.length }

/-- Fuel-driven worker for `groupScript`. -/
def groupScriptF : Nat → List DOp → List Change
  | _, [] => []
  | 0, _ :: _ => []
  | fuel + 1, .keep t :: rest =>
    mkChange (t :: (rest.takeWhile DOp.isKeep).map DOp.tok) false false ::
      groupScriptF fuel (rest.dropWhile DOp.isKeep)
  | fuel + 1, op :: rest =>
    let region := op :: rest.takeWhile (fun o => !o.isKeep)
    let after := rest.dropWhile (fun o => !o.isKeep)
    let dels := region.filterMap (fun o => match o with | .del t => some t | _ => none)
    let inss := region.filterMap (fun o => match o with | .ins t => some t | _ => none)
    (if dels ≠ [] then [mkChange dels false true] else []) ++
      (if inss ≠ [] then [mkChange inss true false] else []) ++ groupScriptF fuel after

/-- Group an edit script into hunks, jsdiff-style: maximal equal runs become
equal hunks; at each change point all deletions form one removed hunk followed
by all insertions as one added hunk. -/
def groupScript (ops : List DOp) : List Change :=
  groupScriptF ops.length ops

/-- Reference model of jsdiff `diffLines`. -/
def refDiffLines (a b : Str) : List Change :=
  groupScript (dscript (lineToks a) (lineToks b))

/-- Word tokens for the word diff: maximal runs of whitespace / non-whitespace
characters (a simplified model of the jsdiff word tokenizer, adequate for the
single-word lines exercised in the concrete scenarios). -/
def wordToks : Str → List Str
  | [] => []
  | c :: rest =>
    match wordToks rest with
    | [] => [[c]]
    | t :: ts =>
      match t with
      | [] => [[c]]
      | d :: _ => if (c = ' ') = (d = ' ') then (c :: t) :: ts else [c] :: t :: ts

/-- Reference model of jsdiff `diffWordsWithSpace`. -/
def refDiffWords (a b : Str) : List Change :=
  groupScript (dscript (wordToks a) (wordToks b))

example : refDiffLines "one\ntwo\nthree\n".toList "one\ntwo\n".toList =
    [{ value := "one\ntwo\n".toList, count := 2 },
     { value := "three\n".toList, removed := true, count := 1 }] := by decide

example : refDiffWords "x".toList "y".toList =
    [{ value := "x".toList, removed := true, count := 1 },
     { value := "y".toList, added := true, count := 1 }] := by decide

/-! ## Data model: line records, sparse line-info array, render output -/

/-- The `type` field of a `LineInfo` / `RenderLine` (`LineType` in the
source). -/
inductive LineType
  | default | added | removed | current | upcoming
deriving DecidableEq, Repr

/-- A syntax token produced by the external tokenizer (`shiki.ThemedToken`;
the style bits are omitted since no claim concerns them). -/
structure Tok where
  content : Str := []
  color : Option Str := none
deriving DecidableEq, Repr

/-- A line record during construction (`LineInfo` in the source, minus its
`collapse` field, which is carried by `Entry.collapsed` below).  The sparse
`marks` array (a map from a character column to `true`) is modelled as the
list of marked columns; in the source, `marks` is defined iff at least one
column has been marked, which corresponds to `marks ≠ []` here. -/
structure LineInfo where
  type : LineType
  oldLineNumber : Option Nat := none
  newLineNumber : Option Nat := none
  tokens : Option (List Tok) := none
  marks : List Nat := []
  specialText : Option Str := none
deriving DecidableEq, Repr

/-- A slot of the JavaScript `lineInfos` sparse array: a hole (unset index,
whose `?.type` reads as `undefined`), a plain line record, or a record whose
`collapse` field holds the group of replaced records (such a record's `type`
field is `"default"` in the source). -/
inductive Entry
  | hole
  | line (li : LineInfo)
  | collapsed (group : List Entry)

/-- A token of the public render output (`RenderToken` in the source). -/
structure RenderToken where
  content : Str := []
  color : Option Str := none
  marked : Bool := false
deriving DecidableEq, Repr

/-- A line of the public render output (`RenderLine` in the source). -/
structure RenderLine where
  type : LineType
  oldLineNumber : Option Nat := none
  newLineNumber : Option Nat := none
  tokens : List RenderToken := []
  specialText : Option Str := none
deriving DecidableEq, Repr

/-- An item of the public render output: a line or a collapsed section
(`RenderItem` in the source; the caller-supplied `separatorText` is omitted
since it is produced by an external separator function). -/
inductive RenderItem
  | line (l : RenderLine)
  | collapsedSection (collapsedCount : Nat) (lines : List RenderLine)
deriving DecidableEq, Repr

/-- Read index `i` of the sparse array (out-of-range reads are holes, like
JavaScript `undefined`). -/
def getE (l : List Entry) (i : Nat) : Entry := l.getD i .hole

/-- Write index `i` of the sparse array, growing it with holes as JavaScript
assignment beyond the current length does. -/
def setE : List Entry → Nat → Entry → List Entry
  | [], 0, v => [v]
  | [], i + 1, v => .hole :: setE [] i v
  | _ :: xs, 0, v => v :: xs
  | x :: xs, i + 1, v => x :: setE xs i v

/-- Whether a slot is set (a JavaScript truthy value; holes are `undefined`). -/
def Entry.isSet : Entry → Bool
  | .hole => false
  | _ => true

/-- JavaScript `lineInfos[i] ||= v`. -/
def orSetE (l : List Entry) (i : Nat) (v : Entry) : List Entry :=
  if (getE l i).isSet then l else setE l i v

/-- Apply `f` to the line record at index `i` (models in-place mutation of an
existing record; a hole or collapse record is left unchanged — in the source,
mutating a hole at this point would throw, which the relevant safety lemmas
rule out). -/
def modLine (l : List Entry) (i : Nat) (f : LineInfo → LineInfo) : List Entry :=
  match getE l i with
  | .line li => setE l i (.line (f li))
  | _ => l

/-- JavaScript `l?.type === "default"` on a slot: `true` for a `default` line
record and for a collapse record (whose `type` field is `"default"`). -/
def entryIsDefault : Entry → Bool
  | .hole => false
  | .line li => li.type = LineType.default
  | .collapsed _ => true

theorem setE_length (l : List Entry) (i : Nat) (v : Entry) :
    (setE l i v).length = max l.length (i + 1) := by
  induction l generalizing i with
  | nil =>
    induction i with
    | zero => simp [setE]
    | succ n ih => simp [setE, ih]
  | cons x xs ih =>
    cases i with
    | zero => simp [setE]
    | succ n => simp [setE, ih]; omega

theorem getE_setE_self (l : List Entry) (i : Nat) (v : Entry) :
    getE (setE l i v) i = v := by
  induction l generalizing i with
  | nil =>
    induction i with
    | zero => simp [setE, getE]
    | succ n ih => simpa [setE, getE] using ih
  | cons x xs ih =>
    cases i with
    | zero => simp [setE, getE]
    | succ n => simpa [setE, getE] using ih n

theorem getE_setE_ne (l : List Entry) (i j : Nat) (v : Entry) (h : i ≠ j) :
    getE (setE l i v) j = getE l j := by
  induction l generalizing i j with
  | nil =>
    induction i generalizing j with
    | zero =>
      cases j with
      | zero => exact absurd rfl h
      | succ m => simp [setE, getE]
    | succ n ih =>
      cases j with
      | zero => simp [setE, getE]
      | succ m => simpa [setE, getE] using ih m (by omega)
  | cons x xs ih =>
    cases i with
    | zero =>
      cases j with
      | zero => exact absurd rfl h
      | succ m => simp [setE, getE]
    | succ n =>
      cases j with
      | zero => simp [setE, getE]
      | succ m => simpa [setE, getE] using ih n m (by omega)

theorem getE_zero_setE (l : List Entry) (i : Nat) (v : Entry) (h : 1 ≤ i)
    (h0 : getE l 0 = .hole) : getE (setE l i v) 0 = .hole := by
  rw [getE_setE_ne l i 0 v (by omega)]; exact h0

/-! ## Streaming reclassification (hunk aligner tie-break) -/

/-- Streaming reclassification of the final hunks (the `if (streaming)` block
preceding the line-record builder in `tokenize`): a trailing removed+added
pair loses its removed hunk (stripped past its first line when the removed
text starts with the added text modulo a trailing newline), and a lone
trailing removed hunk is dropped; either way the removed text is prepended to
the upcoming-lines list. -/
def reclassify (changes : List Change) (upcomingLines : List Str) :
    List Change × List Str :=
  match changes.getLast? with
  | none => (changes, upcomingLines)
  | some lastChange =>
    let secondToLast? : Option Change :=
      if 2 ≤ changes.length then changes.get? (changes.length - 2) else none
    match secondToLast? with
    | some secondToLastChange =>
      if lastChange.added ∧ secondToLastChange.removed then
        let changes2 := changes.eraseIdx (changes.length - 2)
        let removedVal :=
          if (stripTrailingNL lastChange.value).isPrefixOf secondToLastChange.value then
            dropThroughFirstNL secondToLastChange.value
          else secondToLastChange.value
        (changes2, removedVal :: upcomingLines)
      else if lastChange.removed then
        (changes.dropLast, lastChange.value :: upcomingLines)
      else (changes, upcomingLines)
    | none =>
      if lastChange.removed then
        (changes.dropLast, lastChange.value :: upcomingLines)
      else (changes, upcomingLines)

/-! ## Line record builder -/

/-- Counters of the line record builder, alongside the line-info array:
`unifiedLineNumber`, `oldLineNumber`, `newLineNumber` all start at 1. -/
structure BuildSt where
  lineInfos : List Entry := []
  unifiedLineNumber : Nat := 1
  oldLineNumber : Nat := 1
  newLineNumber : Nat := 1

/-- One pure added/removed hunk: one record per line, advancing only the
relevant counters (`for (let l = 0; l < numLines; l++) ...`). -/
def emitAddRemove (c : Change) : Nat → BuildSt → BuildSt
  | 0, st => st
  | n + 1, st =>
    emitAddRemove c n
      { lineInfos := setE st.lineInfos st.unifiedLineNumber (.line
          { type := if c.added then .added else .removed,
            oldLineNumber := if c.removed then some st.oldLineNumber else none,
            newLineNumber := if c.added then some st.newLineNumber else none }),
        unifiedLineNumber := st.unifiedLineNumber + 1,
        newLineNumber := if c.added then st.newLineNumber + 1 else st.newLineNumber,
        oldLineNumber := if c.removed ∧ ¬c.added then st.oldLineNumber + 1 else st.oldLineNumber }

/-- One equal hunk: one `default` record per line, advancing all counters. -/
def emitDefaults : Nat → BuildSt → BuildSt
  | 0, st => st
  | n + 1, st =>
    emitDefaults n
      { lineInfos := setE st.lineInfos st.unifiedLineNumber (.line
          { type := .default,
            oldLineNumber := some st.oldLineNumber,
            newLineNumber := some st.newLineNumber }),
        unifiedLineNumber := st.unifiedLineNumber + 1,
        oldLineNumber := st.oldLineNumber + 1,
        newLineNumber := st.newLineNumber + 1 }

/-- State of the modified-block sub-algorithm: the two unified-line cursors
with their column cursors, plus the shared counters. -/
structure ModSt where
  lineInfos : List Entry
  fromUnifiedLine : Nat
  fromCol : Nat
  toUnifiedLine : Nat
  toCol : Nat
  oldLineNumber : Nat
  newLineNumber : Nat
  unifiedLineNumber : Nat

/-- The two `||=` record initialisations at the top of the inner loop. -/
def ensureSlots (st : ModSt) : ModSt :=
  let l1 := orSetE st.lineInfos st.fromUnifiedLine
    (.line { type := .removed, oldLineNumber := some st.oldLineNumber })
  let l2 := orSetE l1 st.toUnifiedLine
    (.line { type := .added, newLineNumber := some st.newLineNumber })
  { st with lineInfos := l2 }

/-- Set `marks[col] = true` for `len` consecutive columns of the record at
index `i` (the per-character marking loop; `marks ||= []` happens inside the
loop, so nothing changes when `len = 0`). -/
def addMarks (l : List Entry) (i col len : Nat) : List Entry :=
  if len = 0 then l
  else modLine l i (fun li => { li with marks := li.marks ++ List.range' col len })

/-- Process one newline-free segment of an inner word-diff token: removed
tokens mark the from-side, added tokens mark the to-side, equal tokens advance
both column cursors. -/
def markSeg (ic : Change) (seg : Str) (st : ModSt) : ModSt :=
  if ic.removed then
    { st with lineInfos := addMarks st.lineInfos st.fromUnifiedLine st.fromCol seg.length,
              fromCol := st.fromCol + seg.length }
  else if ic.added then
    { st with lineInfos := addMarks st.lineInfos st.toUnifiedLine st.toCol seg.length,
              toCol := st.toCol + seg.length }
  else
    { st with fromCol := st.fromCol + seg.length, toCol := st.toCol + seg.length }

/-- Crossing an embedded newline of an inner word-diff token: advance the
relevant line counters and reset the relevant column cursors. -/
def crossNL (ic : Change) (st : ModSt) : ModSt :=
  if ic.removed then
    { st with fromUnifiedLine := st.fromUnifiedLine + 1,
              oldLineNumber := st.oldLineNumber + 1,
              unifiedLineNumber := st.unifiedLineNumber + 1,
              fromCol := 0 }
  else if ic.added then
    { st with toUnifiedLine := st.toUnifiedLine + 1,
              newLineNumber := st.newLineNumber + 1,
              unifiedLineNumber := st.unifiedLineNumber + 1,
              toCol := 0 }
  else
    { st with fromUnifiedLine := st.fromUnifiedLine + 1,
              oldLineNumber := st.oldLineNumber + 1,
              toUnifiedLine := st.toUnifiedLine + 1,
              newLineNumber := st.newLineNumber + 1,
              unifiedLineNumber := st.unifiedLineNumber + 1,
              fromCol := 0,
              toCol := 0 }

/-- The `while (true)` loop over one inner word-diff token, presented by its
newline-split segments: ensure the two records exist, process the segment, and
cross the newline before each further segment. -/
def procSegs (ic : Change) : List Str → ModSt → ModSt
  | [], st => st
  | [seg], st => markSeg ic seg (ensureSlots st)
  | seg :: rest, st => procSegs ic rest (crossNL ic (markSeg ic seg (ensureSlots st)))

/-- Process all inner word-diff tokens of a modified block. -/
def procInner : List Change → ModSt → ModSt
  | [], st => st
  | ic :: ics, st => procInner ics (procSegs ic (splitNL ic.value) st)

/-- A removed hunk immediately followed by an added hunk (a modified block):
run the word diff on the newline-stripped texts, paint per-character marks,
then jump the unified counter past the whole block. -/
def procModified (dw : Str → Str → List Change) (c n : Change) (st : BuildSt) : BuildSt :=
  let innerChanges := dw (stripTrailingNL c.value) (stripTrailingNL n.value)
  let numLines := c.count
  let m0 : ModSt :=
    { lineInfos := st.lineInfos,
      fromUnifiedLine := st.unifiedLineNumber, fromCol := 0,
      toUnifiedLine := st.unifiedLineNumber + numLines, toCol := 0,
      oldLineNumber := st.oldLineNumber, newLineNumber := st.newLineNumber,
      unifiedLineNumber := st.unifiedLineNumber }
  let m := procInner innerChanges m0
  { lineInfos := m.lineInfos,
    unifiedLineNumber := m.toUnifiedLine + 1,
    oldLineNumber := m.oldLineNumber + 1,
    newLineNumber := m.newLineNumber + 1 }

/-- A hunk that is not part of a modified block. -/
def procStep (c : Change) (st : BuildSt) : BuildSt :=
  if c.added ∨ c.removed then emitAddRemove c c.count st else emitDefaults c.count st

/-- The builder loop over the aligned hunk list (`for (let i = 0; ...)` with
the one-hunk lookahead and the `++i` skip after a modified block). -/
def procChanges (dw : Str → Str → List Change) : List Change → BuildSt → BuildSt
  | [], st => st
  | [c], st => procStep c st
  | c :: n :: rest2, st =>
    if c.removed ∧ n.added then procChanges dw rest2 (procModified dw c n st)
    else procChanges dw (n :: rest2) (procStep c st)

/-- The non-diff builder loop body (`lineInfos[l + 1] = {type: "default",
newLineNumber: newLineNumber++}`). -/
def noDiffLoop : Nat → Nat → BuildSt → BuildSt
  | 0, _, st => st
  | k + 1, l, st =>
    noDiffLoop k (l + 1)
      { st with
        lineInfos := setE st.lineInfos (l + 1) (.line
          { type := .default, newLineNumber := some st.newLineNumber }),
        newLineNumber := st.newLineNumber + 1 }

/-- The non-diff builder: one `default` record per after-line, then
`unifiedLineNumber = toLines.length + 1`. -/
def buildNoDiff (toLines : List Str) (st : BuildSt) : BuildSt :=
  let st1 := noDiffLoop toLines.length 0 st
  { st1 with unifiedLineNumber := toLines.length + 1 }

/-! ## Streaming overlay -/

/-- The upcoming-record loop (`for (let l = 1; l < upcomingLines.length; l++)`,
presented by its iteration count `upcomingLines.length - 1`). -/
def upcomingLoop : Nat → BuildSt → BuildSt
  | 0, st => st
  | k + 1, st =>
    upcomingLoop k
      { st with
        lineInfos := setE st.lineInfos st.unifiedLineNumber (.line
          { type := .upcoming, oldLineNumber := some st.oldLineNumber }),
        unifiedLineNumber := st.unifiedLineNumber + 1,
        oldLineNumber := st.oldLineNumber + 1 }

/-- The streaming overlay: retype the record at
`currentLineNumber = unifiedLineNumber - 1` to `current` (overwriting its
`oldLineNumber` with the next unconsumed old-line counter), then append one
`upcoming` record per remaining upcoming-lines entry past the first. -/
def applyStreaming (streaming : Bool) (upcomingLines : List Str) (st : BuildSt) : BuildSt :=
  if streaming then
    let currentLineNumber := st.unifiedLineNumber - 1
    let st1 :=
      { st with
        lineInfos := modLine st.lineInfos currentLineNumber
          (fun li => { li with type := .current, oldLineNumber := some st.oldLineNumber }),
        oldLineNumber := st.oldLineNumber + 1 }
    upcomingLoop (upcomingLines.length - 1) st1
  else st

/-! ## Collapse reducer -/

/-- Smallest index `i ≥ lo` with `p` true at slot `i` (the JavaScript
`findIndex((l, i) => i > pos && p(l))` with `lo = pos + 1`). -/
def findIdxFromP (p : Entry → Bool) (l : List Entry) (lo : Nat) : Option Nat :=
  ((l.drop lo).findIdx? p).map (· + lo)

/-- One fuel-driven pass of the collapse scanning loop (`while (pos <
lineInfos.length)`, with `fromIdx = pos + 1`): find the next maximal run of
`default`-typed slots, trim `padding` lines off each edge that does not touch
the ends of the file, and when something remains replace it by a single
collapse record. -/
def collapseLoopF (padding : Nat) : Nat → List Entry → Nat → List Entry
  | 0, l, _ => l
  | fuel + 1, l, fromIdx =>
    if fromIdx ≤ l.length then
      match findIdxFromP entryIsDefault l fromIdx with
      | none => l
      | some start0 =>
        let endU := (findIdxFromP (fun e => !entryIsDefault e) l (start0 + 1)).getD l.length
        let start := if start0 = 1 then start0 else start0 + padding
        let endT := if endU = l.length then endU else endU - padding
        if endT ≤ start then collapseLoopF padding fuel l (endU + 1)
        else
          let grp := (l.drop start).take (endT - start)
          let l2 := l.take start ++ .collapsed grp :: l.drop endT
          collapseLoopF padding fuel l2 (start + 2)
    else l

/-- The collapse reducer over the line-info array. -/
def collapseLines (padding : Nat) (l : List Entry) : List Entry :=
  collapseLoopF padding (l.length + 1) l 0

/-! ## EOF-newline annotation, token assignment, render projection -/

/-- The special text of the synthetic EOF record when the after text gained a
trailing newline. -/
def addedEOFText : Str := "(added newline at end of file)".toList

/-- The special text of the synthetic EOF record when the after text lost its
trailing newline. -/
def removedEOFText : Str := "(removed newline at end of file)".toList

/-- JavaScript `tokens[(n || 0) - 1]! || []`: the line token array at the
1-based line number `n`, or the empty array when the index is out of range
(including the `-1` produced by an absent line number). -/
def lineTokAt (toks : List (List Tok)) (n : Option Nat) : List Tok :=
  match n with
  | some (k + 1) => toks.getD k []
  | _ => []

/-- Which token table and line index a record reads during token assignment:
`removed` and `upcoming` records read the before-tokenization at
`oldLineNumber - 1`; all other kinds read the after-tokenization at
`newLineNumber - 1`. -/
def selTokens (beforeToks afterToks : List (List Tok)) (li : LineInfo) : List Tok :=
  if li.type = .removed ∨ li.type = .upcoming then lineTokAt beforeToks li.oldLineNumber
  else lineTokAt afterToks li.newLineNumber

/-- Body of the token-assignment loop, walking the slots with their index. -/
def assignTokensGo (beforeToks afterToks : List (List Tok)) : Nat → List Entry → List Entry
  | _, [] => []
  | i, e :: rest =>
    (if i = 0 then e
     else
       match e with
       | .line li => .line { li with tokens := some (selTokens beforeToks afterToks li) }
       | e2 => e2) :: assignTokensGo beforeToks afterToks (i + 1) rest

/-- The token-assignment loop (`for (let i = 1; i < lineInfos.length; i++)`):
every line record from index 1 on gets its `tokens` field set.  (In the source
the loop also sets a `tokens` field on collapse records and on the dummy `{}`
object standing in for a hole; neither is ever read, so the model leaves those
slots unchanged.) -/
def assignTokens (beforeToks afterToks : List (List Tok)) (l : List Entry) : List Entry :=
  assignTokensGo beforeToks afterToks 0 l

/-- State of the token-slicing loop of `convertLineInfoToRenderLine`: the
spans already emitted, the characters of the span being built (the source
tracks `spanStart` instead and slices at flush time), and the current mark
state `inMark`. -/
structure SliceSt where
  acc : List RenderToken := []
  cur : Str := []
  inMark : Bool := false

/-- Flush the span being built (zero-length spans are dropped, matching the
`c > spanStart` guard). -/
def flushCur (base : Tok) (st : SliceSt) : List RenderToken :=
  if st.cur = [] then st.acc
  else st.acc ++ [{ content := st.cur, color := base.color, marked := st.inMark }]

/-- The character loop of the slicer: `k` is the absolute column of the next
character; a change of mark state flushes the current span; the implicit
end-of-token boundary flushes the final span. -/
def sliceGo (base : Tok) (marks : List Nat) : Nat → Str → SliceSt → List RenderToken
  | _, [], st => flushCur base st
  | k, ch :: rest, st =>
    let isMarked := decide (k ∈ marks)
    if isMarked = st.inMark then
      sliceGo base marks (k + 1) rest { st with cur := st.cur ++ [ch] }
    else
      sliceGo base marks (k + 1) rest { acc := flushCur base st, cur := [ch], inMark := isMarked }

/-- Slice one token at mark-boundary transitions, producing one span per
contiguous run of equal mark state. -/
def sliceToken (marks : List Nat) (col : Nat) (t : Tok) : List RenderToken :=
  sliceGo t marks col t.content { acc := [], cur := [], inMark := decide (col ∈ marks) }

/-- The token loop of `convertLineInfoToRenderLine`: without marks each token
becomes one span verbatim; with marks each token is sliced. -/
def convertTokens (marks : List Nat) : List Tok → Nat → List RenderToken
  | [], _ => []
  | t :: ts, col =>
    (if marks = [] then [{ content := t.content, color := t.color }]
     else sliceToken marks col t) ++ convertTokens marks ts (col + t.content.length)

/-- `convertLineInfoToRenderLine`: project an internal line record to the
public output model. -/
def convertLineInfoToRenderLine (li : LineInfo) : RenderLine :=
  { type := li.type,
    oldLineNumber := li.oldLineNumber,
    newLineNumber := li.newLineNumber,
    tokens := convertTokens li.marks (li.tokens.getD []) 0,
    specialText := li.specialText }

/-- The record carried by a slot, as read by the item-conversion loop
(`(lineInfos[i] || {}) as LineInfo`).  A collapse record reads as a bare
`default` record (its own `collapse` field is handled separately); a hole
reads as the dummy `{}` object, modelled as a bare `default` record — holes
are unreachable at this stage (see the filledness lemmas). -/
def entryLineInfo : Entry → LineInfo
  | .line li => li
  | _ => { type := LineType.default }

/-- Project a slot to a render line. -/
def convertEntryLine (e : Entry) : RenderLine :=
  convertLineInfoToRenderLine (entryLineInfo e)

/-- The item-conversion loop: walk slots from index 1, emitting a collapsed
section for each collapse record (when collapsing is configured) and a render
line otherwise, remembering the index of the `current` line. -/
def toItemsGo (collapseOn : Bool) :
    List Entry → List RenderItem → Option Nat → List RenderItem × Option Nat
  | [], items, cur => (items, cur)
  | .collapsed grp :: rest, items, cur =>
    if collapseOn then
      toItemsGo collapseOn rest
        (items ++ [.collapsedSection grp.length (grp.map convertEntryLine)]) cur
    else
      let rl := convertEntryLine (.collapsed grp)
      toItemsGo collapseOn rest (items ++ [.line rl])
        (if rl.type = .current then some items.length else cur)
  | e :: rest, items, cur =>
    let rl := convertEntryLine e
    toItemsGo collapseOn rest (items ++ [.line rl])
      (if rl.type = .current then some items.length else cur)

/-- Convert the line-info array (from index 1 on) to the public render items,
together with the index of the `current` item, if any. -/
def toItems (collapseOn : Bool) (l : List Entry) : List RenderItem × Option Nat :=
  toItemsGo collapseOn (l.drop 1) [] none

/-! ## The `tokenize` pipeline -/

/-- Configuration of the collapse reducer (the caller-overridable `padding`;
the separator function is external and not modelled). -/
structure CollapseCfg where
  padding : Nat := 3
deriving DecidableEq, Repr

/-- The output aggregate of `tokenize` (its `TokenizedCode`, restricted to the
fields the claims concern: the render items, the current-item index, and the
diff/streaming flags). -/
structure TokenizeResult where
  items : List RenderItem
  currentLineIndex : Option Nat
  isDiff : Bool
  isStreaming : Bool
deriving Repr

/-- The inputs the aligner and builder stages work on, computed by the prep
part of `tokenize`: normalised texts, line arrays, EOF-newline flags, aligned
hunks and upcoming lines after streaming reclassification. -/
structure Prep where
  isDiff : Bool
  fromText : Str
  toText : Str
  fromNewlineEOF : Bool
  toNewlineEOF : Bool
  fromLines : List Str
  toLines : List Str
  changes : List Change
  upcomingLines : List Str

/-- The prep part of `tokenize`: normalise both texts (appending a missing
trailing newline and recording whether one was present), split them into
lines, run the external line diff on a `toLines.length + 3`-line window of the
before text when streaming (on all of it otherwise), and apply the streaming
reclassification. -/
def prepare (dl : Str → Str → List Change) (code : Str) (diffWith : Option Str)
    (streaming : Bool) : Prep :=
  let isDiff := diffWith.isSome
  let from0 := diffWith.getD []
  let to0 := code
  let fromNewlineEOF := endsWithNL from0
  let from1 := if fromNewlineEOF then from0 else from0 ++ [NL]
  let toNewlineEOF := endsWithNL to0
  let to1 := if toNewlineEOF then to0 else to0 ++ [NL]
  let fromLines := splitNL from1
  let toLines := splitNL to1
  let fromLinesToDiff := if streaming then toLines.length + 3 else fromLines.length
  let changes0 := dl (joinNL (fromLines.take fromLinesToDiff)) to1
  let upcomingLines0 := if streaming then fromLines.drop fromLinesToDiff else []
  let (changes1, upcomingLines1) :=
    if streaming then reclassify changes0 upcomingLines0 else (changes0, upcomingLines0)
  { isDiff, fromText := from1, toText := to1, fromNewlineEOF, toNewlineEOF,
    fromLines, toLines, changes := changes1, upcomingLines := upcomingLines1 }

/-- The builder stage applied to a prep: the diff builder over the aligned
hunks, or the non-diff builder over the after lines. -/
def builderState (dw : Str → Str → List Change) (p : Prep) : BuildSt :=
  if p.isDiff then procChanges dw p.changes {} else buildNoDiff p.toLines {}

/-- The full `tokenize` pipeline, parameterised over the external line diff
`dl`, word diff `dw` and syntax tokenizer `hl`: prep and align, build line
records, apply the streaming overlay, collapse unchanged runs (only when
requested, diffing, and not streaming), append the synthetic EOF-newline
record when exactly one text ends in a newline, assign syntax tokens, and
project to render items. -/
def tokenizeModel (dl dw : Str → Str → List Change) (hl : Str → List (List Tok))
    (code : Str) (diffWith : Option Str) (streaming : Bool)
    (collapseUnchanged : Option CollapseCfg) : TokenizeResult :=
  let p := prepare dl code diffWith streaming
  let collapseConfig := if p.isDiff ∧ ¬streaming then collapseUnchanged else none
  let st1 := builderState dw p
  let st2 := applyStreaming streaming p.upcomingLines st1
  let li3 :=
    match collapseConfig with
    | some cfg => collapseLines cfg.padding st2.lineInfos
    | none => st2.lineInfos
  let li4 :=
    if p.fromNewlineEOF ≠ p.toNewlineEOF then
      li3 ++ [.line
        { type := if p.toNewlineEOF then .added else .removed,
          specialText := some (if p.toNewlineEOF then addedEOFText else removedEOFText) }]
    else li3
  let result := hl p.toText
  let beforeResult := if p.isDiff then hl p.fromText else result
  let li5 := assignTokens beforeResult result li4
  let (items, currentLineIndex) := toItems collapseConfig.isSome li5
  { items, currentLineIndex, isDiff := p.isDiff, isStreaming := streaming }

/-- A reference syntax tokenizer for concrete scenarios: one token per line,
whose content is the line itself (`codeToTokens` returns one token array per
line of the text). -/
def simpleHl (s : Str) : List (List Tok) :=
  (splitNL s).map (fun l => [{ content := l }])

/-- The pipeline instantiated with the reference models of all three external
collaborators, used for concrete scenarios. -/
def tokenizeRef (code : Str) (diffWith : Option Str) (streaming : Bool)
    (collapseUnchanged : Option CollapseCfg) : TokenizeResult :=
  tokenizeModel refDiffLines refDiffWords simpleHl code diffWith streaming collapseUnchanged

/-- Whether a render item is a line of the given type (`false` for collapsed
sections). -/
def itemIsType (it : RenderItem) (ty : LineType) : Bool :=
  match it with
  | .line l => l.type = ty
  | .collapsedSection _ _ => false

/-! ## Claim C1: non-diff mode -/

/-- The non-diff run of `tokenize` on the code `"a\n"` (no `diffWith`, no
streaming, no collapsing). -/
def scenarioC1 : TokenizeResult := tokenizeRef "a\n".toList none false none

/-- C1: evaluating `tokenize` without `diffWith` on the code `"a\n"`.  The
claim says the items are only `default` records; instead the pipeline appends
a synthetic `added` record with special text `"(added newline at end of
file)"`, because the EOF-newline comparison is not gated on diff mode and the
absent before-text defaults to `""`, which is normalised to `"\n"` with its
EOF flag `false`. -/
theorem C1_nondiff_emits_added_eof_record :
    scenarioC1.items =
      [.line { type := .default, newLineNumber := some 1,
               tokens := [{ content := "a".toList }] },
       .line { type := .default, newLineNumber := some 2,
               tokens := [{ content := [] }] },
       .line { type := .added, specialText := some addedEOFText }] ∧
    ¬ (∀ it ∈ scenarioC1.items, itemIsType it .default = true) := by
  constructor
  · decide
  · decide

/-! ## Claim C2: the concrete streaming scenario -/

/-- The streaming run of `tokenize` with before text `"one\ntwo\nthree\n"`
and after text `"one\ntwo\n"`. -/
def scenarioC2 : TokenizeResult :=
  tokenizeRef "one\ntwo\n".toList (some "one\ntwo\nthree\n".toList) true none

/-- C2 (counterexample): the claim predicts exactly three records for this
scenario; the pipeline produces exactly two (the trailing removed hunk is
reclassified into the upcoming-lines list, whose first entry is consumed by
the `current` line rather than emitted as an `upcoming` record). -/
theorem C2_counterexample : scenarioC2.items.length = 2 ∧ scenarioC2.items.length ≠ 3 := by
  constructor
  · decide
  · decide

/-- C2 (amended): the scenario produces exactly two records: record 1
`default` (old 1, new 1, content `"one"`), and record 2 `current` with
`oldLineNumber = 3` (the next unconsumed old line) and `newLineNumber = 2`,
its content sourced from the after-line `"two"`; no `upcoming` record is
produced. -/
theorem C2_amended :
    scenarioC2.items =
      [.line { type := .default, oldLineNumber := some 1, newLineNumber := some 1,
               tokens := [{ content := "one".toList }] },
       .line { type := .current, oldLineNumber := some 3, newLineNumber := some 2,
               tokens := [{ content := "two".toList }] }] ∧
    scenarioC2.currentLineIndex = some 1 := by
  constructor
  · decide
  · decide

/-! ## Claim C4: streaming reclassification of a trailing removed+added pair -/

theorem getLast?_append_pair {α : Type} (xs : List α) (a b : α) :
    (xs ++ [a, b]).getLast? = some b := by
  induction xs with
  | nil => rfl
  | cons x xs ih => rw [List.cons_append, List.getLast?_cons, ih]; rfl

theorem get?_append_pair {α : Type} (xs : List α) (a b : α) :
    (xs ++ [a, b]).get? ((xs ++ [a, b]).length - 2) = some a := by
  induction xs with
  | nil => rfl
  | cons x xs ih =>
    rw [List.cons_append]
    have hlen : (x :: (xs ++ [a, b])).length - 2 = ((xs ++ [a, b]).length - 2) + 1 := by
      simp only [List.length_cons, List.length_append]; omega
    rw [hlen, List.get?_cons_succ, ih]

theorem eraseIdx_append_pair {α : Type} (xs : List α) (a b : α) :
    (xs ++ [a, b]).eraseIdx ((xs ++ [a, b]).length - 2) = xs ++ [b] := by
  induction xs with
  | nil => rfl
  | cons x xs ih =>
    rw [List.cons_append]
    have hlen : (x :: (xs ++ [a, b])).length - 2 = ((xs ++ [a, b]).length - 2) + 1 := by
      simp only [List.length_cons, List.length_append]; omega
    rw [hlen, List.eraseIdx_cons_succ, ih, List.cons_append]

/-- C4 (amended): in streaming mode, when the last hunk is added, the
second-to-last is removed, and the removed hunk's text starts with the added
hunk's text ignoring a trailing newline, the reclassification strips the
removed hunk's text past its first newline (not the entire matching prefix),
prepends the remainder to the upcoming-lines list, and drops only the removed
hunk from the hunk list — the added hunk remains. -/
theorem C4_reclassify_amended (init : List Change) (rem add : Change) (upc : List Str)
    (hrem : rem.removed = true) (hadd : add.added = true)
    (hpre : (stripTrailingNL add.value).isPrefixOf rem.value = true) :
    reclassify (init ++ [rem, add]) upc =
      (init ++ [add], dropThroughFirstNL rem.value :: upc) := by
  unfold reclassify
  rw [getLast?_append_pair]
  have hlen : 2 ≤ (init ++ [rem, add]).length := by simp
  simp only [hlen, if_pos, get?_append_pair]
  simp only [hadd, hrem, and_self, if_pos, true_and]
  rw [eraseIdx_append_pair]
  simp [hpre]

/-- C4 (witness): the amended reclassification applied to a concrete hunk
list whose added hunk spans two lines. -/
theorem C4_reclassify_amended_witness :
    (({ value := "ab\ncd\nef\n".toList, removed := true, count := 3 } : Change).removed = true) ∧
    reclassify
      [{ value := "k\n".toList, count := 1 },
       { value := "ab\ncd\nef\n".toList, removed := true, count := 3 },
       { value := "ab\ncd\n".toList, added := true, count := 2 }] [] =
      ([{ value := "k\n".toList, count := 1 },
        { value := "ab\ncd\n".toList, added := true, count := 2 }],
       ["cd\nef\n".toList]) :=
  ⟨rfl,
    C4_reclassify_amended
      [{ value := "k\n".toList, count := 1 }]
      { value := "ab\ncd\nef\n".toList, removed := true, count := 3 }
      { value := "ab\ncd\n".toList, added := true, count := 2 }
      [] rfl rfl (by decide)⟩

/-- C4 (counterexample): for the same concrete hunk list the claim predicts
that both trailing hunks are dropped and that the entire matching prefix
`"ab\ncd"` is stripped (leaving `"ef\n"`); the reclassification instead keeps
the added hunk and strips only the first line, leaving `"cd\nef\n"`. -/
theorem C4_counterexample :
    (reclassify
        [{ value := "k\n".toList, count := 1 },
         { value := "ab\ncd\nef\n".toList, removed := true, count := 3 },
         { value := "ab\ncd\n".toList, added := true, count := 2 }] []).1.length = 2 ∧
    ¬ ((reclassify
        [{ value := "k\n".toList, count := 1 },
         { value := "ab\ncd\nef\n".toList, removed := true, count := 3 },
         { value := "ab\ncd\n".toList, added := true, count := 2 }] []).1 =
      [{ value := "k\n".toList, count := 1 }] ∧
      (reclassify
        [{ value := "k\n".toList, count := 1 },
         { value := "ab\ncd\nef\n".toList, removed := true, count := 3 },
         { value := "ab\ncd\n".toList, added := true, count := 2 }] []).2 =
      ["ef\n".toList]) := by
  constructor
  · decide
  · decide

/-! ## Claim C7: column conservation of the render projector -/

/-- Total character length of a list of render spans. -/
def rtLen (ts : List RenderToken) : Nat := (ts.map (fun t => t.content.length)).sum

/-- Total character length of a list of syntax tokens. -/
def tokLen (ts : List Tok) : Nat := (ts.map (fun t => t.content.length)).sum

theorem flushCur_len (base : Tok) (st : SliceSt) :
    rtLen (flushCur base st) = rtLen st.acc + st.cur.length := by
  unfold flushCur
  split
  · rename_i h; simp [h]
  · simp [rtLen]

theorem sliceGo_len (base : Tok) (marks : List Nat) (chars : Str) :
    ∀ (k : Nat) (st : SliceSt),
      rtLen (sliceGo base marks k chars st) = rtLen st.acc + st.cur.length + chars.length := by
  induction chars with
  | nil => intro k st; simp [sliceGo, flushCur_len base st]
  | cons ch rest ih =>
    intro k st
    simp only [sliceGo]
    split
    · rw [ih]; simp; omega
    · rw [ih]; simp [flushCur_len]; omega

theorem sliceToken_len (marks : List Nat) (col : Nat) (t : Tok) :
    rtLen (sliceToken marks col t) = t.content.length := by
  unfold sliceToken
  rw [sliceGo_len]
  simp [rtLen]

theorem convertTokens_len (marks : List Nat) (ts : List Tok) :
    ∀ col, rtLen (convertTokens marks ts col) = tokLen ts := by
  induction ts with
  | nil => intro col; simp [convertTokens, rtLen, tokLen]
  | cons t ts ih =>
    intro col
    simp only [convertTokens]
    have happ : ∀ (x y : List RenderToken), rtLen (x ++ y) = rtLen x + rtLen y := by
      intro x y; simp [rtLen]
    rw [happ, ih]
    split
    · simp [rtLen, tokLen]
    · rw [sliceToken_len]; simp [tokLen]

/-- C7: for every line record whose token array covers its source line (the
concatenated token contents are the line), the total character length of the
spans produced by the render projector equals the line's character length;
slicing at mark boundaries and dropping zero-length spans preserves total
content length. -/
theorem C7_column_conservation (li : LineInfo) (line : Str)
    (hcov : ((li.tokens.getD []).map (fun t => t.content)).flatten = line) :
    rtLen (convertLineInfoToRenderLine li).tokens = line.length := by
  have h1 : rtLen (convertLineInfoToRenderLine li).tokens = tokLen (li.tokens.getD []) := by
    unfold convertLineInfoToRenderLine
    simp only
    rw [convertTokens_len]
  rw [h1, ← hcov]
  unfold tokLen
  rw [List.length_flatten, List.map_map]
  rfl

/-- A concrete marked line record used to witness C7. -/
def c7li : LineInfo :=
  { type := .removed, marks := [1, 2],
    tokens := some [{ content := "ab".toList }, { content := "cd".toList }] }

/-- C7 (witness): column conservation at a concrete marked record over the
source line `"abcd"`. -/
theorem C7_column_conservation_witness :
    ((c7li.tokens.getD []).map (fun t => t.content)).flatten = "abcd".toList ∧
    rtLen (convertLineInfoToRenderLine c7li).tokens = "abcd".toList.length :=
  ⟨by decide, C7_column_conservation c7li "abcd".toList (by decide)⟩

/-! ## Claim C9: token assignment and out-of-range lookups -/

theorem getE_cons_succ (e : Entry) (l : List Entry) (i : Nat) :
    getE (e :: l) (i + 1) = getE l i := rfl

theorem getE_assignTokensGo (bt at2 : List (List Tok)) (l : List Entry) :
    ∀ (k i : Nat), 1 ≤ k + i →
      getE (assignTokensGo bt at2 k l) i =
        (match getE l i with
         | .line li => .line { li with tokens := some (selTokens bt at2 li) }
         | e => e) := by
  induction l with
  | nil => intro k i _; cases i <;> rfl
  | cons e rest ih =>
    intro k i hk
    cases i with
    | zero =>
      have hk0 : k ≠ 0 := by omega
      simp only [assignTokensGo]
      rw [if_neg hk0]
      cases e <;> rfl
    | succ n =>
      simp only [assignTokensGo, getE_cons_succ]
      exact ih (k + 1) n (by omega)

/-- C9: during token assignment, every line record from index 1 on gets the
token array selected by its kind — `removed` and `upcoming` records read the
before-tokenization at `oldLineNumber - 1`, all other kinds read the
after-tokenization at `newLineNumber - 1` — and any out-of-range lookup
(including the absent line numbers of the synthetic EOF-newline record)
yields the empty token array rather than an error. -/
theorem C9_token_assignment (bt at2 : List (List Tok)) (l : List Entry) (i : Nat)
    (li : LineInfo) (h1 : 1 ≤ i) (h : getE l i = .line li) :
    getE (assignTokens bt at2 l) i =
      .line { li with tokens := some (selTokens bt at2 li) } ∧
    selTokens bt at2 li =
      (if li.type = .removed ∨ li.type = .upcoming
       then lineTokAt bt li.oldLineNumber
       else lineTokAt at2 li.newLineNumber) ∧
    (∀ toks : List (List Tok), lineTokAt toks none = []) ∧
    (∀ (toks : List (List Tok)) (k : Nat), toks.length ≤ k → lineTokAt toks (some (k + 1)) = []) := by
  refine ⟨?_, rfl, fun toks => rfl, fun toks k hk => ?_⟩
  · unfold assignTokens
    rw [getE_assignTokensGo bt at2 l 0 i (by omega), h]
  · unfold lineTokAt
    simp only [List.getD_eq_getElem?_getD]
    rw [List.getElem?_eq_none (by omega)]
    rfl

/-- C9 (witness): token assignment on a two-slot array holding the synthetic
EOF-newline record (no line numbers, so the after-table lookup at index `-1`
is out of range) yields the empty token array. -/
theorem C9_token_assignment_witness :
    getE [Entry.hole, Entry.line { type := .added, specialText := some addedEOFText }] 1 =
      .line { type := .added, specialText := some addedEOFText } ∧
    getE (assignTokens [[{ content := "x".toList }]] [[{ content := "y".toList }]]
        [Entry.hole, Entry.line { type := .added, specialText := some addedEOFText }]) 1 =
      .line { type := .added, specialText := some addedEOFText,
              tokens := some (selTokens [[{ content := "x".toList }]]
                [[{ content := "y".toList }]]
                { type := .added, specialText := some addedEOFText }) } :=
  ⟨rfl,
    (C9_token_assignment [[{ content := "x".toList }]] [[{ content := "y".toList }]]
      [Entry.hole, Entry.line { type := .added, specialText := some addedEOFText }] 1
      { type := .added, specialText := some addedEOFText }
      (by omega) rfl).1⟩

/-! ## Claim C8: diffing a text against itself -/

theorem dscriptF_same (t : List Str) : ∀ f, t.length ≤ f → dscriptF f t t = t.map .keep := by
  induction t with
  | nil => intro f _; cases f <;> rfl
  | cons x xs ih =>
    intro f hf
    cases f with
    | zero => simp at hf
    | succ f2 =>
      simp only [dscriptF, if_pos rfl, List.map_cons]
      rw [ih f2 (by simp at hf; omega)]
      simp

theorem dscript_same (t : List Str) : dscript t t = t.map .keep := by
  unfold dscript
  exact dscriptF_same t _ (by omega)

theorem takeWhile_isKeep_map_keep (l : List Str) :
    (l.map DOp.keep).takeWhile DOp.isKeep = l.map DOp.keep := by
  induction l with
  | nil => rfl
  | cons x xs ih => simp [List.takeWhile_cons, DOp.isKeep, ih]

theorem dropWhile_isKeep_map_keep (l : List Str) :
    (l.map DOp.keep).dropWhile DOp.isKeep = [] := by
  induction l with
  | nil => rfl
  | cons x xs ih => simp [List.dropWhile_cons, DOp.isKeep, ih]

theorem groupScript_map_keep (t : Str) (ts : List Str) :
    groupScript ((t :: ts).map DOp.keep) = [mkChange (t :: ts) false false] := by
  unfold groupScript
  simp only [List.map_cons, List.length_cons]
  show groupScriptF ((ts.map DOp.keep).length + 1) (.keep t :: ts.map DOp.keep) = _
  simp only [groupScriptF]
  rw [takeWhile_isKeep_map_keep, dropWhile_isKeep_map_keep, List.map_map]
  have htok : ts.map (DOp.tok ∘ DOp.keep) = ts := by
    induction ts with
    | nil => rfl
    | cons y ys ih => simp only [List.map_cons, ih]; rfl
  rw [htok]
  cases hl : (ts.map DOp.keep).length <;> rfl

theorem refDiffLines_self (x : Str) :
    ∀ c ∈ refDiffLines x x, c.added = false ∧ c.removed = false := by
  unfold refDiffLines
  rw [dscript_same]
  cases h : lineToks x with
  | nil => simp [groupScript, groupScriptF]
  | cons t ts =>
    rw [groupScript_map_keep]
    intro c hc
    simp only [List.mem_singleton] at hc
    subst hc
    exact ⟨rfl, rfl⟩

/-- A slot that is a hole or a `default`-typed line record. -/
def Dish (e : Entry) : Prop := e = .hole ∨ ∃ li, e = .line li ∧ li.type = .default

theorem setE_forall {P : Entry → Prop} (hP0 : P .hole) :
    ∀ (l : List Entry) (i : Nat) (v : Entry), P v → (∀ e ∈ l, P e) →
      ∀ e ∈ setE l i v, P e := by
  intro l
  induction l with
  | nil =>
    intro i
    induction i with
    | zero => intro v hv _ e he; simp only [setE, List.mem_singleton] at he; subst he; exact hv
    | succ n ih =>
      intro v hv _ e he
      simp only [setE, List.mem_cons] at he
      rcases he with he | he
      · subst he; exact hP0
      · exact ih v hv (by intro e2 he2; cases he2) e he
  | cons x xs ih =>
    intro i v hv hl e he
    cases i with
    | zero =>
      simp only [setE, List.mem_cons] at he
      rcases he with he | he
      · subst he; exact hv
      · exact hl e (List.mem_cons_of_mem x he)
    | succ n =>
      simp only [setE, List.mem_cons] at he
      rcases he with rfl | he
      · exact hl _ (List.mem_cons_self _ _)
      · exact ih n v hv (fun e2 he2 => hl e2 (List.mem_cons_of_mem x he2)) e he

theorem emitDefaults_dish (n : Nat) :
    ∀ st : BuildSt, (∀ e ∈ st.lineInfos, Dish e) →
      ∀ e ∈ (emitDefaults n st).lineInfos, Dish e := by
  induction n with
  | zero => intro st h; exact h
  | succ n ih =>
    intro st h
    apply ih
    exact setE_forall (Or.inl rfl) st.lineInfos st.unifiedLineNumber _
      (Or.inr ⟨_, rfl, rfl⟩) h

theorem procStep_dish (c : Change) (hc : c.added = false ∧ c.removed = false) :
    ∀ st : BuildSt, (∀ e ∈ st.lineInfos, Dish e) →
      ∀ e ∈ (procStep c st).lineInfos, Dish e := by
  intro st h
  unfold procStep
  rw [hc.1, hc.2]
  simp only [or_self, Bool.false_eq_true, if_neg]
  exact emitDefaults_dish c.count st h

theorem procChanges_dish (dw : Str → Str → List Change) (cs : List Change)
    (hcs : ∀ c ∈ cs, c.added = false ∧ c.removed = false) :
    ∀ st : BuildSt, (∀ e ∈ st.lineInfos, Dish e) →
      ∀ e ∈ (procChanges dw cs st).lineInfos, Dish e := by
  induction cs with
  | nil => intro st h; exact h
  | cons c rest ih =>
    intro st h
    cases rest with
    | nil =>
      show ∀ e ∈ (procStep c st).lineInfos, Dish e
      exact procStep_dish c (hcs c (List.mem_cons_self c [])) st h
    | cons n rest2 =>
      have hcrem : c.removed = false := (hcs c (by simp)).2
      show ∀ e ∈ (procChanges dw (c :: n :: rest2) st).lineInfos, Dish e
      unfold procChanges
      rw [if_neg (by rw [hcrem]; simp)]
      exact ih (fun c2 hc2 => hcs c2 (List.mem_cons_of_mem c hc2))
        (procStep c st) (procStep_dish c (hcs c (by simp)) st h)

theorem assignTokensGo_dish (bt at2 : List (List Tok)) :
    ∀ (l : List Entry) (k : Nat), (∀ e ∈ l, Dish e) →
      ∀ e ∈ assignTokensGo bt at2 k l, Dish e := by
  intro l
  induction l with
  | nil => intro k _ e he; cases he
  | cons x xs ih =>
    intro k hl e he
    simp only [assignTokensGo, List.mem_cons] at he
    rcases he with he | he
    · subst he
      rcases hl x (List.mem_cons_self x xs) with hx | ⟨li, hx, hty⟩
      · subst hx
        split <;> exact Or.inl rfl
      · subst hx
        split
        · exact Or.inr ⟨li, rfl, hty⟩
        · exact Or.inr ⟨_, rfl, hty⟩
    · exact ih (k + 1) (fun e2 he2 => hl e2 (List.mem_cons_of_mem x he2)) e he

theorem append_forall_dish (l1 l2 : List Entry) (h1 : ∀ e ∈ l1, Dish e)
    (h2 : ∀ e ∈ l2, Dish e) : ∀ e ∈ l1 ++ l2, Dish e := by
  intro e he
  rcases List.mem_append.mp he with he | he
  · exact h1 e he
  · exact h2 e he

theorem toItemsGo_count_zero (co : Bool) (p : RenderItem → Bool)
    (hp : ∀ e : Entry, Dish e → p (.line (convertEntryLine e)) = false) :
    ∀ (l : List Entry), (∀ e ∈ l, Dish e) →
      ∀ (items : List RenderItem) (cur : Option Nat), items.countP p = 0 →
        ((toItemsGo co l items cur).1).countP p = 0 := by
  intro l
  induction l with
  | nil => intro _ items cur h0; exact h0
  | cons e rest ih =>
    intro hl items cur h0
    have hd := hl e (List.mem_cons_self e rest)
    have hrest : ∀ e2 ∈ rest, Dish e2 := fun e2 he2 => hl e2 (List.mem_cons_of_mem e he2)
    have hcount : (items ++ [RenderItem.line (convertEntryLine e)]).countP p = 0 := by
      rw [List.countP_append, h0, List.countP_singleton, hp e hd]
      rfl
    rcases hd with hd | ⟨li, hd, hty⟩
    · subst hd
      exact ih hrest _ _ hcount
    · subst hd
      exact ih hrest _ _ hcount

theorem prepare_self (code : Str) :
    prepare refDiffLines code (some code) false =
      { isDiff := true,
        fromText := if endsWithNL code then code else code ++ [NL],
        toText := if endsWithNL code then code else code ++ [NL],
        fromNewlineEOF := endsWithNL code,
        toNewlineEOF := endsWithNL code,
        fromLines := splitNL (if endsWithNL code then code else code ++ [NL]),
        toLines := splitNL (if endsWithNL code then code else code ++ [NL]),
        changes := refDiffLines (if endsWithNL code then code else code ++ [NL])
                     (if endsWithNL code then code else code ++ [NL]),
        upcomingLines := [] } := by
  unfold prepare
  simp only [Option.getD_some, Option.isSome_some, Bool.false_eq_true, if_neg,
    not_false_eq_true, List.take_length, joinNL_splitNL]
theorem applyStreaming_false (up : List Str) (st : BuildSt) :
    applyStreaming false up st = st := rfl

/-- C8: tokenizing with `diffWith` equal to the code string itself (with the
default options: streaming off, collapsing off) yields zero `added` records
and zero `removed` records, for every code string and every syntax
tokenizer. -/
theorem C8_noop_diff (hl : Str → List (List Tok)) (code : Str) :
    (tokenizeModel refDiffLines refDiffWords hl code (some code) false none).items.countP
      (fun it => itemIsType it LineType.added || itemIsType it LineType.removed) = 0 := by
  have hp : ∀ e : Entry, Dish e →
      (fun it => itemIsType it LineType.added || itemIsType it LineType.removed)
        (RenderItem.line (convertEntryLine e)) = false := by
    intro e hd
    rcases hd with rfl | ⟨li, rfl, hty⟩
    · rfl
    · simp [convertEntryLine, entryLineInfo, itemIsType, convertLineInfoToRenderLine, hty]
  unfold tokenizeModel
  rw [prepare_self]
  simp only [ite_self, Option.isSome_none, Bool.and_self, ne_eq, not_true_eq_false,
    if_neg, Bool.false_eq_true, if_false]
  rw [applyStreaming_false]
  have hb : ∀ e ∈ (builderState refDiffWords
      { isDiff := true,
        fromText := if endsWithNL code = true then code else code ++ [NL],
        toText := if endsWithNL code = true then code else code ++ [NL],
        fromNewlineEOF := endsWithNL code, toNewlineEOF := endsWithNL code,
        fromLines := splitNL (if endsWithNL code = true then code else code ++ [NL]),
        toLines := splitNL (if endsWithNL code = true then code else code ++ [NL]),
        changes := refDiffLines (if endsWithNL code = true then code else code ++ [NL])
          (if endsWithNL code = true then code else code ++ [NL]),
        upcomingLines := [] }).lineInfos, Dish e := by
    unfold builderState
    exact procChanges_dish refDiffWords _ (refDiffLines_self _) {} (by intro e he; cases he)
  unfold toItems
  apply toItemsGo_count_zero false _ hp
  · intro e he
    exact assignTokensGo_dish _ _ _ 0 hb e (List.drop_subset 1 _ he)
  · rfl

/-! ## Builder filledness invariants (claims C3 and C10)

The streaming overlay mutates the slot at `unifiedLineNumber - 1` without
checking that it exists.  The lemmas of this section show that, whenever the
external diff's output satisfies the contract of the `diff` package (flags
exclusive, hunk counts matching their texts, maximal runs, full coverage of
the after text), the builder fills every slot in `[1, unifiedLineNumber)`
with a line record of kind `default`, `added` or `removed`, and
`unifiedLineNumber ≥ 2`. -/

/-- A line record of one of the three kinds the builder creates. -/
def DAR (li : LineInfo) : Prop :=
  li.type = .default ∨ li.type = .added ∨ li.type = .removed

/-- A slot holding a builder-created line record. -/
def isLineDAR (e : Entry) : Prop := ∃ li, e = .line li ∧ DAR li

/-- Every slot of the array is a hole or a builder-created line record. -/
def AllDARish (l : List Entry) : Prop :=
  ∀ i, getE l i = .hole ∨ isLineDAR (getE l i)

/-- All slots in `[lo, hi)` hold builder-created line records. -/
def FilledRange (l : List Entry) (lo hi : Nat) : Prop :=
  ∀ i, lo ≤ i → i < hi → isLineDAR (getE l i)

/-- Number of newline characters of a string. -/
def countNL (s : Str) : Nat := s.count NL

theorem getE_nil (i : Nat) : getE [] i = .hole := by cases i <;> rfl

theorem getE_ge_length (l : List Entry) (i : Nat) (h : l.length ≤ i) :
    getE l i = .hole := by
  unfold getE
  rw [List.getD_eq_getElem?_getD, List.getElem?_eq_none h]
  rfl

theorem setE_getE_lt (l : List Entry) (i : Nat) (v : Entry) (h : i < l.length) :
    (setE l i v).length = l.length := by
  rw [setE_length]; omega

theorem orSetE_getE_self (l : List Entry) (i : Nat) (v : Entry) :
    getE (orSetE l i v) i = getE l i ∨
      (getE l i = .hole ∧ getE (orSetE l i v) i = v) := by
  unfold orSetE
  split
  · exact Or.inl rfl
  · rename_i h
    right
    constructor
    · cases hg : getE l i with
      | hole => rfl
      | line li => rw [hg] at h; simp [Entry.isSet] at h
      | collapsed g => rw [hg] at h; simp [Entry.isSet] at h
    · exact getE_setE_self l i v

theorem orSetE_getE_ne (l : List Entry) (i j : Nat) (v : Entry) (h : i ≠ j) :
    getE (orSetE l i v) j = getE l j := by
  unfold orSetE
  split
  · rfl
  · exact getE_setE_ne l i j v h

theorem modLine_getE_ne (l : List Entry) (i j : Nat) (f : LineInfo → LineInfo) (h : i ≠ j) :
    getE (modLine l i f) j = getE l j := by
  unfold modLine
  split
  · exact getE_setE_ne l i j _ h
  · rfl

theorem modLine_getE_self (l : List Entry) (i : Nat) (f : LineInfo → LineInfo) :
    (∀ li, getE l i = .line li → getE (modLine l i f) i = .line (f li)) ∧
    ((∀ li, getE l i ≠ .line li) → modLine l i f = l) := by
  constructor
  · intro li h
    unfold modLine
    rw [h]
    exact getE_setE_self l i _
  · intro h
    unfold modLine
    cases hg : getE l i with
    | hole => rfl
    | line li => exact absurd hg (h li)
    | collapsed g => rfl

theorem modLine_length (l : List Entry) (i : Nat) (f : LineInfo → LineInfo) :
    (modLine l i f).length = l.length := by
  unfold modLine
  cases hg : getE l i with
  | hole => rfl
  | line li =>
    have hi : i < l.length := by
      by_contra hge
      rw [getE_ge_length l i (by omega)] at hg
      cases hg
    exact setE_getE_lt l i _ hi
  | collapsed g => rfl

theorem addMarks_getE (l : List Entry) (i col len j : Nat) :
    getE (addMarks l i col len) j = getE l j ∨
      (j = i ∧ ∃ li, getE l j = .line li ∧
        getE (addMarks l i col len) j = .line { li with marks := li.marks ++ List.range' col len }) := by
  unfold addMarks
  split
  · exact Or.inl rfl
  · by_cases hij : i = j
    · subst hij
      unfold modLine
      cases hg : getE l i with
      | hole => exact Or.inl hg
      | line li => exact Or.inr ⟨rfl, li, rfl, getE_setE_self l i _⟩
      | collapsed g => exact Or.inl hg
    · left; exact modLine_getE_ne l i j _ hij

theorem addMarks_length (l : List Entry) (i col len : Nat) :
    (addMarks l i col len).length = l.length := by
  unfold addMarks
  split
  · rfl
  · exact modLine_length l i _

theorem splitNL_length (s : Str) : (splitNL s).length = countNL s + 1 := by
  induction s with
  | nil => simp [splitNL, countNL]
  | cons c rest ih =>
    simp only [splitNL]
    split
    · rename_i hc
      subst hc
      simp only [List.length_cons, ih, countNL, List.count_cons]
      simp
    · rename_i hc
      have hne := splitNL_ne_nil rest
      match hs : splitNL rest with
      | [] => exact absurd hs hne
      | l :: ls =>
        rw [hs] at ih
        simp only [List.length_cons] at ih ⊢
        rw [ih]
        have hcn : (NL == c) = false := beq_eq_false_iff_ne.mpr (fun h => hc h.symm)
        simp [countNL, List.count_cons, hcn, hc]

theorem lineToks_ne_nil (s : Str) (h : s ≠ []) : lineToks s ≠ [] := by
  intro hcon
  apply h
  rw [← lineToks_flatten s, hcon]
  rfl

theorem endsWithNL_cons (c : Char) (rest : Str) (h : rest ≠ []) :
    endsWithNL (c :: rest) = endsWithNL rest := by
  unfold endsWithNL
  rw [List.getLast?_cons, List.getLast?_eq_getLast _ h]
  simp [List.getLast?_eq_getLast _ h]

theorem stripTrailingNL_cons (c : Char) (rest : Str) (h : rest ≠ []) :
    stripTrailingNL (c :: rest) = c :: stripTrailingNL rest := by
  unfold stripTrailingNL
  rw [endsWithNL_cons c rest h]
  split
  · rw [List.dropLast_cons_of_ne_nil h]
  · rfl

theorem lineToks_length (s : Str) (h : s ≠ []) :
    (lineToks s).length = countNL (stripTrailingNL s) + 1 := by
  induction s with
  | nil => exact absurd rfl h
  | cons c rest ih =>
    by_cases hr : rest = []
    · subst hr
      by_cases hc : c = NL
      · subst hc
        simp [lineToks, stripTrailingNL, endsWithNL, countNL]
      · have h1 : lineToks [c] = [[c]] := by simp [lineToks, hc]
        have h2 : stripTrailingNL [c] = [c] := by
          unfold stripTrailingNL endsWithNL
          simp [hc]
        have hcn : (NL == c) = false := beq_eq_false_iff_ne.mpr (fun h => hc h.symm)
        rw [h1, h2]
        simp [countNL, List.count_cons, hcn, hc]
    · rw [stripTrailingNL_cons c rest hr]
      simp only [lineToks]
      split
      · rename_i hc
        subst hc
        simp only [List.length_cons, ih hr, countNL, List.count_cons]
        simp
      · rename_i hc
        have hne := lineToks_ne_nil rest hr
        match hs : lineToks rest with
        | [] => exact absurd hs hne
        | t :: ts =>
          rw [hs] at ih
          simp only [List.length_cons] at ih ⊢
          rw [ih hr]
          have hcn : (NL == c) = false := beq_eq_false_iff_ne.mpr (fun h => hc h.symm)
          simp [countNL, List.count_cons, hcn, hc]

/-- Entry evolution under the modified-block operations: unchanged, a filled
hole, or a line record whose `type` is untouched (only its `marks` grew). -/
def TypePres (e1 e2 : Entry) : Prop :=
  e2 = e1 ∨ e1 = .hole ∨ ∃ li li2, e1 = .line li ∧ e2 = .line li2 ∧ li2.type = li.type

theorem TypePres.refl (e : Entry) : TypePres e e := Or.inl rfl

theorem TypePres.trans {e1 e2 e3 : Entry} (h12 : TypePres e1 e2) (h23 : TypePres e2 e3) :
    TypePres e1 e3 := by
  rcases h12 with rfl | rfl | ⟨li, li2, rfl, rfl, hty⟩
  · exact h23
  · exact Or.inr (Or.inl rfl)
  · rcases h23 with rfl | h2 | ⟨li2a, li3, heq, rfl, hty3⟩
    · exact Or.inr (Or.inr ⟨li, li2, rfl, rfl, hty⟩)
    · cases h2
    · cases heq
      exact Or.inr (Or.inr ⟨li, li3, rfl, rfl, by rw [hty3, hty]⟩)

theorem TypePres.isLineDAR {e1 e2 : Entry} (h : TypePres e1 e2) (hd : isLineDAR e1) :
    isLineDAR e2 := by
  rcases h with rfl | rfl | ⟨li, li2, rfl, rfl, hty⟩
  · exact hd
  · rcases hd with ⟨li3, heq, _⟩
    cases heq
  · rcases hd with ⟨li3, heq, hdar⟩
    cases heq
    exact ⟨li2, rfl, by unfold DAR at hdar ⊢; rw [hty]; exact hdar⟩

theorem isSet_lt_length (l : List Entry) (i : Nat) (h : (getE l i).isSet = true) :
    i < l.length := by
  by_contra hge
  rw [getE_ge_length l i (by omega)] at h
  cases h

theorem orSetE_length_bounds (l : List Entry) (i : Nat) (v : Entry) :
    l.length ≤ (orSetE l i v).length ∧ (orSetE l i v).length ≤ max l.length (i + 1) := by
  unfold orSetE
  split
  · exact ⟨Nat.le_refl _, Nat.le_max_left _ _⟩
  · rw [setE_length]
    exact ⟨Nat.le_max_left _ _, Nat.le_refl _⟩

theorem orSetE_length_big (l : List Entry) (i : Nat) (v : Entry) (h : l.length ≤ i + 1) :
    (orSetE l i v).length = i + 1 ∨
      ((orSetE l i v).length = l.length ∧ i < l.length) := by
  unfold orSetE
  split
  · rename_i hs
    exact Or.inr ⟨rfl, isSet_lt_length l i hs⟩
  · rw [setE_length]
    left
    omega

theorem orSetE_TypePres (l : List Entry) (i j : Nat) (v : Entry) :
    TypePres (getE l j) (getE (orSetE l i v) j) := by
  by_cases hij : i = j
  · subst hij
    rcases orSetE_getE_self l i v with h | ⟨hh, hv⟩
    · rw [h]; exact TypePres.refl _
    · rw [hh, hv]
      exact Or.inr (Or.inl rfl)
  · rw [orSetE_getE_ne l i j v hij]
    exact TypePres.refl _

theorem orSetE_AllDARish (l : List Entry) (i : Nat) (li : LineInfo) (hdar2 : DAR li)
    (h : AllDARish l) : AllDARish (orSetE l i (.line li)) := by
  intro j
  by_cases hij : i = j
  · subst hij
    rcases orSetE_getE_self l i _ with heq | ⟨_, hv⟩
    · rw [heq]; exact h i
    · rw [hv]; exact Or.inr ⟨li, rfl, hdar2⟩
  · rw [orSetE_getE_ne l i j _ hij]; exact h j

theorem orSetE_fills (l : List Entry) (i : Nat) (li : LineInfo) (hdar2 : DAR li)
    (h : AllDARish l) : isLineDAR (getE (orSetE l i (.line li)) i) := by
  rcases orSetE_getE_self l i (.line li) with heq | ⟨hh, hv⟩
  · rw [heq]
    rcases h i with hh | hd
    · unfold orSetE at heq
      split at heq
      · rename_i hset
        rw [hh] at hset
        cases hset
      · rw [getE_setE_self] at heq
        rw [← heq] at hh
        cases hh
    · exact hd
  · rw [hv]
    exact ⟨li, rfl, hdar2⟩

theorem ensureSlots_spec (st : ModSt) (hlt : st.fromUnifiedLine < st.toUnifiedLine)
    (hlen : st.lineInfos.length ≤ st.toUnifiedLine + 1) (hdar : AllDARish st.lineInfos) :
    (ensureSlots st).lineInfos.length = st.toUnifiedLine + 1 ∧
    AllDARish (ensureSlots st).lineInfos ∧
    isLineDAR (getE (ensureSlots st).lineInfos st.fromUnifiedLine) ∧
    isLineDAR (getE (ensureSlots st).lineInfos st.toUnifiedLine) ∧
    (∀ j, j ≠ st.fromUnifiedLine → j ≠ st.toUnifiedLine →
      getE (ensureSlots st).lineInfos j = getE st.lineInfos j) ∧
    (∀ j, TypePres (getE st.lineInfos j) (getE (ensureSlots st).lineInfos j)) := by
  unfold ensureSlots
  simp only
  set v1 : Entry := .line { type := .removed, oldLineNumber := some st.oldLineNumber } with hv1
  set v2 : Entry := .line { type := .added, newLineNumber := some st.newLineNumber } with hv2
  set l1 := orSetE st.lineInfos st.fromUnifiedLine v1 with hl1
  have hb1 := orSetE_length_bounds st.lineInfos st.fromUnifiedLine v1
  have hlen1 : l1.length ≤ st.toUnifiedLine + 1 := by
    rw [hl1]; rcases hb1 with ⟨_, hub⟩; omega
  have hdar1 : AllDARish l1 := orSetE_AllDARish _ _ _ (Or.inr (Or.inr rfl)) hdar
  refine ⟨?_, ?_, ?_, ?_, ?_, ?_⟩
  · rcases orSetE_length_big l1 st.toUnifiedLine v2 hlen1 with h | ⟨heq, hlt2⟩
    · exact h
    · rw [heq]
      have : st.toUnifiedLine + 1 ≤ l1.length := by omega
      omega
  · exact orSetE_AllDARish _ _ _ (Or.inr (Or.inl rfl)) hdar1
  · rw [orSetE_getE_ne l1 st.toUnifiedLine st.fromUnifiedLine v2 (by omega)]
    exact orSetE_fills _ _ _ (Or.inr (Or.inr rfl)) hdar
  · exact orSetE_fills _ _ _ (Or.inr (Or.inl rfl)) hdar1
  · intro j hjf hjt
    rw [orSetE_getE_ne l1 st.toUnifiedLine j v2 (fun h => hjt h.symm),
      orSetE_getE_ne st.lineInfos st.fromUnifiedLine j v1 (fun h => hjf h.symm)]
  · intro j
    exact (orSetE_TypePres st.lineInfos st.fromUnifiedLine j v1).trans
      (orSetE_TypePres l1 st.toUnifiedLine j v2)

theorem markSeg_spec (ic : Change) (seg : Str) (st : ModSt) :
    (markSeg ic seg st).lineInfos.length = st.lineInfos.length ∧
    (markSeg ic seg st).fromUnifiedLine = st.fromUnifiedLine ∧
    (markSeg ic seg st).toUnifiedLine = st.toUnifiedLine ∧
    (AllDARish st.lineInfos → AllDARish (markSeg ic seg st).lineInfos) ∧
    (∀ j, TypePres (getE st.lineInfos j) (getE (markSeg ic seg st).lineInfos j)) ∧
    (∀ j, j ≠ st.fromUnifiedLine → j ≠ st.toUnifiedLine →
      getE (markSeg ic seg st).lineInfos j = getE st.lineInfos j) := by
  have haux : ∀ (l : List Entry) (i col len : Nat),
      (AllDARish l → AllDARish (addMarks l i col len)) ∧
      (∀ j, TypePres (getE l j) (getE (addMarks l i col len) j)) ∧
      (∀ j, j ≠ i → getE (addMarks l i col len) j = getE l j) := by
    intro l i col len
    refine ⟨?_, ?_, ?_⟩
    · intro h j
      rcases addMarks_getE l i col len j with heq | ⟨_, li, h1, h2⟩
      · rw [heq]; exact h j
      · rw [h2]
        rcases h j with hh | ⟨li2, hl, hd⟩
        · rw [h1] at hh; cases hh
        · rw [h1] at hl
          cases hl
          exact Or.inr ⟨_, rfl, hd⟩
    · intro j
      rcases addMarks_getE l i col len j with heq | ⟨_, li, h1, h2⟩
      · rw [heq]; exact TypePres.refl _
      · rw [h1, h2]
        exact Or.inr (Or.inr ⟨li, _, rfl, rfl, rfl⟩)
    · intro j hji
      rcases addMarks_getE l i col len j with heq | ⟨hji2, _, _, _⟩
      · exact heq
      · exact absurd hji2 hji
  unfold markSeg
  split
  · exact ⟨addMarks_length _ _ _ _, rfl, rfl, (haux _ _ _ _).1, (haux _ _ _ _).2.1,
      fun j hjf _ => (haux _ _ _ _).2.2 j hjf⟩
  · split
    · exact ⟨addMarks_length _ _ _ _, rfl, rfl, (haux _ _ _ _).1, (haux _ _ _ _).2.1,
        fun j _ hjt => (haux _ _ _ _).2.2 j hjt⟩
    · exact ⟨rfl, rfl, rfl, fun h => h, fun j => TypePres.refl _, fun j _ _ => rfl⟩

theorem crossNL_spec (ic : Change) (st : ModSt) (hnb : ¬(ic.added = true ∧ ic.removed = true)) :
    (crossNL ic st).lineInfos = st.lineInfos ∧
    (crossNL ic st).fromUnifiedLine = st.fromUnifiedLine + (if ic.added = true then 0 else 1) ∧
    (crossNL ic st).toUnifiedLine = st.toUnifiedLine + (if ic.removed = true then 0 else 1) := by
  have hcases : (ic.removed = true ∧ ic.added = false) ∨
      (ic.removed = false ∧ ic.added = true) ∨
      (ic.removed = false ∧ ic.added = false) := by
    cases hr : ic.removed <;> cases ha : ic.added
    · exact Or.inr (Or.inr ⟨rfl, rfl⟩)
    · exact Or.inr (Or.inl ⟨rfl, rfl⟩)
    · exact Or.inl ⟨rfl, rfl⟩
    · exact absurd ⟨ha, hr⟩ hnb
  unfold crossNL
  rcases hcases with ⟨hr, ha⟩ | ⟨hr, ha⟩ | ⟨hr, ha⟩ <;> simp [hr, ha]

theorem procSegs_spec (ic : Change) (hnb : ¬(ic.added = true ∧ ic.removed = true)) :
    ∀ (segs : List Str), segs ≠ [] → ∀ (st : ModSt),
      st.fromUnifiedLine + (if ic.added = true then 0 else segs.length - 1) <
        st.toUnifiedLine →
      st.lineInfos.length ≤ st.toUnifiedLine + 1 →
      AllDARish st.lineInfos →
      (procSegs ic segs st).fromUnifiedLine =
          st.fromUnifiedLine + (if ic.added = true then 0 else segs.length - 1) ∧
      (procSegs ic segs st).toUnifiedLine =
          st.toUnifiedLine + (if ic.removed = true then 0 else segs.length - 1) ∧
      (procSegs ic segs st).lineInfos.length = (procSegs ic segs st).toUnifiedLine + 1 ∧
      AllDARish (procSegs ic segs st).lineInfos ∧
      (∀ j, TypePres (getE st.lineInfos j) (getE (procSegs ic segs st).lineInfos j)) ∧
      (∀ j, j < st.fromUnifiedLine →
        getE (procSegs ic segs st).lineInfos j = getE st.lineInfos j) ∧
      FilledRange (procSegs ic segs st).lineInfos st.fromUnifiedLine
        ((procSegs ic segs st).fromUnifiedLine + 1) ∧
      FilledRange (procSegs ic segs st).lineInfos st.toUnifiedLine
        ((procSegs ic segs st).toUnifiedLine + 1) := by
  intro segs
  induction segs with
  | nil => intro h; exact absurd rfl h
  | cons seg rest ih =>
    intro _ st hbound hlen hdar
    cases rest with
    | nil =>
      simp only [procSegs]
      have hlt : st.fromUnifiedLine < st.toUnifiedLine := by
        revert hbound; split <;> omega
      obtain ⟨e1, e2, e3, e4, e5, e6⟩ := ensureSlots_spec st hlt hlen hdar
      obtain ⟨m1, m2, m3, m4, m5, m6⟩ := markSeg_spec ic seg (ensureSlots st)
      have hef : (ensureSlots st).fromUnifiedLine = st.fromUnifiedLine := rfl
      have het : (ensureSlots st).toUnifiedLine = st.toUnifiedLine := rfl
      have hz : (if ic.added = true then 0 else ([seg] : List Str).length - 1) = 0 := by
        split <;> rfl
      have hz2 : (if ic.removed = true then 0 else ([seg] : List Str).length - 1) = 0 := by
        split <;> rfl
      rw [hz, hz2]
      refine ⟨by rw [m2, hef]; omega, by rw [m3, het]; omega, ?_, m4 e2, ?_, ?_, ?_, ?_⟩
      · rw [m1, e1, m3, het]
      · intro j
        exact (e6 j).trans (m5 j)
      · intro j hj
        rw [m6 j (by rw [hef]; omega) (by rw [het]; omega),
          e5 j (by omega) (by omega)]
      · intro i hi1 hi2
        rw [m2, hef] at hi2
        have hieq : i = st.fromUnifiedLine := by omega
        subst hieq
        exact ((m5 st.fromUnifiedLine).isLineDAR e3)
      · intro i hi1 hi2
        rw [m3, het] at hi2
        have hieq : i = st.toUnifiedLine := by omega
        subst hieq
        exact ((m5 st.toUnifiedLine).isLineDAR e4)
    | cons b bs =>
      have hlt : st.fromUnifiedLine < st.toUnifiedLine := by
        revert hbound; split <;> omega
      obtain ⟨e1, e2, e3, e4, e5, e6⟩ := ensureSlots_spec st hlt hlen hdar
      obtain ⟨m1, m2, m3, m4, m5, m6⟩ := markSeg_spec ic seg (ensureSlots st)
      obtain ⟨c1, c2, c3⟩ := crossNL_spec ic (markSeg ic seg (ensureSlots st)) hnb
      have hef : (ensureSlots st).fromUnifiedLine = st.fromUnifiedLine := rfl
      have het : (ensureSlots st).toUnifiedLine = st.toUnifiedLine := rfl
      set m1st := crossNL ic (markSeg ic seg (ensureSlots st)) with hm1
      have hm1f : m1st.fromUnifiedLine =
          st.fromUnifiedLine + (if ic.added = true then 0 else 1) := by
        rw [hm1, c2, m2, hef]
      have hm1t : m1st.toUnifiedLine =
          st.toUnifiedLine + (if ic.removed = true then 0 else 1) := by
        rw [hm1, c3, m3, het]
      have hm1l : m1st.lineInfos = (markSeg ic seg (ensureSlots st)).lineInfos := c1
      have hm1len : m1st.lineInfos.length = st.toUnifiedLine + 1 := by
        rw [hm1l, m1, e1]
      have hm1dar : AllDARish m1st.lineInfos := by
        rw [hm1l]; exact m4 e2
      have hcases : (ic.removed = true ∧ ic.added = false) ∨
          (ic.removed = false ∧ ic.added = true) ∨
          (ic.removed = false ∧ ic.added = false) := by
        cases hr : ic.removed <;> cases ha : ic.added
        · exact Or.inr (Or.inr ⟨rfl, rfl⟩)
        · exact Or.inr (Or.inl ⟨rfl, rfl⟩)
        · exact Or.inl ⟨rfl, rfl⟩
        · exact absurd ⟨ha, hr⟩ hnb
      have hbound2 : m1st.fromUnifiedLine +
          (if ic.added = true then 0 else (b :: bs : List Str).length - 1) <
          m1st.toUnifiedLine := by
        rw [hm1f, hm1t]
        revert hbound
        rcases hcases with ⟨hr, ha⟩ | ⟨hr, ha⟩ | ⟨hr, ha⟩ <;> simp [hr, ha] <;> omega
      have hlen2 : m1st.lineInfos.length ≤ m1st.toUnifiedLine + 1 := by
        rw [hm1len, hm1t]
        rcases hcases with ⟨hr, _⟩ | ⟨hr, _⟩ | ⟨hr, _⟩ <;> simp [hr]
      have hstep : procSegs ic (seg :: b :: bs) st = procSegs ic (b :: bs) m1st := rfl
      obtain ⟨i1, i2, i3, i4, i5, i6, i7, i8⟩ := ih (by simp) m1st hbound2 hlen2 hm1dar
      rw [hstep]
      have hfr : (procSegs ic (b :: bs) m1st).fromUnifiedLine =
          st.fromUnifiedLine + (if ic.added = true then 0 else (seg :: b :: bs : List Str).length - 1) := by
        rw [i1, hm1f]
        rcases hcases with ⟨_, ha⟩ | ⟨_, ha⟩ | ⟨_, ha⟩ <;> simp [ha] <;> omega
      have htr : (procSegs ic (b :: bs) m1st).toUnifiedLine =
          st.toUnifiedLine + (if ic.removed = true then 0 else (seg :: b :: bs : List Str).length - 1) := by
        rw [i2, hm1t]
        rcases hcases with ⟨hr, _⟩ | ⟨hr, _⟩ | ⟨hr, _⟩ <;> simp [hr] <;> omega
      have hpres : ∀ j, TypePres (getE st.lineInfos j)
          (getE (procSegs ic (b :: bs) m1st).lineInfos j) := by
        intro j
        refine ((e6 j).trans ?_).trans (i5 j)
        rw [hm1l]
        exact m5 j
      refine ⟨hfr, htr, i3, i4, hpres, ?_, ?_, ?_⟩
      · intro j hj
        have hj2 : j < m1st.fromUnifiedLine := by rw [hm1f]; omega
        rw [i6 j hj2, hm1l, m6 j (by rw [hef]; omega) (by rw [het]; omega),
          e5 j (by omega) (by omega)]
      · intro i hi1 hi2
        by_cases hcase : m1st.fromUnifiedLine ≤ i
        · exact i7 i hcase hi2
        · have hieq : i = st.fromUnifiedLine := by
            rw [hm1f] at hcase
            revert hcase
            split <;> omega
          subst hieq
          apply (i5 st.fromUnifiedLine).isLineDAR
          rw [hm1l]
          exact (m5 st.fromUnifiedLine).isLineDAR e3
      · intro i hi1 hi2
        by_cases hcase : m1st.toUnifiedLine ≤ i
        · exact i8 i hcase hi2
        · have hieq : i = st.toUnifiedLine := by
            rw [hm1t] at hcase
            revert hcase
            split <;> omega
          subst hieq
          apply (i5 st.toUnifiedLine).isLineDAR
          rw [hm1l]
          exact (m5 st.toUnifiedLine).isLineDAR e4

theorem countNL_append (a b : Str) : countNL (a ++ b) = countNL a + countNL b := by
  simp [countNL, List.count_append]

theorem procInner_spec (ics : List Change)
    (hall : ∀ ic ∈ ics, ¬(ic.added = true ∧ ic.removed = true)) :
    ∀ st : ModSt,
      st.fromUnifiedLine +
          countNL ((ics.filter (fun c => !c.added)).map Change.value).flatten <
        st.toUnifiedLine →
      st.lineInfos.length ≤ st.toUnifiedLine + 1 →
      AllDARish st.lineInfos →
      (procInner ics st).fromUnifiedLine =
        st.fromUnifiedLine +
          countNL ((ics.filter (fun c => !c.added)).map Change.value).flatten ∧
      (procInner ics st).toUnifiedLine =
        st.toUnifiedLine +
          countNL ((ics.filter (fun c => !c.removed)).map Change.value).flatten ∧
      AllDARish (procInner ics st).lineInfos ∧
      (∀ j, TypePres (getE st.lineInfos j) (getE (procInner ics st).lineInfos j)) ∧
      (∀ j, j < st.fromUnifiedLine →
        getE (procInner ics st).lineInfos j = getE st.lineInfos j) ∧
      (ics ≠ [] →
        (procInner ics st).lineInfos.length = (procInner ics st).toUnifiedLine + 1 ∧
        FilledRange (procInner ics st).lineInfos st.fromUnifiedLine
          ((procInner ics st).fromUnifiedLine + 1) ∧
        FilledRange (procInner ics st).lineInfos st.toUnifiedLine
          ((procInner ics st).toUnifiedLine + 1)) := by
  induction ics with
  | nil =>
    intro st hbound hlen hdar
    refine ⟨by simp [procInner, countNL], by simp [procInner, countNL], hdar,
      fun j => TypePres.refl _, fun j _ => rfl, fun h => absurd rfl h⟩
  | cons ic rest ih =>
    intro st hbound hlen hdar
    have hnb : ¬(ic.added = true ∧ ic.removed = true) := hall ic (by simp)
    have hallr : ∀ c ∈ rest, ¬(c.added = true ∧ c.removed = true) :=
      fun c hc => hall c (List.mem_cons_of_mem ic hc)
    have hsegs : splitNL ic.value ≠ [] := splitNL_ne_nil ic.value
    have hsegl : (splitNL ic.value).length - 1 = countNL ic.value := by
      rw [splitNL_length]
      omega
    have hcases : (ic.removed = true ∧ ic.added = false) ∨
        (ic.removed = false ∧ ic.added = true) ∨
        (ic.removed = false ∧ ic.added = false) := by
      cases hr : ic.removed <;> cases ha : ic.added
      · exact Or.inr (Or.inr ⟨rfl, rfl⟩)
      · exact Or.inr (Or.inl ⟨rfl, rfl⟩)
      · exact Or.inl ⟨rfl, rfl⟩
      · exact absurd ⟨ha, hr⟩ hnb
    -- decompose the filtered newline totals
    have hdecf : countNL (((ic :: rest).filter (fun c => !c.added)).map Change.value).flatten =
        (if ic.added = true then 0 else countNL ic.value) +
          countNL ((rest.filter (fun c => !c.added)).map Change.value).flatten := by
      rcases hcases with ⟨hr, ha⟩ | ⟨hr, ha⟩ | ⟨hr, ha⟩ <;>
        simp [ha, List.filter_cons, countNL_append]
    have hdect : countNL (((ic :: rest).filter (fun c => !c.removed)).map Change.value).flatten =
        (if ic.removed = true then 0 else countNL ic.value) +
          countNL ((rest.filter (fun c => !c.removed)).map Change.value).flatten := by
      rcases hcases with ⟨hr, ha⟩ | ⟨hr, ha⟩ | ⟨hr, ha⟩ <;>
        simp [hr, List.filter_cons, countNL_append]
    have hbnd1 : st.fromUnifiedLine +
        (if ic.added = true then 0 else (splitNL ic.value).length - 1) < st.toUnifiedLine := by
      rw [hsegl]
      rw [hdecf] at hbound
      revert hbound
      rcases hcases with ⟨hr, ha⟩ | ⟨hr, ha⟩ | ⟨hr, ha⟩ <;> simp [ha] <;> omega
    obtain ⟨p1, p2, p3, p4, p5, p6, p7, p8⟩ :=
      procSegs_spec ic hnb (splitNL ic.value) hsegs st hbnd1 hlen hdar
    set m1st := procSegs ic (splitNL ic.value) st with hm1
    have hstep : procInner (ic :: rest) st = procInner rest m1st := rfl
    have hbnd2 : m1st.fromUnifiedLine +
        countNL ((rest.filter (fun c => !c.added)).map Change.value).flatten <
        m1st.toUnifiedLine := by
      rw [p1, p2, hsegl]
      rw [hdecf] at hbound
      revert hbound
      rcases hcases with ⟨hr, ha⟩ | ⟨hr, ha⟩ | ⟨hr, ha⟩ <;> simp [hr, ha] <;> omega
    have hlen2 : m1st.lineInfos.length ≤ m1st.toUnifiedLine + 1 := le_of_eq p3
    obtain ⟨i1, i2, i3, i4, i5, i6⟩ := ih hallr m1st hbnd2 hlen2 p4
    rw [hstep]
    have hfrom : (procInner rest m1st).fromUnifiedLine =
        st.fromUnifiedLine +
          countNL (((ic :: rest).filter (fun c => !c.added)).map Change.value).flatten := by
      rw [i1, p1, hsegl, hdecf]
      omega
    have hto : (procInner rest m1st).toUnifiedLine =
        st.toUnifiedLine +
          countNL (((ic :: rest).filter (fun c => !c.removed)).map Change.value).flatten := by
      rw [i2, p2, hsegl, hdect]
      omega
    refine ⟨hfrom, hto, i3, ?_, ?_, ?_⟩
    · intro j
      exact (p5 j).trans (i4 j)
    · intro j hj
      rw [i5 j (by rw [p1]; omega), p6 j hj]
    · intro _
      cases hrest : rest with
      | nil =>
        subst hrest
        have hid : procInner ([] : List Change) m1st = m1st := rfl
        rw [hid]
        refine ⟨p3, ?_, ?_⟩
        · intro i hi1 hi2
          exact p7 i hi1 hi2
        · intro i hi1 hi2
          exact p8 i hi1 hi2
      | cons r rs =>
        subst hrest
        obtain ⟨l1, l2, l3⟩ := i6 (by simp)
        refine ⟨l1, ?_, ?_⟩
        · intro i hi1 hi2
          by_cases hcase : m1st.fromUnifiedLine ≤ i
          · exact l2 i hcase hi2
          · apply (i4 i).isLineDAR
            exact p7 i hi1 (by omega)
        · intro i hi1 hi2
          by_cases hcase : m1st.toUnifiedLine ≤ i
          · exact l3 i hcase hi2
          · apply (i4 i).isLineDAR
            exact p8 i hi1 (by omega)

theorem procModified_spec (dw : Str → Str → List Change) (c n : Change) (st : BuildSt)
    (hcnt : c.count = (lineToks c.value).length) (hc0 : c.count ≠ 0)
    (hnontr : ¬(stripTrailingNL c.value = [] ∧ stripTrailingNL n.value = []))
    (hcova : (((dw (stripTrailingNL c.value) (stripTrailingNL n.value)).filter
        (fun w => !w.added)).map Change.value).flatten = stripTrailingNL c.value)
    (hcovb : (((dw (stripTrailingNL c.value) (stripTrailingNL n.value)).filter
        (fun w => !w.removed)).map Change.value).flatten = stripTrailingNL n.value)
    (hflags : ∀ w ∈ dw (stripTrailingNL c.value) (stripTrailingNL n.value),
      ¬(w.added = true ∧ w.removed = true))
    (hpre1 : st.lineInfos.length = st.unifiedLineNumber ∨
      (st.lineInfos.length = 0 ∧ st.unifiedLineNumber = 1))
    (hdar : AllDARish st.lineInfos) :
    (procModified dw c n st).lineInfos.length = (procModified dw c n st).unifiedLineNumber ∧
    st.unifiedLineNumber + 2 ≤ (procModified dw c n st).unifiedLineNumber ∧
    AllDARish (procModified dw c n st).lineInfos ∧
    (∀ j, j < st.unifiedLineNumber →
      getE (procModified dw c n st).lineInfos j = getE st.lineInfos j) ∧
    FilledRange (procModified dw c n st).lineInfos st.unifiedLineNumber
      (procModified dw c n st).unifiedLineNumber := by
  have hvne : c.value ≠ [] := by
    intro hcon
    rw [hcon] at hcnt
    simp [lineToks] at hcnt
    exact hc0 hcnt
  have hcNL : countNL (stripTrailingNL c.value) = c.count - 1 := by
    have := lineToks_length c.value hvne
    omega
  set ws := dw (stripTrailingNL c.value) (stripTrailingNL n.value) with hws
  have hwsne : ws ≠ [] := by
    intro hcon
    rw [hcon] at hcova hcovb
    simp at hcova hcovb
    exact hnontr ⟨hcova, hcovb⟩
  set m0 : ModSt :=
    { lineInfos := st.lineInfos,
      fromUnifiedLine := st.unifiedLineNumber, fromCol := 0,
      toUnifiedLine := st.unifiedLineNumber + c.count, toCol := 0,
      oldLineNumber := st.oldLineNumber, newLineNumber := st.newLineNumber,
      unifiedLineNumber := st.unifiedLineNumber } with hm0
  have hbound : m0.fromUnifiedLine +
      countNL ((ws.filter (fun w => !w.added)).map Change.value).flatten <
      m0.toUnifiedLine := by
    rw [hcova, hcNL]
    show st.unifiedLineNumber + (c.count - 1) < st.unifiedLineNumber + c.count
    omega
  have hlen0 : m0.lineInfos.length ≤ m0.toUnifiedLine + 1 := by
    show st.lineInfos.length ≤ st.unifiedLineNumber + c.count + 1
    rcases hpre1 with h | ⟨h, _⟩ <;> omega
  obtain ⟨q1, q2, q3, q4, q5, q6⟩ := procInner_spec ws hflags m0 hbound hlen0 hdar
  obtain ⟨r1, r2, r3⟩ := q6 hwsne
  have hout : procModified dw c n st = {
      lineInfos := (procInner ws m0).lineInfos,
      unifiedLineNumber := (procInner ws m0).toUnifiedLine + 1,
      oldLineNumber := (procInner ws m0).oldLineNumber + 1,
      newLineNumber := (procInner ws m0).newLineNumber + 1 } := rfl
  rw [hout]
  rw [hcova, hcNL] at q1
  rw [hcovb] at q2
  have hq1 : (procInner ws m0).fromUnifiedLine = st.unifiedLineNumber + (c.count - 1) := q1
  have hq2 : (procInner ws m0).toUnifiedLine =
      st.unifiedLineNumber + c.count + countNL (stripTrailingNL n.value) := q2
  refine ⟨r1, by simp only; omega, q3, ?_, ?_⟩
  · intro j hj
    exact q5 j hj
  · intro i hi1 hi2
    simp only at hi1 hi2
    by_cases hcase : i < st.unifiedLineNumber + c.count
    · apply r2 i hi1
      rw [hq1]
      omega
    · apply r3 i
      · show st.unifiedLineNumber + c.count ≤ i
        omega
      · omega

theorem setE_AllDARish (l : List Entry) (i : Nat) (li : LineInfo) (hdar2 : DAR li)
    (h : AllDARish l) : AllDARish (setE l i (.line li)) := by
  intro j
  by_cases hij : i = j
  · subst hij
    rw [getE_setE_self]
    exact Or.inr ⟨li, rfl, hdar2⟩
  · rw [getE_setE_ne l i j _ hij]
    exact h j

/-- Common postcondition of one slot insertion at `st.unifiedLineNumber`. -/
theorem insert_step_spec (st : BuildSt) (li : LineInfo) (hdar2 : DAR li)
    (h1 : st.lineInfos.length = st.unifiedLineNumber ∨
      (st.lineInfos.length = 0 ∧ st.unifiedLineNumber = 1))
    (h2 : AllDARish st.lineInfos) :
    (setE st.lineInfos st.unifiedLineNumber (.line li)).length = st.unifiedLineNumber + 1 ∧
    AllDARish (setE st.lineInfos st.unifiedLineNumber (.line li)) ∧
    (∀ j, j < st.unifiedLineNumber →
      getE (setE st.lineInfos st.unifiedLineNumber (.line li)) j = getE st.lineInfos j) ∧
    isLineDAR (getE (setE st.lineInfos st.unifiedLineNumber (.line li)) st.unifiedLineNumber) := by
  refine ⟨?_, setE_AllDARish _ _ _ hdar2 h2, ?_, ?_⟩
  · rw [setE_length]
    rcases h1 with h | ⟨h, hu⟩ <;> omega
  · intro j hj
    exact getE_setE_ne _ _ _ _ (by omega)
  · rw [getE_setE_self]
    exact ⟨li, rfl, hdar2⟩


theorem emitDefaults_spec (n : Nat) : ∀ st : BuildSt,
    (st.lineInfos.length = st.unifiedLineNumber ∨
      (st.lineInfos.length = 0 ∧ st.unifiedLineNumber = 1)) →
    AllDARish st.lineInfos →
    (emitDefaults n st).unifiedLineNumber = st.unifiedLineNumber + n ∧
    ((emitDefaults n st).lineInfos.length = (emitDefaults n st).unifiedLineNumber ∨
      ((emitDefaults n st).lineInfos.length = 0 ∧ (emitDefaults n st).unifiedLineNumber = 1)) ∧
    AllDARish (emitDefaults n st).lineInfos ∧
    (∀ j, j < st.unifiedLineNumber →
      getE (emitDefaults n st).lineInfos j = getE st.lineInfos j) ∧
    FilledRange (emitDefaults n st).lineInfos st.unifiedLineNumber
      (emitDefaults n st).unifiedLineNumber := by
  induction n with
  | zero =>
    intro st h1 h2
    refine ⟨rfl, h1, h2, fun j _ => rfl, ?_⟩
    intro i hi1 hi2
    simp only [emitDefaults] at hi2
    omega
  | succ n ih =>
    intro st h1 h2
    obtain ⟨s1, s2, s3, s4⟩ := insert_step_spec st
      { type := .default, oldLineNumber := some st.oldLineNumber,
        newLineNumber := some st.newLineNumber } (Or.inl rfl) h1 h2
    obtain ⟨d1, d2, d3, d4, d5⟩ := ih
      { lineInfos := setE st.lineInfos st.unifiedLineNumber (.line
          { type := .default, oldLineNumber := some st.oldLineNumber,
            newLineNumber := some st.newLineNumber }),
        unifiedLineNumber := st.unifiedLineNumber + 1,
        oldLineNumber := st.oldLineNumber + 1,
        newLineNumber := st.newLineNumber + 1 } (Or.inl s1) s2
    simp only at d1 d4 d5
    have hstep : emitDefaults (n + 1) st = emitDefaults n
        { lineInfos := setE st.lineInfos st.unifiedLineNumber (.line
            { type := .default, oldLineNumber := some st.oldLineNumber,
              newLineNumber := some st.newLineNumber }),
          unifiedLineNumber := st.unifiedLineNumber + 1,
          oldLineNumber := st.oldLineNumber + 1,
          newLineNumber := st.newLineNumber + 1 } := rfl
    rw [hstep]
    refine ⟨by rw [d1]; omega, d2, d3, ?_, ?_⟩
    · intro j hj
      rw [d4 j (by omega), s3 j hj]
    · intro i hi1 hi2
      by_cases hcase : st.unifiedLineNumber + 1 ≤ i
      · exact d5 i hcase (by omega)
      · have hieq : i = st.unifiedLineNumber := by omega
        subst hieq
        rw [d4 st.unifiedLineNumber (by omega)]
        exact s4

theorem emitAddRemove_spec (c : Change) (n : Nat) : ∀ st : BuildSt,
    (st.lineInfos.length = st.unifiedLineNumber ∨
      (st.lineInfos.length = 0 ∧ st.unifiedLineNumber = 1)) →
    AllDARish st.lineInfos →
    (emitAddRemove c n st).unifiedLineNumber = st.unifiedLineNumber + n ∧
    ((emitAddRemove c n st).lineInfos.length = (emitAddRemove c n st).unifiedLineNumber ∨
      ((emitAddRemove c n st).lineInfos.length = 0 ∧
        (emitAddRemove c n st).unifiedLineNumber = 1)) ∧
    AllDARish (emitAddRemove c n st).lineInfos ∧
    (∀ j, j < st.unifiedLineNumber →
      getE (emitAddRemove c n st).lineInfos j = getE st.lineInfos j) ∧
    FilledRange (emitAddRemove c n st).lineInfos st.unifiedLineNumber
      (emitAddRemove c n st).unifiedLineNumber := by
  induction n with
  | zero =>
    intro st h1 h2
    refine ⟨rfl, h1, h2, fun j _ => rfl, ?_⟩
    intro i hi1 hi2
    simp only [emitAddRemove] at hi2
    omega
  | succ n ih =>
    intro st h1 h2
    obtain ⟨s1, s2, s3, s4⟩ := insert_step_spec st
      { type := if c.added then .added else .removed,
        oldLineNumber := if c.removed then some st.oldLineNumber else none,
        newLineNumber := if c.added then some st.newLineNumber else none }
      (by split <;> simp [DAR]) h1 h2
    obtain ⟨d1, d2, d3, d4, d5⟩ := ih
      { lineInfos := setE st.lineInfos st.unifiedLineNumber (.line
          { type := if c.added then .added else .removed,
            oldLineNumber := if c.removed then some st.oldLineNumber else none,
            newLineNumber := if c.added then some st.newLineNumber else none }),
        unifiedLineNumber := st.unifiedLineNumber + 1,
        newLineNumber := if c.added then st.newLineNumber + 1 else st.newLineNumber,
        oldLineNumber := if c.removed ∧ ¬c.added then st.oldLineNumber + 1
          else st.oldLineNumber } (Or.inl s1) s2
    simp only at d1 d4 d5
    have hstep : emitAddRemove c (n + 1) st = emitAddRemove c n
        { lineInfos := setE st.lineInfos st.unifiedLineNumber (.line
            { type := if c.added then .added else .removed,
              oldLineNumber := if c.removed then some st.oldLineNumber else none,
              newLineNumber := if c.added then some st.newLineNumber else none }),
          unifiedLineNumber := st.unifiedLineNumber + 1,
          newLineNumber := if c.added then st.newLineNumber + 1 else st.newLineNumber,
          oldLineNumber := if c.removed ∧ ¬c.added then st.oldLineNumber + 1
            else st.oldLineNumber } := rfl
    rw [hstep]
    refine ⟨by rw [d1]; omega, d2, d3, ?_, ?_⟩
    · intro j hj
      rw [d4 j (by omega), s3 j hj]
    · intro i hi1 hi2
      by_cases hcase : st.unifiedLineNumber + 1 ≤ i
      · exact d5 i hcase (by omega)
      · have hieq : i = st.unifiedLineNumber := by omega
        subst hieq
        rw [d4 st.unifiedLineNumber (by omega)]
        exact s4

/-! ## The line-diff well-formedness contract

`jsdiff`-style guarantees on the hunk list the builder consumes: exclusive
flags with a correct line count, no adjacent hunks of the same kind, no
removed/added pair whose two texts are both empty after stripping a trailing
newline, and coverage of the after text by the non-removed hunks. -/

/-- One hunk is well formed: the flags are exclusive, `count` is the number
of line tokens of `value`, and the hunk is non-empty. -/
def okChange (c : Change) : Bool :=
  (!(c.added && c.removed)) && (c.count == (lineToks c.value).length) && (!(c.count == 0))

/-- An adjacent removed/added pair never has both texts empty after
stripping a trailing newline. -/
def okPairB (c n2 : Change) : Bool :=
  !(c.removed && n2.added && (stripTrailingNL c.value).isEmpty &&
    (stripTrailingNL n2.value).isEmpty)

/-- Adjacent hunks never share both flags. -/
def diffKindB (c n2 : Change) : Bool := !((c.added == n2.added) && (c.removed == n2.removed))

/-- `p` holds at every adjacent pair of the list. -/
def chainB (p : Change → Change → Bool) : List Change → Bool
  | c :: n2 :: rest => p c n2 && chainB p (n2 :: rest)
  | _ => true

/-- The non-removed hunks laid end to end spell out exactly `b` (the after
text as `jsdiff` guarantees). -/
def coversTo (cs : List Change) (b : Str) : Bool :=
  (((cs.filter (fun c => !c.removed)).map Change.value).flatten == b)

/-- The word-diff contract used by the modified-block sub-algorithm:
exclusive flags, the non-added hunks spell out the first text, the
non-removed hunks the second. -/
def okWordDiff (ws : List Change) (a b : Str) : Bool :=
  ((((ws.filter (fun w => !w.added)).map Change.value).flatten == a)) &&
  ((((ws.filter (fun w => !w.removed)).map Change.value).flatten == b)) &&
  ws.all (fun w => !(w.added && w.removed))

theorem chainB_iff (p : Change → Change → Bool) : ∀ (l : List Change),
    chainB p l = true ↔ ∀ i, (h : i + 1 < l.length) →
      p (l.get ⟨i, by omega⟩) (l.get ⟨i + 1, h⟩) = true
  | [] => by simp [chainB]
  | [c] => by simp [chainB]
  | c :: n2 :: rest => by
    have ih := chainB_iff p (n2 :: rest)
    simp only [chainB, Bool.and_eq_true, ih]
    constructor
    · rintro ⟨h1, h2⟩ i hi
      match i with
      | 0 => exact h1
      | j + 1 =>
        have := h2 j (by simpa using Nat.lt_of_succ_lt_succ hi)
        simpa using this
    · intro h
      refine ⟨h 0 (by simp), ?_⟩
      intro j hj
      have := h (j + 1) (by simpa using Nat.succ_lt_succ hj)
      simpa using this

theorem chainB_tail (p : Change → Change → Bool) (c : Change) (l : List Change)
    (h : chainB p (c :: l) = true) : chainB p l = true := by
  match l with
  | [] => simp [chainB]
  | n2 :: rest =>
    simp only [chainB, Bool.and_eq_true] at h
    exact h.2

/-- The builder invariant: the array is exactly as long as the next unified
line number says (or still empty at the start), and every slot is a hole or
a builder record. -/
def BuildInv (st : BuildSt) : Prop :=
  (st.lineInfos.length = st.unifiedLineNumber ∨
    (st.lineInfos.length = 0 ∧ st.unifiedLineNumber = 1)) ∧
  AllDARish st.lineInfos

theorem procStep_spec (c : Change) (st : BuildSt) (h : BuildInv st) :
    (procStep c st).unifiedLineNumber = st.unifiedLineNumber + c.count ∧
    BuildInv (procStep c st) ∧
    (∀ j, j < st.unifiedLineNumber →
      getE (procStep c st).lineInfos j = getE st.lineInfos j) ∧
    FilledRange (procStep c st).lineInfos st.unifiedLineNumber
      (procStep c st).unifiedLineNumber := by
  unfold procStep
  split
  · obtain ⟨d1, d2, d3, d4, d5⟩ := emitAddRemove_spec c c.count st h.1 h.2
    exact ⟨d1, ⟨d2, d3⟩, d4, d5⟩
  · obtain ⟨d1, d2, d3, d4, d5⟩ := emitDefaults_spec c.count st h.1 h.2
    exact ⟨d1, ⟨d2, d3⟩, d4, d5⟩

theorem okChange_count (c : Change) (h : okChange c = true) :
    c.count = (lineToks c.value).length ∧ c.count ≠ 0 ∧
    ¬(c.added = true ∧ c.removed = true) := by
  simp only [okChange, Bool.and_eq_true, Bool.not_eq_true', Bool.and_eq_false_iff,
    beq_iff_eq, beq_eq_false_iff_ne, ne_eq] at h
  obtain ⟨⟨hf, hc⟩, h0⟩ := h
  refine ⟨hc, h0, ?_⟩
  rintro ⟨ha, hr⟩
  rcases hf with h | h <;> simp_all

theorem okWordDiff_unpack (ws : List Change) (a b : Str) (h : okWordDiff ws a b = true) :
    ((ws.filter (fun w => !w.added)).map Change.value).flatten = a ∧
    ((ws.filter (fun w => !w.removed)).map Change.value).flatten = b ∧
    ∀ w ∈ ws, ¬(w.added = true ∧ w.removed = true) := by
  simp only [okWordDiff, Bool.and_eq_true, beq_iff_eq, List.all_eq_true] at h
  obtain ⟨⟨ha, hb⟩, hall⟩ := h
  refine ⟨ha, hb, ?_⟩
  intro w hw
  have := hall w hw
  rintro ⟨h1, h2⟩
  simp [h1, h2] at this

theorem procChanges_specN (dw : Str → Str → List Change)
    (hdw : ∀ a b, okWordDiff (dw a b) a b = true) :
    ∀ (N : Nat) (cs : List Change), cs.length ≤ N →
      (∀ c ∈ cs, okChange c = true) → chainB okPairB cs = true →
      ∀ st : BuildSt, BuildInv st →
        st.unifiedLineNumber ≤ (procChanges dw cs st).unifiedLineNumber ∧
        BuildInv (procChanges dw cs st) ∧
        (∀ j, j < st.unifiedLineNumber →
          getE (procChanges dw cs st).lineInfos j = getE st.lineInfos j) ∧
        FilledRange (procChanges dw cs st).lineInfos st.unifiedLineNumber
          (procChanges dw cs st).unifiedLineNumber ∧
        (cs ≠ [] → st.unifiedLineNumber < (procChanges dw cs st).unifiedLineNumber) := by
  intro N
  induction N with
  | zero =>
    intro cs hlen hok hchain st hinv
    have hcs : cs = [] := by
      cases cs with
      | nil => rfl
      | cons c rest => simp at hlen
    subst hcs
    refine ⟨Nat.le_refl _, hinv, fun j _ => rfl, ?_, fun hne => absurd rfl hne⟩
    intro i hi1 hi2
    simp only [procChanges] at hi2
    omega
  | succ N ih =>
    intro cs hlen hok hchain st hinv
    match cs with
    | [] =>
      refine ⟨Nat.le_refl _, hinv, fun j _ => rfl, ?_, fun hne => absurd rfl hne⟩
      intro i hi1 hi2
      simp only [procChanges] at hi2
      omega
    | [c] =>
      obtain ⟨hcnt, hc0, _⟩ := okChange_count c (hok c (by simp))
      obtain ⟨d1, d2, d3, d4⟩ := procStep_spec c st hinv
      have hout : procChanges dw [c] st = procStep c st := rfl
      rw [hout]
      exact ⟨by omega, d2, d3, d4, fun _ => by omega⟩
    | c :: n2 :: rest2 =>
      simp only [procChanges]
      split
      · rename_i hpairc
        obtain ⟨hcnt, hc0, _⟩ := okChange_count c (hok c (by simp))
        have hokp : okPairB c n2 = true := by
          have := (chainB_iff okPairB (c :: n2 :: rest2)).mp hchain 0 (by simp)
          simpa using this
        have hnontr : ¬(stripTrailingNL c.value = [] ∧ stripTrailingNL n2.value = []) := by
          rintro ⟨h1, h2⟩
          simp [okPairB, hpairc.1, hpairc.2, h1, h2] at hokp
        obtain ⟨hcova, hcovb, hflags⟩ := okWordDiff_unpack _ _ _
          (hdw (stripTrailingNL c.value) (stripTrailingNL n2.value))
        obtain ⟨p1, p2, p3, p4, p5⟩ := procModified_spec dw c n2 st hcnt hc0 hnontr
          hcova hcovb hflags hinv.1 hinv.2
        obtain ⟨d1, d2, d3, d4, d5⟩ := ih rest2 (by simp at hlen ⊢; omega)
          (fun x hx => hok x (by simp [hx])) (chainB_tail _ _ _ (chainB_tail _ _ _ hchain))
          (procModified dw c n2 st) ⟨Or.inl p1, p3⟩
        refine ⟨by omega, d2, ?_, ?_, fun _ => by omega⟩
        · intro j hj
          rw [d3 j (by omega), p4 j hj]
        · intro i hi1 hi2
          by_cases hcase : (procModified dw c n2 st).unifiedLineNumber ≤ i
          · exact d4 i hcase hi2
          · rw [d3 i (by omega)]
            exact p5 i hi1 (by omega)
      · obtain ⟨hcnt, hc0, _⟩ := okChange_count c (hok c (by simp))
        obtain ⟨p1, p2, p3, p4⟩ := procStep_spec c st hinv
        obtain ⟨d1, d2, d3, d4, d5⟩ := ih (n2 :: rest2) (by simp at hlen ⊢; omega)
          (fun x hx => hok x (by simp at hx; rcases hx with h | h <;> simp [h]))
          (chainB_tail _ _ _ hchain) (procStep c st) p2
        refine ⟨by omega, d2, ?_, ?_, fun _ => by omega⟩
        · intro j hj
          rw [d3 j (by omega), p3 j hj]
        · intro i hi1 hi2
          by_cases hcase : (procStep c st).unifiedLineNumber ≤ i
          · exact d4 i hcase hi2
          · rw [d3 i (by omega)]
            exact p4 i hi1 (by omega)

theorem chainB_concat_left (p : Change → Change → Bool) (l : List Change) (x : Change)
    (h : chainB p (l ++ [x]) = true) : chainB p l = true := by
  rw [chainB_iff] at h ⊢
  intro i hi
  have h0 := h i (by simp; omega)
  simp only [List.get_eq_getElem] at h0 ⊢
  rwa [List.getElem_append_left (by omega), List.getElem_append_left (by omega)] at h0

theorem chainB_erase_mid (ys : List Change) (y x : Change)
    (hok : ∀ c ∈ ys ++ [y, x], okChange c = true)
    (hchain : chainB okPairB (ys ++ [y, x]) = true)
    (hadj : chainB diffKindB (ys ++ [y, x]) = true)
    (hyr : y.removed = true) :
    chainB okPairB (ys ++ [x]) = true := by
  rw [chainB_iff] at hchain hadj ⊢
  intro i hi
  simp only [List.length_append, List.length_cons, List.length_nil] at hi
  simp only [List.get_eq_getElem]
  by_cases hlt : i + 1 < ys.length
  · have h0 := hchain i (by simp; omega)
    simp only [List.get_eq_getElem] at h0
    rw [List.getElem_append_left (by omega), List.getElem_append_left (by omega)] at h0
    rwa [List.getElem_append_left (by omega), List.getElem_append_left (by omega)]
  · have hi1 : i + 1 = ys.length := by omega
    have hilt : i < ys.length := by omega
    rw [List.getElem_append_left hilt, List.getElem_append_right (by omega)]
    have hx0 : i + 1 - ys.length = 0 := by omega
    simp only [hx0, List.getElem_cons_zero]
    have hadj0 := hadj i (by simp; omega)
    simp only [List.get_eq_getElem] at hadj0
    rw [List.getElem_append_left hilt, List.getElem_append_right (by omega)] at hadj0
    have hy0 : i + 1 - ys.length = 0 := by omega
    simp only [hy0, List.getElem_cons_zero] at hadj0
    have hzok := okChange_count (ys[i]) (hok _ (by simp [List.getElem_mem]))
    have hyok := okChange_count y (hok y (by simp))
    have hya : y.added = false := by
      rcases hy : y.added with _ | _
      · rfl
      · exact absurd ⟨hy, hyr⟩ hyok.2.2
    have hzr : (ys[i]).removed = false := by
      rcases hz : (ys[i]).removed with _ | _
      · rfl
      · have hza : (ys[i]).added = false := by
          rcases hz2 : (ys[i]).added with _ | _
          · rfl
          · exact absurd ⟨hz2, hz⟩ hzok.2.2
        simp [diffKindB, hya, hyr, hza, hz] at hadj0
    simp [okPairB, hzr]

theorem reclassify_nil_eq (ups : List Str) : reclassify [] ups = ([], ups) := rfl

theorem reclassify_single_eq (x : Change) (ups : List Str) :
    reclassify [x] ups = if x.removed then ([], x.value :: ups) else ([x], ups) := by
  unfold reclassify
  by_cases hr : x.removed = true <;> simp [hr]

theorem reclassify_pair_eq (ys : List Change) (y x : Change) (ups : List Str) :
    reclassify (ys ++ [y, x]) ups =
      if x.added ∧ y.removed then
        (ys ++ [x], (if (stripTrailingNL x.value).isPrefixOf y.value
          then dropThroughFirstNL y.value else y.value) :: ups)
      else if x.removed then (ys ++ [y], x.value :: ups)
      else (ys ++ [y, x], ups) := by
  have hsplit : ys ++ [y, x] = (ys ++ [y]) ++ [x] := by simp
  have hlast : (ys ++ [y, x]).getLast? = some x := by
    rw [hsplit, List.getLast?_concat]
  have hlen : (ys ++ [y, x]).length = ys.length + 2 := by simp
  have hget : (ys ++ [y, x]).get? ((ys ++ [y, x]).length - 2) = some y := by
    rw [hlen]
    simp only [show ys.length + 2 - 2 = ys.length from by omega]
    rw [List.get?_eq_getElem?, List.getElem?_append_right (Nat.le_refl _)]
    simp
  have herase : (ys ++ [y, x]).eraseIdx ((ys ++ [y, x]).length - 2) = ys ++ [x] := by
    rw [hlen]
    simp only [show ys.length + 2 - 2 = ys.length from by omega]
    rw [List.eraseIdx_append_of_length_le (Nat.le_refl _)]
    simp
  have hdrop : (ys ++ [y, x]).dropLast = ys ++ [y] := by
    rw [hsplit, List.dropLast_concat]
  have hcond : 2 ≤ (ys ++ [y, x]).length := by rw [hlen]; omega
  unfold reclassify
  rw [hlast]
  simp only [hcond, if_true, hget, herase, hdrop]

theorem reclassify_preserves (changes : List Change) (ups : List Str)
    (hok : ∀ c ∈ changes, okChange c = true)
    (hchain : chainB okPairB changes = true)
    (hadj : chainB diffKindB changes = true) :
    (∀ c ∈ (reclassify changes ups).1, okChange c = true) ∧
    chainB okPairB (reclassify changes ups).1 = true ∧
    ((∃ c ∈ changes, c.removed = false) →
      ∃ c ∈ (reclassify changes ups).1, c.removed = false) := by
  revert hok hchain hadj
  induction changes using List.reverseRecOn with
  | nil =>
    intro hok hchain hadj
    rw [reclassify_nil_eq]
    exact ⟨hok, hchain, fun h => h⟩
  | append_singleton xs x ihdrop =>
    clear ihdrop
    revert x
    induction xs using List.reverseRecOn with
    | nil =>
      intro x hok hchain hadj
      simp only [List.nil_append] at hok hchain hadj ⊢
      rw [reclassify_single_eq]
      rcases hr : x.removed with _ | _
      · simp only [hr, Bool.false_eq_true, if_false]
        exact ⟨hok, hchain, fun h => h⟩
      · simp only [hr, if_true]
        refine ⟨by simp, rfl, ?_⟩
        rintro ⟨c, hc, hcr⟩
        simp at hc
        subst hc
        rw [hr] at hcr
        cases hcr
    | append_singleton ys y ihdrop2 =>
      clear ihdrop2
      intro x hok hchain hadj
      have hsp : (ys ++ [y]) ++ [x] = ys ++ [y, x] := by simp
      rw [hsp] at hok hchain hadj ⊢
      rw [reclassify_pair_eq]
      by_cases hpc : x.added = true ∧ y.removed = true
      · have hcond : (x.added ∧ y.removed : Prop) := by
          exact ⟨hpc.1, hpc.2⟩
        rw [if_pos hcond]
        have hxok := okChange_count x (hok x (by simp))
        have hxr : x.removed = false := by
          rcases h2 : x.removed with _ | _
          · rfl
          · exact absurd ⟨hpc.1, h2⟩ hxok.2.2
        refine ⟨?_, chainB_erase_mid ys y x hok hchain hadj hpc.2, ?_⟩
        · intro c hc
          apply hok
          simp at hc ⊢
          tauto
        · intro _
          exact ⟨x, by simp, hxr⟩
      · have hcond : ¬(x.added ∧ y.removed : Prop) := by
          intro h
          exact hpc ⟨h.1, h.2⟩
        rw [if_neg hcond]
        by_cases hxr : x.removed = true
        · have hcond2 : (x.removed : Prop) := hxr
          rw [if_pos hcond2]
          have hchain2 : chainB okPairB (ys ++ [y]) = true := by
            rw [← hsp] at hchain
            exact chainB_concat_left _ _ _ hchain
          refine ⟨?_, hchain2, ?_⟩
          · intro c hc
            apply hok
            simp at hc ⊢
            tauto
          · rintro ⟨c, hc, hcr⟩
            simp only [List.mem_append, List.mem_cons, List.mem_singleton] at hc
            rcases hc with hc | hc | hc
            · exact ⟨c, by simp [hc], hcr⟩
            · exact ⟨c, by simp [hc], hcr⟩
            · rcases hc with hc | hc
              · subst hc
                rw [hxr] at hcr
                cases hcr
              · cases hc
        · have hcond2 : ¬(x.removed : Prop) := by
            intro h
            exact hxr h
          rw [if_neg hcond2]
          exact ⟨hok, hchain, fun h => h⟩

/-- The text as `prepare` normalises it: a trailing newline is appended when
missing. -/
def withNL (s : Str) : Str := if endsWithNL s then s else s ++ [NL]

/-- The before-text window handed to the external line diff in streaming
mode (`fromLines.slice(0, toLines.length + 3).join("\n")`). -/
def streamDiffFrom (code : Str) (diffWith : Option Str) : Str :=
  joinNL ((splitNL (withNL (diffWith.getD []))).take ((splitNL (withNL code)).length + 3))

theorem withNL_ne_nil (s : Str) : withNL s ≠ [] := by
  unfold withNL
  split
  · rename_i h
    intro hc
    rw [hc] at h
    simp [endsWithNL] at h
  · simp

theorem coversTo_exists (cs : List Change) (b : Str) (hb : b ≠ [])
    (hcov : coversTo cs b = true) : ∃ c ∈ cs, c.removed = false := by
  by_contra h
  push_neg at h
  have hfil : cs.filter (fun c => !c.removed) = [] := by
    rw [List.filter_eq_nil_iff]
    intro c hc
    have := h c hc
    simp only [Bool.not_eq_true] at this ⊢
    simp [this]
  rw [coversTo, hfil] at hcov
  simp only [List.map_nil, List.flatten_nil, beq_iff_eq] at hcov
  exact hb hcov.symm

theorem noDiffLoop_last (k : Nat) : ∀ (l : Nat) (st : BuildSt), 1 ≤ k →
    ∃ li, getE (noDiffLoop k l st).lineInfos (l + k) = Entry.line li := by
  induction k with
  | zero => intro l st h; omega
  | succ k ih =>
    intro l st _
    match k, ih with
    | 0, _ =>
      refine ⟨{ type := .default, newLineNumber := some st.newLineNumber }, ?_⟩
      show getE (setE st.lineInfos (l + 1) _) (l + 1) = _
      rw [getE_setE_self]
    | k' + 1, ih =>
      obtain ⟨li, hli⟩ := ih (l + 1)
        { st with
          lineInfos := setE st.lineInfos (l + 1) (.line
            { type := .default, newLineNumber := some st.newLineNumber }),
          newLineNumber := st.newLineNumber + 1 } (by omega)
      exact ⟨li, by rw [show l + (k' + 1 + 1) = (l + 1) + (k' + 1) from by omega]; exact hli⟩

/-- A minimal word diff meeting the word-diff contract: one removed hunk for
the whole old text and one added hunk for the whole new text, skipping the
empty sides. -/
def trivialW (a b : Str) : List Change :=
  (if a = [] then [] else [{ value := a, removed := true }]) ++
  (if b = [] then [] else [{ value := b, added := true }])

theorem trivialW_ok : ∀ a b, okWordDiff (trivialW a b) a b = true := by
  intro a b
  unfold trivialW okWordDiff
  by_cases ha : a = [] <;> by_cases hb : b = [] <;> simp [ha, hb]


theorem getE_lt (l : List Entry) (i : Nat) (h : i < l.length) : getE l i = l.get ⟨i, h⟩ := by
  rw [getE, List.getD_eq_getElem?_getD, List.getElem?_eq_getElem h]
  rfl

theorem countP_eq_one_of_unique_idx {α} (p : α → Bool) :
    ∀ (l : List α) (i0 : Nat) (h0 : i0 < l.length), p (l.get ⟨i0, h0⟩) = true →
      (∀ j (hj : j < l.length), j ≠ i0 → p (l.get ⟨j, hj⟩) = false) →
      l.countP p = 1
  | [], i0, h0 => by simp at h0
  | a :: l, 0, h0 => fun hp hn => by
    simp only [List.get] at hp
    have hz : l.countP p = 0 := by
      rw [List.countP_eq_zero]
      intro b hb
      obtain ⟨⟨j, hj⟩, hbj⟩ := List.mem_iff_get.mp hb
      have hfalse := hn (j + 1) (by simp; omega) (by omega)
      simp only [List.get] at hfalse
      have h3 : p b = false := by
        rw [← hbj]
        exact hfalse
      simp [h3]
    rw [List.countP_cons, hz, hp]
    simp
  | a :: l, i0 + 1, h0 => fun hp hn => by
    rw [List.countP_cons]
    have hpa : p a = false := by
      have := hn 0 (by simp) (by omega)
      simpa using this
    have hrec : l.countP p = 1 := by
      apply countP_eq_one_of_unique_idx p l i0 (by simp at h0; omega)
      · simpa using hp
      · intro j hj hne
        have := hn (j + 1) (by simp; omega) (by omega)
        simpa using this
    simp [hpa, hrec]

/-- The item a slot becomes in the item-conversion loop. -/
def itemOf (collapseOn : Bool) (e : Entry) : RenderItem :=
  match e, collapseOn with
  | .collapsed grp, true => .collapsedSection grp.length (grp.map convertEntryLine)
  | e, _ => .line (convertEntryLine e)

theorem toItemsGo_items (collapseOn : Bool) (l : List Entry) :
    ∀ (items : List RenderItem) (cur : Option Nat),
    (toItemsGo collapseOn l items cur).1 = items ++ l.map (itemOf collapseOn) := by
  induction l with
  | nil => intro items cur; simp [toItemsGo]
  | cons e rest ih =>
    intro items cur
    match e with
    | .collapsed grp =>
      rcases hco : collapseOn with _ | _
      · rw [hco] at ih
        simp [toItemsGo, ih, itemOf]
      · rw [hco] at ih
        simp [toItemsGo, ih, itemOf]
    | .hole => simp [toItemsGo, ih, itemOf]
    | .line li => simp [toItemsGo, ih, itemOf]

/-- A slot's shape with the token assignment erased. -/
def entrySkel : Entry → Entry
  | .line li => .line { li with tokens := none }
  | e => e

theorem assignTokensGo_skel (bt at2 : List (List Tok)) : ∀ (i : Nat) (l : List Entry),
    (assignTokensGo bt at2 i l).map entrySkel = l.map entrySkel := by
  intro i l
  induction l generalizing i with
  | nil => rfl
  | cons e rest ih =>
    simp only [assignTokensGo, List.map_cons, ih]
    by_cases hi : i = 0
    · simp [hi]
    · rw [if_neg hi]
      cases e <;> simp [entrySkel]

theorem assignTokens_length (bt at2 : List (List Tok)) (l : List Entry) :
    (assignTokens bt at2 l).length = l.length := by
  have h := assignTokensGo_skel bt at2 0 l
  have := congrArg List.length h
  simpa [assignTokens] using this

theorem collapseLoopF_members (padding : Nat) : ∀ (fuel : Nat) (l : List Entry) (pos : Nat),
    ∀ e ∈ collapseLoopF padding fuel l pos, e ∈ l ∨ ∃ grp, e = Entry.collapsed grp := by
  intro fuel
  induction fuel with
  | zero => intro l pos e he; exact Or.inl he
  | succ fuel ih =>
    intro l pos e he
    rw [collapseLoopF] at he
    split at he
    · split at he
      · exact Or.inl he
      · dsimp only [] at he
        repeat' split at he
        all_goals first
          | exact ih l _ e he
          | (have h2 := ih _ _ e he
             rcases h2 with hmem | hc
             · simp only [List.mem_append, List.mem_cons] at hmem
               rcases hmem with h | h | h
               · exact Or.inl (List.mem_of_mem_take h)
               · exact Or.inr ⟨_, h⟩
               · exact Or.inl (List.mem_of_mem_drop h)
             · exact Or.inr hc)
    · exact Or.inl he

theorem noDiffLoop_spec (k : Nat) : ∀ (l : Nat) (st : BuildSt),
    st.lineInfos.length ≤ l + 1 → AllDARish st.lineInfos → 1 ≤ k →
    (noDiffLoop k l st).lineInfos.length = l + k + 1 ∧
    AllDARish (noDiffLoop k l st).lineInfos ∧
    (∀ j, j ≤ l → getE (noDiffLoop k l st).lineInfos j = getE st.lineInfos j) ∧
    FilledRange (noDiffLoop k l st).lineInfos (l + 1) (l + k + 1) := by
  induction k with
  | zero => intro l st _ _ h1; omega
  | succ k ih =>
    intro l st hlen hdar _
    have hstep : noDiffLoop (k + 1) l st = noDiffLoop k (l + 1)
        { st with
          lineInfos := setE st.lineInfos (l + 1) (.line
            { type := .default, newLineNumber := some st.newLineNumber }),
          newLineNumber := st.newLineNumber + 1 } := rfl
    have hlen1 : (setE st.lineInfos (l + 1) (.line
        { type := .default, newLineNumber := some st.newLineNumber })).length = l + 2 := by
      rw [setE_length]
      omega
    have hdar1 : AllDARish (setE st.lineInfos (l + 1) (.line
        { type := .default, newLineNumber := some st.newLineNumber })) :=
      setE_AllDARish _ _ _ (Or.inl rfl) hdar
    rcases Nat.eq_zero_or_pos k with hk | hk
    · subst hk
      rw [hstep]
      simp only [noDiffLoop]
      refine ⟨by simpa using hlen1, hdar1, ?_, ?_⟩
      · intro j hj
        exact getE_setE_ne _ _ _ _ (by omega)
      · intro i hi1 hi2
        have hieq : i = l + 1 := by omega
        subst hieq
        rw [getE_setE_self]
        exact ⟨_, rfl, Or.inl rfl⟩
    · obtain ⟨d1, d2, d3, d4⟩ := ih (l + 1)
        { st with
          lineInfos := setE st.lineInfos (l + 1) (.line
            { type := .default, newLineNumber := some st.newLineNumber }),
          newLineNumber := st.newLineNumber + 1 }
        (by simp only [hlen1]; omega) hdar1 hk
      rw [hstep]
      refine ⟨by omega, d2, ?_, ?_⟩
      · intro j hj
        rw [d3 j (by omega)]
        exact getE_setE_ne _ _ _ _ (by omega)
      · intro i hi1 hi2
        by_cases hcase : l + 2 ≤ i
        · exact d4 i hcase (by omega)
        · have hieq : i = l + 1 := by omega
          subst hieq
          rw [d3 (l + 1) (by omega), getE_setE_self]
          exact ⟨_, rfl, Or.inl rfl⟩

theorem upcomingLoop_spec (k : Nat) : ∀ st : BuildSt,
    st.lineInfos.length = st.unifiedLineNumber →
    (upcomingLoop k st).unifiedLineNumber = st.unifiedLineNumber + k ∧
    (upcomingLoop k st).lineInfos.length = st.unifiedLineNumber + k ∧
    (∀ j, j < st.unifiedLineNumber →
      getE (upcomingLoop k st).lineInfos j = getE st.lineInfos j) ∧
    (∀ j, st.unifiedLineNumber ≤ j → j < st.unifiedLineNumber + k →
      ∃ m, getE (upcomingLoop k st).lineInfos j =
        .line { type := .upcoming, oldLineNumber := some m }) := by
  induction k with
  | zero =>
    intro st hlen
    exact ⟨rfl, by simpa using hlen, fun j _ => rfl, fun j h1 h2 => by omega⟩
  | succ k ih =>
    intro st hlen
    have hstep : upcomingLoop (k + 1) st = upcomingLoop k
        { st with
          lineInfos := setE st.lineInfos st.unifiedLineNumber (.line
            { type := .upcoming, oldLineNumber := some st.oldLineNumber }),
          unifiedLineNumber := st.unifiedLineNumber + 1,
          oldLineNumber := st.oldLineNumber + 1 } := rfl
    have hlen1 : (setE st.lineInfos st.unifiedLineNumber (.line
        { type := .upcoming, oldLineNumber := some st.oldLineNumber })).length =
          st.unifiedLineNumber + 1 := by
      rw [setE_length]
      omega
    obtain ⟨d1, d2, d3, d4⟩ := ih
      { st with
        lineInfos := setE st.lineInfos st.unifiedLineNumber (.line
          { type := .upcoming, oldLineNumber := some st.oldLineNumber }),
        unifiedLineNumber := st.unifiedLineNumber + 1,
        oldLineNumber := st.oldLineNumber + 1 } (by simpa using hlen1)
    simp only at d1 d2 d3 d4
    rw [hstep]
    refine ⟨by omega, by omega, ?_, ?_⟩
    · intro j hj
      rw [d3 j (by omega)]
      exact getE_setE_ne _ _ _ _ (by omega)
    · intro j h1 h2
      by_cases hcase : st.unifiedLineNumber + 1 ≤ j
      · obtain ⟨m, hm⟩ := d4 j hcase (by omega)
        exact ⟨m, hm⟩
      · have hjeq : j = st.unifiedLineNumber := by omega
        subst hjeq
        refine ⟨st.oldLineNumber, ?_⟩
        rw [d3 st.unifiedLineNumber (by omega), getE_setE_self]

theorem getE_append_left (l t : List Entry) (i : Nat) (h : i < l.length) :
    getE (l ++ t) i = getE l i := by
  rw [getE, getE, List.getD_eq_getElem?_getD, List.getD_eq_getElem?_getD,
    List.getElem?_append_left h]

theorem getE_concat_self (l : List Entry) (e : Entry) : getE (l ++ [e]) l.length = e := by
  rw [getE, List.getD_eq_getElem?_getD, List.getElem?_append_right (Nat.le_refl _)]
  simp

theorem entrySkel_eq_type {a b : Entry} (h : entrySkel a = entrySkel b) :
    (entryLineInfo a).type = (entryLineInfo b).type ∧
    (entryLineInfo a).specialText = (entryLineInfo b).specialText := by
  cases a <;> cases b <;>
    first
      | exact ⟨trivial, trivial⟩
      | exact ⟨rfl, rfl⟩
      | (simp only [entrySkel] at h; cases h)
      | (have h2 := congrArg (fun e => (entryLineInfo e).type) h
         have h3 := congrArg (fun e => (entryLineInfo e).specialText) h
         exact ⟨h2, h3⟩)

theorem skel_get {l1 l2 : List Entry} (hskel : l1.map entrySkel = l2.map entrySkel)
    (i : Nat) (h1 : i < l1.length) (h2 : i < l2.length) :
    entrySkel (l1.get ⟨i, h1⟩) = entrySkel (l2.get ⟨i, h2⟩) := by
  have := List.get_of_eq hskel ⟨i, by simpa using h1⟩
  simpa using this

/-- The builder's state is ready for the streaming overlay: the array is as
long as the unified counter says, which has advanced to at least 2, every
slot is a hole or a builder record, and every slot from index 1 up holds a
line record. -/
theorem builderReady_streaming (dl dw : Str → Str → List Change)
    (code : Str) (diffWith : Option Str)
    (hdw : ∀ a b, okWordDiff (dw a b) a b = true)
    (hok : ∀ c ∈ dl (streamDiffFrom code diffWith) (withNL code), okChange c = true)
    (hchain : chainB okPairB (dl (streamDiffFrom code diffWith) (withNL code)) = true)
    (hadj : chainB diffKindB (dl (streamDiffFrom code diffWith) (withNL code)) = true)
    (hcov : coversTo (dl (streamDiffFrom code diffWith) (withNL code)) (withNL code) = true) :
    (builderState dw (prepare dl code diffWith true)).lineInfos.length =
      (builderState dw (prepare dl code diffWith true)).unifiedLineNumber ∧
    2 ≤ (builderState dw (prepare dl code diffWith true)).unifiedLineNumber ∧
    AllDARish (builderState dw (prepare dl code diffWith true)).lineInfos ∧
    FilledRange (builderState dw (prepare dl code diffWith true)).lineInfos 1
      (builderState dw (prepare dl code diffWith true)).unifiedLineNumber := by
  rcases diffWith with _ | s
  · have hbs : builderState dw (prepare dl code none true) =
        buildNoDiff (splitNL (withNL code)) {} := rfl
    rw [hbs]
    have hlen : 1 ≤ (splitNL (withNL code)).length := by
      have h := splitNL_ne_nil (withNL code)
      cases hs : splitNL (withNL code) with
      | nil => exact absurd hs h
      | cons a l => simp [hs]
    obtain ⟨d1, d2, d3, d4⟩ := noDiffLoop_spec (splitNL (withNL code)).length 0 {}
      (by simp) (fun i => Or.inl (getE_nil i)) hlen
    have hb1 : (buildNoDiff (splitNL (withNL code)) {}).lineInfos =
        (noDiffLoop (splitNL (withNL code)).length 0 {}).lineInfos := rfl
    have hb2 : (buildNoDiff (splitNL (withNL code)) {}).unifiedLineNumber =
        (splitNL (withNL code)).length + 1 := rfl
    rw [hb1, hb2]
    refine ⟨by omega, by omega, d2, ?_⟩
    intro i hi1 hi2
    exact d4 i (by omega) (by omega)
  · have hchg : (prepare dl code (some s) true).changes =
        (reclassify (dl (streamDiffFrom code (some s)) (withNL code))
          ((splitNL (withNL s)).drop ((splitNL (withNL code)).length + 3))).1 := rfl
    have hbs : builderState dw (prepare dl code (some s) true) =
        procChanges dw (prepare dl code (some s) true).changes {} := rfl
    have hrp := reclassify_preserves (dl (streamDiffFrom code (some s)) (withNL code))
      ((splitNL (withNL s)).drop ((splitNL (withNL code)).length + 3)) hok hchain hadj
    have hinv0 : BuildInv ({} : BuildSt) :=
      ⟨Or.inr ⟨rfl, rfl⟩, fun i => Or.inl (getE_nil i)⟩
    obtain ⟨m1, m2, m3, m4, m5⟩ := procChanges_specN dw hdw
      (prepare dl code (some s) true).changes.length
      (prepare dl code (some s) true).changes (Nat.le_refl _)
      (by rw [hchg]; exact hrp.1) (by rw [hchg]; exact hrp.2.1) {} hinv0
    have hex0 : ∃ c ∈ dl (streamDiffFrom code (some s)) (withNL code), c.removed = false :=
      coversTo_exists _ _ (withNL_ne_nil code) hcov
    have hex : ∃ c ∈ (prepare dl code (some s) true).changes, c.removed = false := by
      rw [hchg]
      exact hrp.2.2 hex0
    have hne : (prepare dl code (some s) true).changes ≠ [] := by
      intro h
      rw [h] at hex
      rcases hex with ⟨c, hc, _⟩
      cases hc
    have hbump := m5 hne
    have h1 : ({} : BuildSt).unifiedLineNumber = 1 := rfl
    rw [hbs]
    have hlen2 : (procChanges dw (prepare dl code (some s) true).changes {}).lineInfos.length =
        (procChanges dw (prepare dl code (some s) true).changes {}).unifiedLineNumber := by
      rcases m2.1 with h | ⟨h2, h3⟩
      · exact h
      · omega
    refine ⟨hlen2, by omega, m2.2, ?_⟩
    intro i hi1 hi2
    exact m4 i (by omega) hi2

/-- C10: in streaming mode the line record builder always leaves at least one
record (`unifiedLineNumber` reaches at least 2), so the streaming overlay's
unchecked access to the record at index `unifiedLineNumber - 1` finds an
existing line record and never dereferences a missing entry — given the
`jsdiff` contract on the one line-diff call `prepare` makes, and the word-diff
contract on every word-diff call. -/
theorem C10_overlay_access_safe (dl dw : Str → Str → List Change)
    (code : Str) (diffWith : Option Str)
    (hdw : ∀ a b, okWordDiff (dw a b) a b = true)
    (hok : ∀ c ∈ dl (streamDiffFrom code diffWith) (withNL code), okChange c = true)
    (hchain : chainB okPairB (dl (streamDiffFrom code diffWith) (withNL code)) = true)
    (hadj : chainB diffKindB (dl (streamDiffFrom code diffWith) (withNL code)) = true)
    (hcov : coversTo (dl (streamDiffFrom code diffWith) (withNL code)) (withNL code) = true) :
    2 ≤ (builderState dw (prepare dl code diffWith true)).unifiedLineNumber ∧
    ∃ li, getE (builderState dw (prepare dl code diffWith true)).lineInfos
      ((builderState dw (prepare dl code diffWith true)).unifiedLineNumber - 1) =
        Entry.line li := by
  obtain ⟨h1, h2, h3, h4⟩ := builderReady_streaming dl dw code diffWith hdw hok hchain hadj hcov
  refine ⟨h2, ?_⟩
  obtain ⟨li, hli, _⟩ := h4
    ((builderState dw (prepare dl code diffWith true)).unifiedLineNumber - 1)
    (by omega) (by omega)
  exact ⟨li, hli⟩

theorem C10_overlay_access_safe_witness :
    2 ≤ (builderState trivialW
      (prepare refDiffLines (['a'] : Str) (some ['a']) true)).unifiedLineNumber ∧
    ∃ li, getE (builderState trivialW
        (prepare refDiffLines (['a'] : Str) (some ['a']) true)).lineInfos
      ((builderState trivialW
        (prepare refDiffLines (['a'] : Str) (some ['a']) true)).unifiedLineNumber - 1) =
        Entry.line li :=
  C10_overlay_access_safe refDiffLines trivialW ['a'] (some ['a']) trivialW_ok
    (by decide) (by decide) (by decide) (by decide)

theorem tokenizeModel_streaming_items (dl dw : Str → Str → List Change)
    (hl : Str → List (List Tok)) (code : Str) (diffWith : Option Str)
    (cu : Option CollapseCfg) :
    (tokenizeModel dl dw hl code diffWith true cu).items =
      ((assignTokens
          (if (prepare dl code diffWith true).isDiff
            then hl (prepare dl code diffWith true).fromText
            else hl (prepare dl code diffWith true).toText)
          (hl (prepare dl code diffWith true).toText)
          ((applyStreaming true (prepare dl code diffWith true).upcomingLines
              (builderState dw (prepare dl code diffWith true))).lineInfos ++
            (if (prepare dl code diffWith true).fromNewlineEOF ≠
                (prepare dl code diffWith true).toNewlineEOF then
              [Entry.line
                { type := if (prepare dl code diffWith true).toNewlineEOF
                    then LineType.added else LineType.removed,
                  specialText := some (if (prepare dl code diffWith true).toNewlineEOF
                    then addedEOFText else removedEOFText) }]
            else []))).drop 1).map (itemOf false) := by
  simp only [tokenizeModel, not_true, and_false, if_false]
  by_cases heof : (prepare dl code diffWith true).fromNewlineEOF ≠
      (prepare dl code diffWith true).toNewlineEOF
  · simp only [if_pos heof, toItems, toItemsGo_items, List.nil_append, Option.isSome_none]
  · simp only [if_neg heof, toItems, toItemsGo_items, List.nil_append, Option.isSome_none,
      List.append_nil]

/-- The full before text as handed to the external line diff when not
streaming (`fromLines.slice(0, fromLines.length).join("\n")`). -/
def fullDiffFrom (diffWith : Option Str) : Str :=
  joinNL ((splitNL (withNL (diffWith.getD []))).take (splitNL (withNL (diffWith.getD []))).length)

/-- Whether a render item is the synthetic EOF-newline record (the only
line records carrying a `specialText`). -/
def isEOFSpecial : RenderItem → Bool
  | .line rl => rl.specialText.isSome
  | _ => false

theorem itemOf_false_line (e : Entry) : itemOf false e = .line (convertEntryLine e) := by
  cases e <;> rfl

theorem itemIsType_convert (e : Entry) (ty : LineType) :
    itemIsType (.line (convertEntryLine e)) ty = decide ((entryLineInfo e).type = ty) := rfl

theorem tokenizeModel_nonstreaming_items (dl dw : Str → Str → List Change)
    (hl : Str → List (List Tok)) (code : Str) (diffWith : Option Str)
    (cu : Option CollapseCfg) :
    (tokenizeModel dl dw hl code diffWith false cu).items =
      ((assignTokens
          (if (prepare dl code diffWith false).isDiff
            then hl (prepare dl code diffWith false).fromText
            else hl (prepare dl code diffWith false).toText)
          (hl (prepare dl code diffWith false).toText)
          ((match (if (prepare dl code diffWith false).isDiff then cu else none :
              Option CollapseCfg) with
            | some cfg => collapseLines cfg.padding
                (builderState dw (prepare dl code diffWith false)).lineInfos
            | none => (builderState dw (prepare dl code diffWith false)).lineInfos) ++
            (if (prepare dl code diffWith false).fromNewlineEOF ≠
                (prepare dl code diffWith false).toNewlineEOF then
              [Entry.line
                { type := if (prepare dl code diffWith false).toNewlineEOF
                    then LineType.added else LineType.removed,
                  specialText := some (if (prepare dl code diffWith false).toNewlineEOF
                    then addedEOFText else removedEOFText) }]
            else []))).drop 1).map
        (itemOf (if (prepare dl code diffWith false).isDiff then cu else none).isSome) := by
  simp only [tokenizeModel, applyStreaming_false, Bool.false_eq_true, not_false_eq_true,
    and_true]
  by_cases heof : (prepare dl code diffWith false).fromNewlineEOF ≠
      (prepare dl code diffWith false).toNewlineEOF
  · simp only [if_pos heof, toItems, toItemsGo_items, List.nil_append]
  · simp only [if_neg heof, toItems, toItemsGo_items, List.nil_append, List.append_nil]

theorem builderState_nonstreaming_darish (dl dw : Str → Str → List Change)
    (code : Str) (diffWith : Option Str)
    (hdw : ∀ a b, okWordDiff (dw a b) a b = true)
    (hokF : ∀ c ∈ dl (fullDiffFrom diffWith) (withNL code), okChange c = true)
    (hchainF : chainB okPairB (dl (fullDiffFrom diffWith) (withNL code)) = true) :
    AllDARish (builderState dw (prepare dl code diffWith false)).lineInfos := by
  rcases diffWith with _ | s
  · have hbs : builderState dw (prepare dl code none false) =
        buildNoDiff (splitNL (withNL code)) {} := rfl
    rw [hbs]
    have hlen : 1 ≤ (splitNL (withNL code)).length := by
      have h := splitNL_ne_nil (withNL code)
      cases hs : splitNL (withNL code) with
      | nil => exact absurd hs h
      | cons a l => simp [hs]
    obtain ⟨d1, d2, d3, d4⟩ := noDiffLoop_spec (splitNL (withNL code)).length 0 {}
      (by simp) (fun i => Or.inl (getE_nil i)) hlen
    exact d2
  · have hchg : (prepare dl code (some s) false).changes =
        dl (fullDiffFrom (some s)) (withNL code) := rfl
    have hbs : builderState dw (prepare dl code (some s) false) =
        procChanges dw (prepare dl code (some s) false).changes {} := rfl
    rw [hbs]
    have hinv0 : BuildInv ({} : BuildSt) :=
      ⟨Or.inr ⟨rfl, rfl⟩, fun i => Or.inl (getE_nil i)⟩
    obtain ⟨m1, m2, m3, m4, m5⟩ := procChanges_specN dw hdw
      (prepare dl code (some s) false).changes.length
      (prepare dl code (some s) false).changes (Nat.le_refl _)
      (by rw [hchg]; exact hokF) (by rw [hchg]; exact hchainF) {} hinv0
    exact m2.2

theorem nonstreaming_no_current (dl dw : Str → Str → List Change)
    (hl : Str → List (List Tok)) (code : Str) (diffWith : Option Str)
    (cu : Option CollapseCfg)
    (hdw : ∀ a b, okWordDiff (dw a b) a b = true)
    (hokF : ∀ c ∈ dl (fullDiffFrom diffWith) (withNL code), okChange c = true)
    (hchainF : chainB okPairB (dl (fullDiffFrom diffWith) (withNL code)) = true) :
    (tokenizeModel dl dw hl code diffWith false cu).items.countP
      (fun it => itemIsType it LineType.current) = 0 := by
  rw [tokenizeModel_nonstreaming_items]
  rw [List.countP_eq_zero]
  intro it hit
  obtain ⟨e, hemem, rfl⟩ := List.mem_map.mp hit
  have hdar := builderState_nonstreaming_darish dl dw code diffWith hdw hokF hchainF
  have he5 := List.mem_of_mem_drop hemem
  have hsk : entrySkel e ∈ (((match (if (prepare dl code diffWith false).isDiff then cu
      else none : Option CollapseCfg) with
      | some cfg => collapseLines cfg.padding
          (builderState dw (prepare dl code diffWith false)).lineInfos
      | none => (builderState dw (prepare dl code diffWith false)).lineInfos) ++
      (if (prepare dl code diffWith false).fromNewlineEOF ≠
          (prepare dl code diffWith false).toNewlineEOF then
        [Entry.line
          { type := if (prepare dl code diffWith false).toNewlineEOF
              then LineType.added else LineType.removed,
            specialText := some (if (prepare dl code diffWith false).toNewlineEOF
              then addedEOFText else removedEOFText) }]
      else [])).map entrySkel) := by
    rw [← assignTokensGo_skel]
    exact List.mem_map_of_mem _ he5
  obtain ⟨e2, he2mem, hskel⟩ := List.mem_map.mp hsk
  have hty := (entrySkel_eq_type hskel).1
  have hnotcur : ¬(entryLineInfo e2).type = LineType.current := by
    simp only [List.mem_append] at he2mem
    rcases he2mem with hin | hin
    · have hin2 : e2 ∈ (builderState dw (prepare dl code diffWith false)).lineInfos ∨
          ∃ grp, e2 = Entry.collapsed grp := by
        rcases hcc : (if (prepare dl code diffWith false).isDiff then cu
            else none : Option CollapseCfg) with _ | cfg
        · rw [hcc] at hin
          exact Or.inl hin
        · rw [hcc] at hin
          exact collapseLoopF_members cfg.padding _ _ _ e2 hin
      rcases hin2 with hin2 | ⟨grp, rfl⟩
      · obtain ⟨⟨i, hi⟩, hget⟩ := List.mem_iff_get.mp hin2
        have := hdar i
        rw [getE_lt _ _ hi, hget] at this
        rcases this with hh | ⟨li2, hh, hdar2⟩
        · rw [hh]
          simp [entryLineInfo]
        · rw [hh]
          rcases hdar2 with h | h | h <;> simp [entryLineInfo, h]
      · simp [entryLineInfo]
    · split at hin
      · simp only [List.mem_singleton] at hin
        subst hin
        simp only [entryLineInfo]
        split <;> simp
      · cases hin
  rw [hty] at hnotcur
  cases e with
  | hole => simp [itemOf, itemIsType, convertEntryLine, convertLineInfoToRenderLine,
      entryLineInfo, hnotcur]
  | line li =>
    simpa [itemOf, itemIsType, convertEntryLine, convertLineInfoToRenderLine,
      entryLineInfo] using hnotcur
  | collapsed grp =>
    rcases (if (prepare dl code diffWith false).isDiff then cu
        else none : Option CollapseCfg).isSome with _ | _
    · simp [itemOf, itemIsType, convertEntryLine, convertLineInfoToRenderLine,
        entryLineInfo, hnotcur]
    · simp [itemOf, itemIsType]

theorem getE_lt2 (l : List Entry) (i : Nat) (h : i < l.length) : getE l i = l[i] := by
  rw [getE, List.getD_eq_getElem?_getD, List.getElem?_eq_getElem h]
  rfl

theorem getE_drop (l : List Entry) (n i : Nat) : getE (l.drop n) i = getE l (n + i) := by
  rw [getE, getE, List.getD_eq_getElem?_getD, List.getD_eq_getElem?_getD, List.getElem?_drop]

theorem overlay_items_structure (st1 : BuildSt) (bt at2 : List (List Tok))
    (ups : List Str) (tail : List Entry)
    (hL : st1.lineInfos.length = st1.unifiedLineNumber)
    (hU : 2 ≤ st1.unifiedLineNumber)
    (hA : AllDARish st1.lineInfos)
    (hF : FilledRange st1.lineInfos 1 st1.unifiedLineNumber)
    (htail : tail = [] ∨ ∃ rec : LineInfo, tail = [.line rec] ∧
      rec.specialText.isSome = true ∧
      (rec.type = LineType.added ∨ rec.type = LineType.removed)) :
    (((assignTokens bt at2 ((applyStreaming true ups st1).lineInfos ++ tail)).drop 1).map
        (itemOf false)).countP (fun it => itemIsType it LineType.current) = 1 ∧
    ∃ kk, ∃ hk : kk < (((assignTokens bt at2 ((applyStreaming true ups st1).lineInfos ++
        tail)).drop 1).map (itemOf false)).length,
      itemIsType ((((assignTokens bt at2 ((applyStreaming true ups st1).lineInfos ++
          tail)).drop 1).map (itemOf false)).get ⟨kk, hk⟩) LineType.current = true ∧
      ∀ j, ∀ hj : j < (((assignTokens bt at2 ((applyStreaming true ups st1).lineInfos ++
          tail)).drop 1).map (itemOf false)).length, kk < j →
        itemIsType ((((assignTokens bt at2 ((applyStreaming true ups st1).lineInfos ++
            tail)).drop 1).map (itemOf false)).get ⟨j, hj⟩) LineType.upcoming = true ∨
        (j = (((assignTokens bt at2 ((applyStreaming true ups st1).lineInfos ++
            tail)).drop 1).map (itemOf false)).length - 1 ∧
          isEOFSpecial ((((assignTokens bt at2 ((applyStreaming true ups st1).lineInfos ++
            tail)).drop 1).map (itemOf false)).get ⟨j, hj⟩) = true) := by
  obtain ⟨li, hli, _⟩ := hF (st1.unifiedLineNumber - 1) (by omega) (by omega)
  have hmodeq : modLine st1.lineInfos (st1.unifiedLineNumber - 1)
      (fun li0 => { li0 with type := LineType.current, oldLineNumber := some st1.oldLineNumber }) =
      setE st1.lineInfos (st1.unifiedLineNumber - 1)
        (.line { li with type := LineType.current, oldLineNumber := some st1.oldLineNumber }) := by
    unfold modLine
    rw [hli]
  have happly : applyStreaming true ups st1 = upcomingLoop (ups.length - 1)
      { st1 with
        lineInfos := setE st1.lineInfos (st1.unifiedLineNumber - 1)
          (.line { li with type := LineType.current, oldLineNumber := some st1.oldLineNumber }),
        oldLineNumber := st1.oldLineNumber + 1 } := by
    rw [← hmodeq]
    rfl
  have hlenset : (setE st1.lineInfos (st1.unifiedLineNumber - 1)
      (.line { li with type := LineType.current, oldLineNumber := some st1.oldLineNumber })).length = st1.unifiedLineNumber := by
    rw [setE_length, hL]
    omega
  obtain ⟨s1, s2, s3, s4⟩ := upcomingLoop_spec (ups.length - 1)
    { st1 with
      lineInfos := setE st1.lineInfos (st1.unifiedLineNumber - 1)
        (.line { li with type := LineType.current, oldLineNumber := some st1.oldLineNumber }),
      oldLineNumber := st1.oldLineNumber + 1 }
    (by simp only []; exact hlenset)
  simp only [] at s1 s2 s3 s4
  rw [happly]
  set u := st1.unifiedLineNumber with hudef
  set k := ups.length - 1 with hkdef
  set st2 := upcomingLoop k
    { st1 with
      lineInfos := setE st1.lineInfos (u - 1)
        (.line { li with type := LineType.current, oldLineNumber := some st1.oldLineNumber }),
      oldLineNumber := st1.oldLineNumber + 1 } with hst2def
  set li4 := st2.lineInfos ++ tail with hli4def
  set li5 := assignTokens bt at2 li4 with hli5def
  have htl : tail.length ≤ 1 := by
    rcases htail with rfl | ⟨rec, rfl, _, _⟩ <;> simp
  have hlen4 : li4.length = u + k + tail.length := by
    rw [hli4def, List.length_append, s2]
  have hlen5 : li5.length = u + k + tail.length := by
    rw [hli5def, assignTokens_length, hlen4]
  have hskel : li5.map entrySkel = li4.map entrySkel := assignTokensGo_skel bt at2 0 li4
  have hmaster : ∀ i, i < li4.length →
      (entryLineInfo (getE li5 i)).type = (entryLineInfo (getE li4 i)).type ∧
      (entryLineInfo (getE li5 i)).specialText =
        (entryLineInfo (getE li4 i)).specialText := by
    intro i hi
    have h5 : i < li5.length := by rw [hlen5, ← hlen4]; exact hi
    have hs := skel_get hskel i h5 hi
    rw [getE_lt li5 i h5, getE_lt li4 i hi]
    exact entrySkel_eq_type hs
  have hcur4 : getE li4 (u - 1) =
      .line { li with type := LineType.current, oldLineNumber := some st1.oldLineNumber } := by
    rw [hli4def, getE_append_left _ _ _ (by rw [s2]; omega), s3 _ (by omega)]
    have h2 : u - 1 ≠ u - 1 → False := fun h => h rfl
    rw [getE_setE_self]
  have hbelow4 : ∀ i, 1 ≤ i → i < u - 1 →
      getE li4 i = getE st1.lineInfos i := by
    intro i h1 h2
    rw [hli4def, getE_append_left _ _ _ (by rw [s2]; omega), s3 _ (by omega),
      getE_setE_ne _ _ _ _ (by omega)]
  have hup4 : ∀ i, u ≤ i → i < u + k →
      ∃ m, getE li4 i = .line { type := LineType.upcoming, oldLineNumber := some m } := by
    intro i h1 h2
    rw [hli4def, getE_append_left _ _ _ (by rw [s2]; omega)]
    exact s4 i h1 h2
  have htail4 : ∀ rec : LineInfo, tail = [.line rec] → getE li4 (u + k) = .line rec := by
    intro rec hrec
    rw [hli4def, hrec, ← s2, getE_concat_self]
  clear_value li5 li4 st2 k u
  have hitems_len : ((li5.drop 1).map (itemOf false)).length = u + k + tail.length - 1 := by
    rw [List.length_map, List.length_drop, hlen5]
  have hitems_get : ∀ j (hj : j < ((li5.drop 1).map (itemOf false)).length),
      ((li5.drop 1).map (itemOf false)).get ⟨j, hj⟩ =
        .line (convertEntryLine (getE li5 (j + 1))) := by
    intro j hj
    have h2 : j < (li5.drop 1).length := by
      rw [List.length_map] at hj
      exact hj
    rw [List.get_eq_getElem, List.getElem_map, ← getE_lt2 (li5.drop 1) j h2, getE_drop,
      Nat.add_comm 1 j, itemOf_false_line]
  -- classification of item types by position
  have hclass_cur : ∀ hj : u - 2 < ((li5.drop 1).map (itemOf false)).length,
      itemIsType (((li5.drop 1).map (itemOf false)).get ⟨u - 2, hj⟩)
        LineType.current = true := by
    intro hj
    rw [hitems_get _ hj, itemIsType_convert]
    have hm := (hmaster (u - 1) (by rw [hlen4]; omega)).1
    have heq : u - 2 + 1 = u - 1 := by omega
    rw [heq, hm, hcur4]
    simp [entryLineInfo]
  have hclass_low : ∀ j (hj : j < ((li5.drop 1).map (itemOf false)).length), j < u - 2 →
      itemIsType (((li5.drop 1).map (itemOf false)).get ⟨j, hj⟩)
        LineType.current = false := by
    intro j hj hlow
    rw [hitems_get _ hj, itemIsType_convert]
    have hm := (hmaster (j + 1) (by rw [hlen4]; omega)).1
    rw [hm, hbelow4 (j + 1) (by omega) (by omega)]
    have hd := hA (j + 1)
    rcases hd with hh | ⟨li2, hh, hdar2⟩
    · rw [hh]
      simp [entryLineInfo]
    · rw [hh]
      rcases hdar2 with h | h | h <;> simp [entryLineInfo, h]
  have hclass_up : ∀ j (hj : j < ((li5.drop 1).map (itemOf false)).length),
      u - 2 < j → j + 1 < u + k →
      itemIsType (((li5.drop 1).map (itemOf false)).get ⟨j, hj⟩)
        LineType.upcoming = true := by
    intro j hj h1 h2
    rw [hitems_get _ hj, itemIsType_convert]
    have hm := (hmaster (j + 1) (by rw [hlen4]; omega)).1
    obtain ⟨m, hm2⟩ := hup4 (j + 1) (by omega) h2
    rw [hm, hm2]
    simp [entryLineInfo]
  have hclass_tail : ∀ j (hj : j < ((li5.drop 1).map (itemOf false)).length),
      u + k ≤ j + 1 →
      ∃ rec : LineInfo, tail = [.line rec] ∧ j + 1 = u + k ∧
        (entryLineInfo (getE li5 (j + 1))).type = rec.type ∧
        (entryLineInfo (getE li5 (j + 1))).specialText = rec.specialText := by
    intro j hj h1
    have hjl := hj
    rw [hitems_len] at hjl
    have htl1 : tail.length = 1 := by omega
    rcases htail with rfl | ⟨rec, hrec, hsp, hty⟩
    · simp at htl1
    · have hje : j + 1 = u + k := by
        rw [hrec] at hjl
        simp at hjl
        omega
      have hm := hmaster (j + 1) (by rw [hlen4]; omega)
      rw [hje] at hm ⊢
      rw [htail4 rec hrec] at hm
      exact ⟨rec, hrec, rfl, hm.1, hm.2⟩
  refine ⟨?_, ?_⟩
  · apply countP_eq_one_of_unique_idx _ _ (u - 2)
      (by rw [hitems_len]; omega)
    · exact hclass_cur _
    · intro j hj hne
      by_cases hlow : j < u - 2
      · exact hclass_low j hj hlow
      · have hhigh : u - 2 < j := by omega
        by_cases hmid : j + 1 < u + k
        · have := hclass_up j hj hhigh hmid
          rw [hitems_get _ hj, itemIsType_convert] at this ⊢
          simp only [decide_eq_true_eq] at this
          simp [this]
        · obtain ⟨rec, hrec, hje, hty2, _⟩ := hclass_tail j hj (by omega)
          rw [hitems_get _ hj, itemIsType_convert]
          rcases htail with htn | ⟨rec2, hrec2, hsp2, htyp2⟩
          · rw [htn] at hrec
            cases hrec
          · rw [hrec2] at hrec
            simp only [List.cons.injEq] at hrec
            have : rec2 = rec := by
              have := hrec.1
              injection this
            subst this
            rw [hty2]
            rcases htyp2 with h | h <;> simp [h]
  · refine ⟨u - 2, by rw [hitems_len]; omega, hclass_cur _, ?_⟩
    intro j hj hgt
    by_cases hmid : j + 1 < u + k
    · exact Or.inl (hclass_up j hj hgt hmid)
    · obtain ⟨rec, hrec, hje, hty2, hsp2⟩ := hclass_tail j hj (by omega)
      right
      constructor
      · rw [hitems_len, hrec]
        simp only [List.length_singleton]
        omega
      · rw [hitems_get _ hj]
        show (convertEntryLine (getE li5 (j + 1))).specialText.isSome = true
        have hconv : (convertEntryLine (getE li5 (j + 1))).specialText =
            (entryLineInfo (getE li5 (j + 1))).specialText := rfl
        rw [hconv, hsp2]
        rcases htail with htn | ⟨rec2, hrec2, hsp3, _⟩
        · rw [htn] at hrec
          cases hrec
        · rw [hrec2] at hrec
          simp only [List.cons.injEq] at hrec
          have : rec2 = rec := by
            have := hrec.1
            injection this
          subst this
          exact hsp3

/-- C3 (amended): under the `jsdiff` contract, (a) in streaming mode exactly
one output item has kind `current`, and every item after it has kind
`upcoming`, except that the very last item may instead be the synthetic
EOF-newline record (an `added`/`removed` line with a `specialText`) — the
claim's "last non-upcoming record" sentence fails on exactly that record;
(b) without streaming no item has kind `current`. -/
theorem C3_amended (dl dw : Str → Str → List Change) (hl : Str → List (List Tok))
    (code : Str) (diffWith : Option Str) (cu : Option CollapseCfg)
    (hdw : ∀ a b, okWordDiff (dw a b) a b = true)
    (hok : ∀ c ∈ dl (streamDiffFrom code diffWith) (withNL code), okChange c = true)
    (hchain : chainB okPairB (dl (streamDiffFrom code diffWith) (withNL code)) = true)
    (hadj : chainB diffKindB (dl (streamDiffFrom code diffWith) (withNL code)) = true)
    (hcov : coversTo (dl (streamDiffFrom code diffWith) (withNL code)) (withNL code) = true)
    (hokF : ∀ c ∈ dl (fullDiffFrom diffWith) (withNL code), okChange c = true)
    (hchainF : chainB okPairB (dl (fullDiffFrom diffWith) (withNL code)) = true) :
    ((tokenizeModel dl dw hl code diffWith true cu).items.countP
        (fun it => itemIsType it LineType.current) = 1 ∧
      ∃ kk, ∃ hk : kk < (tokenizeModel dl dw hl code diffWith true cu).items.length,
        itemIsType ((tokenizeModel dl dw hl code diffWith true cu).items.get ⟨kk, hk⟩)
          LineType.current = true ∧
        ∀ j, ∀ hj : j < (tokenizeModel dl dw hl code diffWith true cu).items.length,
          kk < j →
          itemIsType ((tokenizeModel dl dw hl code diffWith true cu).items.get ⟨j, hj⟩)
            LineType.upcoming = true ∨
          (j = (tokenizeModel dl dw hl code diffWith true cu).items.length - 1 ∧
            isEOFSpecial ((tokenizeModel dl dw hl code diffWith true cu).items.get
              ⟨j, hj⟩) = true)) ∧
    (tokenizeModel dl dw hl code diffWith false cu).items.countP
      (fun it => itemIsType it LineType.current) = 0 := by
  refine ⟨?_, nonstreaming_no_current dl dw hl code diffWith cu hdw hokF hchainF⟩
  obtain ⟨hL, hU, hA, hF⟩ := builderReady_streaming dl dw code diffWith hdw hok hchain
    hadj hcov
  have htail : (if (prepare dl code diffWith true).fromNewlineEOF ≠
      (prepare dl code diffWith true).toNewlineEOF then
        [Entry.line
          { type := if (prepare dl code diffWith true).toNewlineEOF
              then LineType.added else LineType.removed,
            specialText := some (if (prepare dl code diffWith true).toNewlineEOF
              then addedEOFText else removedEOFText) }]
      else []) = [] ∨
      ∃ rec : LineInfo, (if (prepare dl code diffWith true).fromNewlineEOF ≠
          (prepare dl code diffWith true).toNewlineEOF then
        [Entry.line
          { type := if (prepare dl code diffWith true).toNewlineEOF
              then LineType.added else LineType.removed,
            specialText := some (if (prepare dl code diffWith true).toNewlineEOF
              then addedEOFText else removedEOFText) }]
      else []) = [.line rec] ∧ rec.specialText.isSome = true ∧
        (rec.type = LineType.added ∨ rec.type = LineType.removed) := by
    split
    · right
      refine ⟨_, rfl, rfl, ?_⟩
      split
      · exact Or.inl rfl
      · exact Or.inr rfl
    · left
      rfl
  have hmain := overlay_items_structure (builderState dw (prepare dl code diffWith true))
    (if (prepare dl code diffWith true).isDiff
      then hl (prepare dl code diffWith true).fromText
      else hl (prepare dl code diffWith true).toText)
    (hl (prepare dl code diffWith true).toText)
    (prepare dl code diffWith true).upcomingLines
    (if (prepare dl code diffWith true).fromNewlineEOF ≠
        (prepare dl code diffWith true).toNewlineEOF then
      [Entry.line
        { type := if (prepare dl code diffWith true).toNewlineEOF
            then LineType.added else LineType.removed,
          specialText := some (if (prepare dl code diffWith true).toNewlineEOF
            then addedEOFText else removedEOFText) }]
    else []) hL hU hA hF htail
  rw [tokenizeModel_streaming_items dl dw hl code diffWith cu]
  exact hmain

/-- C3 (counterexample): streaming `code = "one\n"` against a longer before
text with no trailing newline yields a `current` item at index 0 followed by
`upcoming` items and then a final synthetic `added` EOF-newline record — an
item after the `current` one that is neither `upcoming` nor `current`, so the
`current` record is not the last non-upcoming record of the sequence. -/
theorem C3_counterexample :
    (tokenizeRef "one\n".toList
        (some "one\ntwo\nthree\nfour\nfive\nsix\nseven\neight".toList)
        true none).currentLineIndex = some 0 ∧
    (tokenizeRef "one\n".toList
        (some "one\ntwo\nthree\nfour\nfive\nsix\nseven\neight".toList)
        true none).items.countP (fun it => itemIsType it LineType.current) = 1 ∧
    ((tokenizeRef "one\n".toList
        (some "one\ntwo\nthree\nfour\nfive\nsix\nseven\neight".toList)
        true none).items.drop 1).any
      (fun it => !(itemIsType it LineType.upcoming || itemIsType it LineType.current))
      = true := by
  refine ⟨?_, ?_, ?_⟩ <;> decide

theorem C3_amended_witness :
    ((tokenizeModel refDiffLines trivialW simpleHl (['a'] : Str) (some ['a'])
        true none).items.countP (fun it => itemIsType it LineType.current) = 1 ∧
      ∃ kk, ∃ hk : kk < (tokenizeModel refDiffLines trivialW simpleHl (['a'] : Str)
          (some ['a']) true none).items.length,
        itemIsType ((tokenizeModel refDiffLines trivialW simpleHl (['a'] : Str)
            (some ['a']) true none).items.get ⟨kk, hk⟩) LineType.current = true ∧
        ∀ j, ∀ hj : j < (tokenizeModel refDiffLines trivialW simpleHl (['a'] : Str)
            (some ['a']) true none).items.length, kk < j →
          itemIsType ((tokenizeModel refDiffLines trivialW simpleHl (['a'] : Str)
              (some ['a']) true none).items.get ⟨j, hj⟩) LineType.upcoming = true ∨
          (j = (tokenizeModel refDiffLines trivialW simpleHl (['a'] : Str)
              (some ['a']) true none).items.length - 1 ∧
            isEOFSpecial ((tokenizeModel refDiffLines trivialW simpleHl (['a'] : Str)
              (some ['a']) true none).items.get ⟨j, hj⟩) = true)) ∧
    (tokenizeModel refDiffLines trivialW simpleHl (['a'] : Str) (some ['a'])
        false none).items.countP (fun it => itemIsType it LineType.current) = 0 :=
  C3_amended refDiffLines trivialW simpleHl ['a'] (some ['a']) none trivialW_ok
    (by decide) (by decide) (by decide) (by decide) (by decide) (by decide)

/-! ## Collapse: run decomposition and the specification-side reducer -/

/-- Flatten an alternating decomposition of the array into
(non-default block, default run) pairs. -/
def blocksToList (bs : List (List Entry × List Entry)) : List Entry :=
  (bs.map (fun p => p.1 ++ p.2)).flatten

/-- The collapse of one maximal `default` run, as the specification words it:
keep `padding` lines at the leading edge unless the run starts at index 1,
keep `padding` lines at the trailing edge unless the run touches the end of
the array, and when something remains in between replace it by one collapse
record. -/
def specRun (padding runStart : Nat) (atEnd : Bool) (run : List Entry) : List Entry :=
  if (if atEnd then run.length else run.length - padding) ≤
      (if runStart = 1 then 0 else padding) then run
  else
    run.take (if runStart = 1 then 0 else padding) ++
      .collapsed ((run.drop (if runStart = 1 then 0 else padding)).take
        ((if atEnd then run.length else run.length - padding) -
          (if runStart = 1 then 0 else padding))) ::
      run.drop (if atEnd then run.length else run.length - padding)

/-- The specification-side reducer: process every maximal run in order,
tracking the absolute position. -/
def specBlocks (padding : Nat) : Nat → List (List Entry × List Entry) → List Entry
  | _, [] => []
  | pos, [(nd, run)] => nd ++ specRun padding (pos + nd.length) true run
  | pos, (nd, run) :: p2 :: rest =>
    nd ++ specRun padding (pos + nd.length) false run ++
      specBlocks padding (pos + nd.length + run.length) (p2 :: rest)

theorem findIdx?_map_succ {α} (p : α → Bool) (l : List α) : ∀ i : Nat,
    l.findIdx? p (i + 1) = (l.findIdx? p i).map (· + 1) := by
  induction l with
  | nil => intro i; simp [List.findIdx?_nil]
  | cons a l ih =>
    intro i
    rw [List.findIdx?_cons, List.findIdx?_cons]
    by_cases hp : p a = true
    · simp [hp]
    · rw [if_neg hp, if_neg hp, ih (i + 1)]

theorem findIdx?_append_false {α} (p : α → Bool) : ∀ (A B : List α),
    (∀ x ∈ A, p x = false) →
    (A ++ B).findIdx? p = (B.findIdx? p).map (· + A.length) := by
  intro A
  induction A with
  | nil =>
    intro B h
    simp
  | cons a A ih =>
    intro B h
    rw [List.cons_append, List.findIdx?_cons]
    have hpa : p a = false := h a (by simp)
    rw [if_neg (by simp [hpa]), findIdx?_map_succ, ih B (fun x hx => h x (by simp [hx])),
      Option.map_map]
    congr 1

theorem findIdxFromP_none (p : Entry → Bool) (l : List Entry) (lo : Nat)
    (h : ∀ e ∈ l.drop lo, p e = false) : findIdxFromP p l lo = none := by
  rw [findIdxFromP, List.findIdx?_eq_none_iff.mpr h]
  rfl

theorem findIdxFromP_boundary (p : Entry → Bool) (A B : List Entry) (e : Entry) (lo : Nat)
    (hlo : lo ≤ A.length) (hA : ∀ x ∈ A.drop lo, p x = false) (he : p e = true) :
    findIdxFromP p (A ++ e :: B) lo = some A.length := by
  rw [findIdxFromP]
  rw [List.drop_append_eq_append_drop]
  rw [show lo - A.length = 0 from by omega, List.drop_zero]
  rw [findIdx?_append_false p _ _ hA]
  rw [List.findIdx?_cons, if_pos he]
  simp only [Option.map_map, Option.map_some', Function.comp_apply, List.length_drop]
  congr 1
  omega

theorem collapseLoopF_step (padding fuel : Nat) (l : List Entry) (fromIdx start0 : Nat)
    (hg : fromIdx ≤ l.length)
    (hf : findIdxFromP entryIsDefault l fromIdx = some start0) :
    collapseLoopF padding (fuel + 1) l fromIdx =
      (let endU := (findIdxFromP (fun e => !entryIsDefault e) l (start0 + 1)).getD l.length
       let start := if start0 = 1 then start0 else start0 + padding
       let endT := if endU = l.length then endU else endU - padding
       if endT ≤ start then collapseLoopF padding fuel l (endU + 1)
       else collapseLoopF padding fuel
         (l.take start ++ .collapsed ((l.drop start).take (endT - start)) :: l.drop endT)
         (start + 2)) := by
  rw [collapseLoopF, if_pos hg, hf]

theorem collapseLoopF_stop (padding fuel : Nat) (l : List Entry) (fromIdx : Nat)
    (hg : fromIdx ≤ l.length)
    (hf : findIdxFromP entryIsDefault l fromIdx = none) :
    collapseLoopF padding (fuel + 1) l fromIdx = l := by
  rw [collapseLoopF, if_pos hg, hf]

theorem collapseLoopF_gf (padding fuel : Nat) (l : List Entry) (fromIdx : Nat)
    (hg : ¬fromIdx ≤ l.length) :
    collapseLoopF padding (fuel + 1) l fromIdx = l := by
  rw [collapseLoopF, if_neg hg]

theorem getE_append_right2 (A B : List Entry) (i : Nat) :
    getE (A ++ B) (A.length + i) = getE B i := by
  rw [getE, getE, List.getD_eq_getElem?_getD, List.getD_eq_getElem?_getD]
  congr 1
  rw [List.getElem?_append_right (by omega)]
  congr 1
  omega

theorem findIdxFromP_self (p : Entry → Bool) (l : List Entry) (lo : Nat)
    (hlo : lo < l.length) (hp : p (getE l lo) = true) :
    findIdxFromP p l lo = some lo := by
  rw [findIdxFromP, List.drop_eq_getElem_cons hlo, List.findIdx?_cons]
  rw [getE_lt2 l lo hlo] at hp
  rw [if_pos hp]
  simp

theorem specRun_pos (padding runStart runStart2 : Nat) (atEnd : Bool) (run : List Entry)
    (h1 : runStart ≠ 1) (h2 : runStart2 ≠ 1) :
    specRun padding runStart atEnd run = specRun padding runStart2 atEnd run := by
  unfold specRun
  rw [if_neg h1, if_neg h2]

theorem specBlocks_pos_irrel (padding : Nat) : ∀ (bs : List (List Entry × List Entry))
    (pos pos2 : Nat), 2 ≤ pos → 2 ≤ pos2 →
    specBlocks padding pos bs = specBlocks padding pos2 bs
  | [], _, _ => by intro _ _; rfl
  | [(nd, run)], pos, pos2 => by
    intro h1 h2
    simp only [specBlocks]
    rw [specRun_pos padding (pos + nd.length) (pos2 + nd.length) true run
      (by omega) (by omega)]
  | (nd, run) :: p2 :: rest, pos, pos2 => by
    intro h1 h2
    simp only [specBlocks]
    rw [specRun_pos padding (pos + nd.length) (pos2 + nd.length) false run
      (by omega) (by omega)]
    rw [specBlocks_pos_irrel padding (p2 :: rest) (pos + nd.length + run.length)
      (pos2 + nd.length + run.length) (by omega) (by omega)]

theorem specBlocks_of_flat_nil (padding : Nat) : ∀ (bs : List (List Entry × List Entry)),
    blocksToList bs = [] → ∀ pos, specBlocks padding pos bs = []
  | [] => by intro _ _; rfl
  | [(nd, run)] => by
    intro h pos
    have hs : (nd ++ run) ++ ([] : List Entry) = [] := h
    rw [List.append_nil] at hs
    obtain ⟨hnd, hrun⟩ := List.append_eq_nil.mp hs
    subst hnd hrun
    simp [specBlocks, specRun]
  | (nd, run) :: p2 :: rest => by
    intro h pos
    have hs : (nd ++ run) ++ blocksToList (p2 :: rest) = [] := h
    obtain ⟨h1, h2⟩ := List.append_eq_nil.mp hs
    obtain ⟨hnd, hrun⟩ := List.append_eq_nil.mp h1
    have hrest := specBlocks_of_flat_nil padding (p2 :: rest) h2
    subst hnd hrun
    simp only [specBlocks, List.nil_append]
    rw [hrest]
    simp [specRun]

theorem specRun_repl (padding runStart : Nat) (atEnd : Bool) (run : List Entry)
    (h : ¬((if atEnd then run.length else run.length - padding) ≤
      (if runStart = 1 then 0 else padding))) :
    specRun padding runStart atEnd run =
      run.take (if runStart = 1 then 0 else padding) ++
        .collapsed ((run.drop (if runStart = 1 then 0 else padding)).take
          ((if atEnd then run.length else run.length - padding) -
            (if runStart = 1 then 0 else padding))) ::
        run.drop (if atEnd then run.length else run.length - padding) := by
  unfold specRun
  rw [if_neg h]

theorem collapseF_blocks (padding : Nat) : ∀ (fuel : Nat)
    (bs : List (List Entry × List Entry)) (acc tailD : List Entry) (fromIdx : Nat),
    (∀ p ∈ bs, (∀ e ∈ p.1, entryIsDefault e = false) ∧
      (∀ e ∈ p.2, entryIsDefault e = true)) →
    (∀ i (hi : i < bs.length), 0 < i → (bs.get ⟨i, hi⟩).1 ≠ []) →
    (∀ i (hi : i < bs.length), i + 1 < bs.length → (bs.get ⟨i, hi⟩).2 ≠ []) →
    (∀ e ∈ tailD, entryIsDefault e = true) →
    tailD.length ≤ padding →
    (tailD ≠ [] → 2 ≤ acc.length) →
    (tailD ≠ [] → ∀ q ∈ bs.head?, q.1 ≠ []) →
    (fromIdx = acc.length ∨ fromIdx = acc.length + 1) →
    (fromIdx = acc.length + 1 → tailD = [] → ∀ q ∈ bs.head?, q.1 ≠ []) →
    (1 ≤ acc.length ∨ ∀ q ∈ bs.head?, q.1 ≠ []) →
    tailD.length + (blocksToList bs).length + 1 ≤ fuel →
    collapseLoopF padding fuel (acc ++ (tailD ++ blocksToList bs)) fromIdx =
      acc ++ (tailD ++ specBlocks padding (acc.length + tailD.length) bs) := by
  intro fuel
  induction fuel with
  | zero =>
    intro bs acc tailD fromIdx _ _ _ _ _ _ _ _ _ _ hfuel
    omega
  | succ fuel ih =>
    intro bs acc tailD fromIdx hbl hnd1 hrunne htd htdlen htdacc htdnd hfi hskip hfirst hfuel
    have hlenL : (acc ++ (tailD ++ blocksToList bs)).length =
        acc.length + tailD.length + (blocksToList bs).length := by
      rw [List.length_append, List.length_append]
      omega
    by_cases hg : fromIdx ≤ (acc ++ (tailD ++ blocksToList bs)).length
    case neg =>
      rw [collapseLoopF_gf padding fuel _ _ hg]
      have htd0 : tailD = [] := by
        rcases hfi with h | h <;>
          exact List.length_eq_zero.mp (by omega)
      have hbl0 : blocksToList bs = [] := by
        rcases hfi with h | h <;>
          exact List.length_eq_zero.mp (by omega)
      rw [specBlocks_of_flat_nil padding bs hbl0, htd0, hbl0]
    case pos =>
      by_cases hvis : fromIdx < acc.length + tailD.length
      case pos =>
        -- a default entry of the leftover tail is visible: one no-op iteration
        have htdne : tailD ≠ [] := by
          intro h
          rw [h] at hvis
          simp at hvis
          omega
        have hacc2 : 2 ≤ acc.length := htdacc htdne
        have hfi2 : acc.length ≤ fromIdx := by rcases hfi with h | h <;> omega
        have hEntry : entryIsDefault (getE (acc ++ (tailD ++ blocksToList bs)) fromIdx)
            = true := by
          rw [show fromIdx = acc.length + (fromIdx - acc.length) from by omega,
            getE_append_right2, getE_append_left _ _ _ (by omega),
            getE_lt2 _ _ (by omega)]
          exact htd _ (List.getElem_mem _)
        have hfind := findIdxFromP_self entryIsDefault _ fromIdx
          (by rw [hlenL]; omega) hEntry
        have hA2 : ∀ x ∈ (acc ++ tailD).drop (fromIdx + 1), entryIsDefault x = true := by
          intro x hx
          rw [List.drop_append_eq_append_drop,
            List.drop_eq_nil_of_le (show acc.length ≤ fromIdx + 1 from by omega),
            List.nil_append] at hx
          exact htd x (List.mem_of_mem_drop hx)
        have hendu : (findIdxFromP (fun e => !entryIsDefault e)
            (acc ++ (tailD ++ blocksToList bs)) (fromIdx + 1)).getD
            (acc ++ (tailD ++ blocksToList bs)).length = acc.length + tailD.length := by
          match bs, htdnd htdne with
          | [], _ =>
            rw [findIdxFromP_none]
            · simp [blocksToList]
            · intro e he
              have he2 : e ∈ (acc ++ tailD).drop (fromIdx + 1) := by
                have : acc ++ (tailD ++ blocksToList ([] :
                    List (List Entry × List Entry))) = acc ++ tailD := by
                  simp [blocksToList]
                rwa [this] at he
              simp [hA2 e he2]
          | (nd, run) :: rest, hhd =>
            have hndne : nd ≠ [] := hhd (nd, run) rfl
            obtain ⟨d2, nd', hnd'⟩ : ∃ d2 nd', nd = d2 :: nd' := by
              cases nd with
              | nil => exact absurd rfl hndne
              | cons a l => exact ⟨a, l, rfl⟩
            have hL2 : acc ++ (tailD ++ blocksToList ((nd, run) :: rest)) =
                (acc ++ tailD) ++ (d2 :: (nd' ++ run ++ blocksToList rest)) := by
              subst hnd'
              simp [blocksToList]
            rw [hL2, findIdxFromP_boundary _ _ _ _ _ (by simp; omega)
              (by intro x hx; simp [hA2 x hx])
              (by
                have := (hbl (nd, run) (by simp)).1 d2 (by simp [hnd'])
                simp [this])]
            simp
        rw [collapseLoopF_step padding fuel _ fromIdx fromIdx hg hfind]
        simp only [hendu]
        rw [if_neg (show ¬fromIdx = 1 from by omega)]
        have hskipbranch : (if acc.length + tailD.length =
            (acc ++ (tailD ++ blocksToList bs)).length then acc.length + tailD.length
            else acc.length + tailD.length - padding) ≤
            (if fromIdx = 1 then fromIdx else fromIdx + padding) := by
          rw [if_neg (show ¬fromIdx = 1 from by omega)]
          split <;> omega
        rw [if_neg (show ¬fromIdx = 1 from by omega)] at hskipbranch
        rw [if_pos hskipbranch]
        have harr : acc ++ (tailD ++ blocksToList bs) =
            (acc ++ tailD) ++ ([] ++ blocksToList bs) := by simp
        rw [harr]
        rw [ih bs (acc ++ tailD) [] (acc.length + tailD.length + 1) hbl hnd1 hrunne
          (by intro e he; cases he) (by simp) (by intro h; exact absurd rfl h)
          (by intro h; exact absurd rfl h)
          (Or.inr (by simp)) (fun _ _ => htdnd htdne)
          (Or.inl (by simp; omega)) (by simp at hfuel ⊢; omega)]
        simp only [List.length_append, List.length_nil, List.nil_append, List.append_assoc,
          Nat.add_zero]
      case neg =>
        push_neg at hvis
        have hfi2 : fromIdx ≤ acc.length + 1 := by rcases hfi with h | h <;> omega
        have hfi3 : acc.length ≤ fromIdx := by rcases hfi with h | h <;> omega
        match bs, hbl, hnd1, hrunne, htdnd, hskip, hfirst, hfuel with
        | [], _, _, _, _, _, _, hfuel =>
          have hfind : findIdxFromP entryIsDefault (acc ++ (tailD ++ blocksToList
              ([] : List (List Entry × List Entry)))) fromIdx = none := by
            apply findIdxFromP_none
            intro e he
            rw [show acc ++ (tailD ++ blocksToList ([] : List (List Entry × List Entry)))
                = acc ++ tailD from by simp [blocksToList]] at he
            rw [List.drop_eq_nil_of_le (by simp; omega)] at he
            cases he
          rw [collapseLoopF_stop padding fuel _ _ hg hfind]
          simp [blocksToList, specBlocks]
        | (nd, run) :: rest, hbl, hnd1, hrunne, htdnd, hskip, hfirst, hfuel =>
          by_cases hrun0 : run = []
          · have hrest : rest = [] := by
              cases rest with
              | nil => rfl
              | cons p2 rest2 =>
                have h2 := hrunne 0 (by simp) (by simp)
                simp at h2
                exact absurd hrun0 h2
            subst hrest
            subst hrun0
            have hfind : findIdxFromP entryIsDefault
                (acc ++ (tailD ++ blocksToList [(nd, [])])) fromIdx = none := by
              apply findIdxFromP_none
              intro e he
              rw [show acc ++ (tailD ++ blocksToList [(nd, ([] : List Entry))]) =
                  (acc ++ tailD) ++ nd from by simp [blocksToList]] at he
              rw [List.drop_append_eq_append_drop,
                List.drop_eq_nil_of_le
                  (show (acc ++ tailD).length ≤ fromIdx from by simp; omega),
                List.nil_append] at he
              exact (hbl (nd, []) (by simp)).1 e (List.mem_of_mem_drop he)
            rw [collapseLoopF_stop padding fuel _ _ hg hfind]
            simp [blocksToList, specBlocks, specRun]
          · obtain ⟨d, run', hrun'⟩ : ∃ d run', run = d :: run' := by
              cases run with
              | nil => exact absurd rfl hrun0
              | cons a l => exact ⟨a, l, rfl⟩
            have hrunlen : 1 ≤ run.length := by rw [hrun']; simp
            have hRge : fromIdx ≤ acc.length + tailD.length + nd.length := by
              rcases hfi with h | h
              · omega
              · by_cases htd0 : tailD = []
                · have hnd := hskip h htd0 (nd, run) rfl
                  have hnd1len : 1 ≤ nd.length := by
                    cases nd with
                    | nil => exact absurd rfl hnd
                    | cons _ _ => simp
                  omega
                · have htl1 : 1 ≤ tailD.length := by
                    cases tailD with
                    | nil => exact absurd rfl htd0
                    | cons _ _ => simp
                  omega
            have hRfirst : 1 ≤ acc.length + tailD.length + nd.length := by
              rcases hfirst with h | h
              · omega
              · have hnd := h (nd, run) rfl
                have : 1 ≤ nd.length := by
                  cases nd with
                  | nil => exact absurd rfl hnd
                  | cons _ _ => simp
                omega
            have hL2 : acc ++ (tailD ++ blocksToList ((nd, run) :: rest)) =
                (acc ++ tailD ++ nd) ++ (d :: (run' ++ blocksToList rest)) := by
              rw [hrun']
              simp [blocksToList]
            have hAdrop : ∀ x ∈ (acc ++ tailD ++ nd).drop fromIdx,
                entryIsDefault x = false := by
              intro x hx
              rw [show acc ++ tailD ++ nd = (acc ++ tailD) ++ nd from by simp,
                List.drop_append_eq_append_drop,
                List.drop_eq_nil_of_le
                  (show (acc ++ tailD).length ≤ fromIdx from by simp; omega),
                List.nil_append] at hx
              exact (hbl (nd, run) (by simp)).1 x (List.mem_of_mem_drop hx)
            have hfind : findIdxFromP entryIsDefault
                (acc ++ (tailD ++ blocksToList ((nd, run) :: rest))) fromIdx =
                some (acc.length + tailD.length + nd.length) := by
              rw [hL2, findIdxFromP_boundary _ _ _ _ _ (by simp; omega) hAdrop
                (by
                  have hd := (hbl (nd, run) (by simp)).2 d (by simp [hrun'])
                  simp [hd])]
              simp
              omega
            have hrundrop : ∀ x ∈ (acc ++ tailD ++ nd ++ run).drop
                (acc.length + tailD.length + nd.length + 1),
                (!entryIsDefault x) = false := by
              intro x hx
              rw [show acc ++ tailD ++ nd ++ run = (acc ++ tailD ++ nd) ++ run
                  from by simp,
                List.drop_append_eq_append_drop,
                List.drop_eq_nil_of_le (show (acc ++ tailD ++ nd).length ≤
                  acc.length + tailD.length + nd.length + 1 from by simp; omega),
                List.nil_append] at hx
              have hd := (hbl (nd, run) (by simp)).2 x (List.mem_of_mem_drop hx)
              simp [hd]
            have hspec_skip : ∀ atEnd : Bool,
                ((if atEnd then run.length else run.length - padding) ≤
                  (if acc.length + tailD.length + nd.length = 1 then 0 else padding)) →
                specRun padding (acc.length + tailD.length + nd.length) atEnd run = run := by
              intro atEnd h
              unfold specRun
              rw [if_pos h]
            by_cases hrest0 : rest = []
            · subst hrest0
              have hlen3 : (acc ++ (tailD ++ blocksToList [(nd, run)])).length =
                  acc.length + tailD.length + nd.length + run.length := by
                simp [blocksToList]
                omega
              have hendu : (findIdxFromP (fun e => !entryIsDefault e)
                  (acc ++ (tailD ++ blocksToList [(nd, run)]))
                  (acc.length + tailD.length + nd.length + 1)).getD
                  (acc ++ (tailD ++ blocksToList [(nd, run)])).length =
                  acc.length + tailD.length + nd.length + run.length := by
                rw [findIdxFromP_none, Option.getD_none, hlen3]
                intro e he
                rw [show acc ++ (tailD ++ blocksToList [(nd, run)]) =
                    acc ++ tailD ++ nd ++ run from by simp [blocksToList]] at he
                exact hrundrop e he
              rw [collapseLoopF_step padding fuel _ fromIdx _ hg hfind]
              simp only [hendu]
              rw [if_pos hlen3.symm]
              by_cases hcond : acc.length + tailD.length + nd.length + run.length ≤
                  (if acc.length + tailD.length + nd.length = 1 then
                    acc.length + tailD.length + nd.length
                  else acc.length + tailD.length + nd.length + padding)
              · rw [if_pos hcond]
                rw [show acc ++ (tailD ++ blocksToList [(nd, run)]) =
                    (acc ++ tailD ++ nd ++ run) ++ ([] ++ blocksToList
                      ([] : List (List Entry × List Entry))) from by simp [blocksToList]]
                rw [ih [] (acc ++ tailD ++ nd ++ run) []
                  (acc.length + tailD.length + nd.length + run.length + 1)
                  (by intro p hp; cases hp) (by intro i hi _; simp at hi)
                  (by intro i hi _; simp at hi) (by intro e he; cases he) (by simp)
                  (by intro h; exact absurd rfl h) (by intro h; exact absurd rfl h)
                  (Or.inr (by simp; omega))
                  (fun _ _ q hq => by simp at hq)
                  (Or.inl (by simp; omega))
                  (by simp [blocksToList] at hfuel ⊢; omega)]
                simp only [specBlocks]
                rw [hspec_skip true (by split at hcond <;> split <;> omega)]
                simp [blocksToList]
              · rw [if_neg hcond]
                have hR1f : ¬(acc.length + tailD.length + nd.length = 1 ∧
                    padding + 1 ≤ run.length) ∨ True := Or.inr trivial
                -- replacement at the end of the array: no trailing trim
                have hsle : (if acc.length + tailD.length + nd.length = 1 then 0
                    else padding) < run.length := by
                  split at hcond <;> rename_i hsp <;> simp [hsp] at hcond ⊢ <;> omega
                have htake1 : (acc ++ (tailD ++ blocksToList [(nd, run)])).take
                    (if acc.length + tailD.length + nd.length = 1 then
                      acc.length + tailD.length + nd.length
                    else acc.length + tailD.length + nd.length + padding) =
                    (acc ++ tailD ++ nd) ++ run.take
                      (if acc.length + tailD.length + nd.length = 1 then 0
                        else padding) := by
                  rw [show acc ++ (tailD ++ blocksToList [(nd, run)]) =
                      (acc ++ tailD ++ nd) ++ run from by simp [blocksToList]]
                  rw [List.take_append_eq_append_take,
                    List.take_of_length_le (by simp; split <;> omega)]
                  congr 1
                  congr 1
                  simp
                  split <;> omega
                have hdrop1 : (acc ++ (tailD ++ blocksToList [(nd, run)])).drop
                    (if acc.length + tailD.length + nd.length = 1 then
                      acc.length + tailD.length + nd.length
                    else acc.length + tailD.length + nd.length + padding) =
                    run.drop (if acc.length + tailD.length + nd.length = 1 then 0
                      else padding) := by
                  rw [show acc ++ (tailD ++ blocksToList [(nd, run)]) =
                      (acc ++ tailD ++ nd) ++ run from by simp [blocksToList]]
                  rw [List.drop_append_eq_append_drop,
                    List.drop_eq_nil_of_le (by simp; split <;> omega), List.nil_append]
                  congr 1
                  simp
                  split <;> omega
                have hdrop2 : (acc ++ (tailD ++ blocksToList [(nd, run)])).drop
                    (acc.length + tailD.length + nd.length + run.length) = [] := by
                  apply List.drop_eq_nil_of_le
                  rw [hlen3]
                rw [htake1, hdrop1, hdrop2]
                have hga : acc.length + tailD.length + nd.length + run.length -
                    (if acc.length + tailD.length + nd.length = 1 then
                      acc.length + tailD.length + nd.length
                    else acc.length + tailD.length + nd.length + padding) =
                    run.length - (if acc.length + tailD.length + nd.length = 1 then 0
                      else padding) := by
                  split <;> omega
                rw [hga, List.take_of_length_le (show (run.drop
                    (if acc.length + tailD.length + nd.length = 1 then 0
                      else padding)).length ≤ run.length -
                    (if acc.length + tailD.length + nd.length = 1 then 0 else padding)
                  from by simp)]
                rw [show ((acc ++ tailD ++ nd) ++ run.take
                      (if acc.length + tailD.length + nd.length = 1 then 0
                        else padding)) ++
                    (Entry.collapsed (run.drop
                      (if acc.length + tailD.length + nd.length = 1 then 0
                        else padding)) :: ([] : List Entry)) =
                    (acc ++ tailD ++ nd ++ run.take
                      (if acc.length + tailD.length + nd.length = 1 then 0
                        else padding) ++ [Entry.collapsed (run.drop
                      (if acc.length + tailD.length + nd.length = 1 then 0
                        else padding))]) ++
                    ([] ++ blocksToList ([] : List (List Entry × List Entry)))
                  from by simp [blocksToList]]
                rw [ih [] _ []
                  ((if acc.length + tailD.length + nd.length = 1 then
                    acc.length + tailD.length + nd.length
                  else acc.length + tailD.length + nd.length + padding) + 2)
                  (by intro p hp; cases hp) (by intro i hi _; simp at hi)
                  (by intro i hi _; simp at hi) (by intro e he; cases he) (by simp)
                  (by intro h; exact absurd rfl h) (by intro h; exact absurd rfl h)
                  (Or.inr (by
                    by_cases hR1 : acc.length + tailD.length + nd.length = 1 <;>
                      simp [hR1, List.length_take] at hsle ⊢ <;> omega))
                  (fun _ _ q hq => by simp at hq)
                  (Or.inl (by
                    simp only [List.length_append, List.length_cons]
                    omega))
                  (by
                    have h9 : tailD.length + (blocksToList [(nd, run)]).length + 1 ≤
                        fuel + 1 := hfuel
                    simp [blocksToList] at h9
                    simp [blocksToList]
                    omega)]
                have hcond2 : ¬((if (true : Bool) then run.length
                    else run.length - padding) ≤
                    (if acc.length + tailD.length + nd.length = 1 then 0
                      else padding)) := by
                  by_cases hR1 : acc.length + tailD.length + nd.length = 1 <;>
                    simp [hR1] at hcond ⊢ <;> exact hcond
                have hspecr := specRun_repl padding
                  (acc.length + tailD.length + nd.length) true run hcond2
                simp only [if_true] at hspecr
                rw [List.drop_length, List.take_of_length_le (show
                    (run.drop (if acc.length + tailD.length + nd.length = 1 then 0
                      else padding)).length ≤ run.length -
                    (if acc.length + tailD.length + nd.length = 1 then 0 else padding)
                  from by simp)] at hspecr
                simp only [specBlocks]
                rw [hspecr]
                simp [blocksToList]
            · obtain ⟨p2, rest2, hrest2⟩ : ∃ p2 rest2, rest = p2 :: rest2 := by
                cases rest with
                | nil => exact absurd rfl hrest0
                | cons a l => exact ⟨a, l, rfl⟩
              subst hrest2
              obtain ⟨nd2, run2⟩ := p2
              have hnd2ne : nd2 ≠ [] := by
                have := hnd1 1 (by simp) (by simp)
                simpa using this
              obtain ⟨d2, nd2', hnd2'⟩ : ∃ d2 nd2', nd2 = d2 :: nd2' := by
                cases nd2 with
                | nil => exact absurd rfl hnd2ne
                | cons a l => exact ⟨a, l, rfl⟩
              have hL3 : acc ++ (tailD ++ blocksToList ((nd, run) :: (nd2, run2) :: rest2))
                  = (acc ++ tailD ++ nd ++ run) ++
                    (d2 :: (nd2' ++ (run2 ++ blocksToList rest2))) := by
                rw [hnd2']
                simp [blocksToList]
              have hendu : (findIdxFromP (fun e => !entryIsDefault e)
                  (acc ++ (tailD ++ blocksToList ((nd, run) :: (nd2, run2) :: rest2)))
                  (acc.length + tailD.length + nd.length + 1)).getD
                  (acc ++ (tailD ++ blocksToList
                    ((nd, run) :: (nd2, run2) :: rest2))).length =
                  acc.length + tailD.length + nd.length + run.length := by
                rw [hL3, findIdxFromP_boundary _ _ _ _ _ (by simp; omega)
                  (by
                    intro x hx
                    rw [show acc ++ tailD ++ nd ++ run = (acc ++ tailD ++ nd) ++ run
                        from by simp] at hx
                    rw [List.drop_append_eq_append_drop,
                      List.drop_eq_nil_of_le (show (acc ++ tailD ++ nd).length ≤
                        acc.length + tailD.length + nd.length + 1 from by simp; omega),
                      List.nil_append] at hx
                    have hd := (hbl (nd, run) (by simp)).2 x (List.mem_of_mem_drop hx)
                    simp [hd])
                  (by
                    have hd := (hbl (nd2, run2) (by simp)).1 d2 (by simp [hnd2'])
                    simp [hd])]
                simp
                omega
              have hlenne : ¬(acc.length + tailD.length + nd.length + run.length =
                  (acc ++ (tailD ++ blocksToList
                    ((nd, run) :: (nd2, run2) :: rest2))).length) := by
                rw [hL3]
                simp
                omega
              rw [collapseLoopF_step padding fuel _ fromIdx _ hg hfind]
              simp only [hendu]
              rw [if_neg hlenne]
              by_cases hcond : acc.length + tailD.length + nd.length + run.length
                  - padding ≤
                  (if acc.length + tailD.length + nd.length = 1 then
                    acc.length + tailD.length + nd.length
                  else acc.length + tailD.length + nd.length + padding)
              · rw [if_pos hcond]
                rw [show acc ++ (tailD ++ blocksToList
                      ((nd, run) :: (nd2, run2) :: rest2)) =
                    (acc ++ tailD ++ nd ++ run) ++
                      ([] ++ blocksToList ((nd2, run2) :: rest2))
                  from by simp [blocksToList]]
                rw [ih ((nd2, run2) :: rest2) (acc ++ tailD ++ nd ++ run) []
                  (acc.length + tailD.length + nd.length + run.length + 1)
                  (fun p hp => hbl p (by simp [hp]))
                  (by
                    intro i hi _
                    have h2 := hnd1 (i + 1) (by simp at hi ⊢; omega) (by omega)
                    simpa using h2)
                  (by
                    intro i hi h2
                    have h3 := hrunne (i + 1) (by simp at hi ⊢; omega)
                      (by simp at hi h2 ⊢; omega)
                    simpa using h3)
                  (by intro e he; cases he) (by simp)
                  (by intro h; exact absurd rfl h) (by intro h; exact absurd rfl h)
                  (Or.inr (by simp; omega))
                  (fun _ _ q hq => by
                    have hq2 : (nd2, run2) = q := by simpa using hq
                    rw [← hq2]
                    exact hnd2ne)
                  (Or.inl (by simp; omega))
                  (by
                    have h9 : tailD.length + (blocksToList
                        ((nd, run) :: (nd2, run2) :: rest2)).length + 1 ≤
                        fuel + 1 := hfuel
                    simp [blocksToList] at h9 ⊢
                    omega)]
                simp only [specBlocks]
                rw [hspec_skip false (by
                  by_cases hR1 : acc.length + tailD.length + nd.length = 1 <;>
                    simp [hR1] at hcond ⊢ <;> omega)]
                simp only [List.length_append, List.length_nil, Nat.add_zero]
                simp [blocksToList]
              · rw [if_neg hcond]
                have hpr : padding < run.length := by
                  by_cases hR1 : acc.length + tailD.length + nd.length = 1 <;>
                    simp [hR1] at hcond <;> omega
                have hsle2 : (if acc.length + tailD.length + nd.length = 1 then 0
                    else padding) < run.length - padding := by
                  by_cases hR1 : acc.length + tailD.length + nd.length = 1 <;>
                    simp [hR1] at hcond ⊢ <;> omega
                have htake1 : (acc ++ (tailD ++ blocksToList
                    ((nd, run) :: (nd2, run2) :: rest2))).take
                    (if acc.length + tailD.length + nd.length = 1 then
                      acc.length + tailD.length + nd.length
                    else acc.length + tailD.length + nd.length + padding) =
                    (acc ++ tailD ++ nd) ++ run.take
                      (if acc.length + tailD.length + nd.length = 1 then 0
                        else padding) := by
                  rw [show acc ++ (tailD ++ blocksToList
                        ((nd, run) :: (nd2, run2) :: rest2)) =
                      (acc ++ tailD ++ nd) ++
                        (run ++ blocksToList ((nd2, run2) :: rest2))
                    from by simp [blocksToList]]
                  rw [List.take_append_eq_append_take,
                    List.take_of_length_le (show (acc ++ tailD ++ nd).length ≤ _
                      from by simp only [List.length_append]; split <;> omega),
                    List.take_append_eq_append_take]
                  rw [show (if acc.length + tailD.length + nd.length = 1 then
                        acc.length + tailD.length + nd.length
                      else acc.length + tailD.length + nd.length + padding) -
                      (acc ++ tailD ++ nd).length =
                      (if acc.length + tailD.length + nd.length = 1 then 0
                        else padding)
                    from by simp only [List.length_append]; split <;> omega]
                  rw [show (if acc.length + tailD.length + nd.length = 1 then 0
                        else padding) - run.length = 0
                    from by split <;> omega, List.take_zero, List.append_nil]
                have hdrop1 : (acc ++ (tailD ++ blocksToList
                    ((nd, run) :: (nd2, run2) :: rest2))).drop
                    (if acc.length + tailD.length + nd.length = 1 then
                      acc.length + tailD.length + nd.length
                    else acc.length + tailD.length + nd.length + padding) =
                    run.drop (if acc.length + tailD.length + nd.length = 1 then 0
                      else padding) ++ blocksToList ((nd2, run2) :: rest2) := by
                  rw [show acc ++ (tailD ++ blocksToList
                        ((nd, run) :: (nd2, run2) :: rest2)) =
                      (acc ++ tailD ++ nd) ++
                        (run ++ blocksToList ((nd2, run2) :: rest2))
                    from by simp [blocksToList]]
                  rw [List.drop_append_eq_append_drop,
                    List.drop_eq_nil_of_le (show (acc ++ tailD ++ nd).length ≤ _
                      from by simp only [List.length_append]; split <;> omega),
                    List.nil_append, List.drop_append_eq_append_drop]
                  rw [show (if acc.length + tailD.length + nd.length = 1 then
                        acc.length + tailD.length + nd.length
                      else acc.length + tailD.length + nd.length + padding) -
                      (acc ++ tailD ++ nd).length =
                      (if acc.length + tailD.length + nd.length = 1 then 0
                        else padding)
                    from by simp only [List.length_append]; split <;> omega]
                  rw [show (if acc.length + tailD.length + nd.length = 1 then 0
                        else padding) - run.length = 0
                    from by split <;> omega, List.drop_zero]
                have hdrop2 : (acc ++ (tailD ++ blocksToList
                    ((nd, run) :: (nd2, run2) :: rest2))).drop
                    (acc.length + tailD.length + nd.length + run.length - padding) =
                    run.drop (run.length - padding) ++
                      blocksToList ((nd2, run2) :: rest2) := by
                  rw [show acc ++ (tailD ++ blocksToList
                        ((nd, run) :: (nd2, run2) :: rest2)) =
                      (acc ++ tailD ++ nd) ++
                        (run ++ blocksToList ((nd2, run2) :: rest2))
                    from by simp [blocksToList]]
                  rw [List.drop_append_eq_append_drop,
                    List.drop_eq_nil_of_le (show (acc ++ tailD ++ nd).length ≤
                      acc.length + tailD.length + nd.length + run.length - padding
                      from by simp only [List.length_append]; omega),
                    List.nil_append, List.drop_append_eq_append_drop]
                  rw [show acc.length + tailD.length + nd.length + run.length -
                      padding - (acc ++ tailD ++ nd).length = run.length - padding
                    from by simp only [List.length_append]; omega]
                  rw [show run.length - padding - run.length = 0
                    from by omega, List.drop_zero]
                rw [htake1, hdrop1, hdrop2]
                have hga : acc.length + tailD.length + nd.length + run.length -
                    padding -
                    (if acc.length + tailD.length + nd.length = 1 then
                      acc.length + tailD.length + nd.length
                    else acc.length + tailD.length + nd.length + padding) =
                    run.length - padding -
                    (if acc.length + tailD.length + nd.length = 1 then 0
                      else padding) := by
                  split <;> omega
                rw [hga, List.take_append_eq_append_take]
                rw [show run.length - padding -
                    (if acc.length + tailD.length + nd.length = 1 then 0
                      else padding) -
                    (run.drop (if acc.length + tailD.length + nd.length = 1 then 0
                      else padding)).length = 0
                  from by
                    by_cases hR1 : acc.length + tailD.length + nd.length = 1 <;>
                      simp [hR1] <;> omega,
                  List.take_zero, List.append_nil]
                rw [show ((acc ++ tailD ++ nd) ++ run.take
                      (if acc.length + tailD.length + nd.length = 1 then 0
                        else padding)) ++
                    (Entry.collapsed ((run.drop
                      (if acc.length + tailD.length + nd.length = 1 then 0
                        else padding)).take (run.length - padding -
                      (if acc.length + tailD.length + nd.length = 1 then 0
                        else padding))) ::
                      (run.drop (run.length - padding) ++
                        blocksToList ((nd2, run2) :: rest2))) =
                    (acc ++ tailD ++ nd ++ run.take
                      (if acc.length + tailD.length + nd.length = 1 then 0
                        else padding) ++ [Entry.collapsed ((run.drop
                      (if acc.length + tailD.length + nd.length = 1 then 0
                        else padding)).take (run.length - padding -
                      (if acc.length + tailD.length + nd.length = 1 then 0
                        else padding)))]) ++
                    (run.drop (run.length - padding) ++
                      blocksToList ((nd2, run2) :: rest2))
                  from by simp]
                rw [ih ((nd2, run2) :: rest2) _ (run.drop (run.length - padding))
                  ((if acc.length + tailD.length + nd.length = 1 then
                    acc.length + tailD.length + nd.length
                  else acc.length + tailD.length + nd.length + padding) + 2)
                  (fun p hp => hbl p (by simp [hp]))
                  (by
                    intro i hi _
                    have h2 := hnd1 (i + 1) (by simp at hi ⊢; omega) (by omega)
                    simpa using h2)
                  (by
                    intro i hi h2
                    have h3 := hrunne (i + 1) (by simp at hi ⊢; omega)
                      (by simp at hi h2 ⊢; omega)
                    simpa using h3)
                  (by
                    intro e he
                    exact (hbl (nd, run) (by simp)).2 e (List.mem_of_mem_drop he))
                  (by simp only [List.length_drop]; omega)
                  (by
                    intro h2
                    by_cases hR1 : acc.length + tailD.length + nd.length = 1 <;>
                      simp [hR1] <;> omega)
                  (fun _ q hq => by
                    have hq2 : (nd2, run2) = q := by simpa using hq
                    rw [← hq2]
                    exact hnd2ne)
                  (Or.inr (by
                    by_cases hR1 : acc.length + tailD.length + nd.length = 1 <;>
                      simp [hR1, List.length_take] <;> omega))
                  (fun _ _ q hq => by
                    have hq2 : (nd2, run2) = q := by simpa using hq
                    rw [← hq2]
                    exact hnd2ne)
                  (Or.inl (by simp only [List.length_append, List.length_cons]; omega))
                  (by
                    have h9 : tailD.length + (blocksToList
                        ((nd, run) :: (nd2, run2) :: rest2)).length + 1 ≤
                        fuel + 1 := hfuel
                    simp [blocksToList] at h9 ⊢
                    omega)]
                have hcond2 : ¬((if (false : Bool) then run.length
                    else run.length - padding) ≤
                    (if acc.length + tailD.length + nd.length = 1 then 0
                      else padding)) := by
                  by_cases hR1 : acc.length + tailD.length + nd.length = 1 <;>
                    simp [hR1] at hsle2 ⊢ <;> omega
                have hspecr := specRun_repl padding
                  (acc.length + tailD.length + nd.length) false run hcond2
                simp only [Bool.false_eq_true, if_false] at hspecr
                simp only [specBlocks]
                rw [hspecr]
                have hposeq := specBlocks_pos_irrel padding ((nd2, run2) :: rest2)
                  ((acc ++ tailD ++ nd ++ run.take
                    (if acc.length + tailD.length + nd.length = 1 then 0
                      else padding) ++ [Entry.collapsed ((run.drop
                    (if acc.length + tailD.length + nd.length = 1 then 0
                      else padding)).take (run.length - padding -
                    (if acc.length + tailD.length + nd.length = 1 then 0
                      else padding)))]).length +
                    (run.drop (run.length - padding)).length)
                  (acc.length + tailD.length + nd.length + run.length)
                  (by
                    by_cases hR1 : acc.length + tailD.length + nd.length = 1 <;>
                      simp [hR1] <;> omega)
                  (by omega)
                rw [hposeq]
                simp [blocksToList]

/-! ## The collapse pass against its maximal-run specification (C5, C6) -/

/-- At padding 0 a nonempty run is always replaced by one group holding the
whole run. -/
theorem specRun_padding0 (runStart : Nat) (atEnd : Bool) (run : List Entry)
    (h : run ≠ []) : specRun 0 runStart atEnd run = [Entry.collapsed run] := by
  have hlen : 1 ≤ run.length := by
    cases run with
    | nil => exact absurd rfl h
    | cons _ _ => simp
  unfold specRun
  rw [if_neg (by
    cases atEnd <;>
      simp only [Bool.false_eq_true, if_false, eq_self_iff_true, if_true,
        Nat.sub_zero, ite_self] <;>
      omega)]
  cases atEnd <;> simp

/-- At padding 0 the run-by-run specification is: keep every non-default
segment, and turn every nonempty default run into a single group. -/
theorem specBlocks_padding0 : ∀ (bs : List (List Entry × List Entry)) (pos : Nat),
    specBlocks 0 pos bs =
      (bs.map (fun p =>
        p.1 ++ if p.2.isEmpty then [] else [Entry.collapsed p.2])).flatten
  | [], _ => rfl
  | [(nd, run)], pos => by
    cases run with
    | nil => simp [specBlocks, specRun]
    | cons a l =>
      simp only [specBlocks]
      rw [specRun_padding0 _ _ _ (by simp)]
      simp
  | (nd, run) :: (nd2, run2) :: rest, pos => by
    cases run with
    | nil =>
      have ih := specBlocks_padding0 ((nd2, run2) :: rest) (pos + nd.length)
      simp only [specBlocks]
      rw [show specRun 0 (pos + nd.length) false [] = [] from by simp [specRun],
        show pos + nd.length + List.length ([] : List Entry) = pos + nd.length
          from by simp,
        ih]
      simp
    | cons a l =>
      have ih := specBlocks_padding0 ((nd2, run2) :: rest)
        (pos + nd.length + (a :: l).length)
      simp only [specBlocks]
      rw [specRun_padding0 _ _ _ (by simp), ih]
      simp

/-- C5: when collapsing is active, the collapse pass acts on every maximal run
of `default` records of the unified sequence exactly as specified: the run
keeps `padding` records at its leading edge unless it starts at index 1, keeps
`padding` records at its trailing edge unless it reaches the end of the
sequence, is left fully visible when the trimmed window `[start, end)` is
empty, and is otherwise replaced by exactly one collapsed-group record holding
the trimmed window's records (`specRun`, applied run by run in order by
`specBlocks`).  The sequence is presented as its alternating decomposition
`bs` into (non-default segment, maximal default run) pairs. -/
theorem C5_collapse_maximal_runs (padding : Nat) (bs : List (List Entry × List Entry))
    (hbl : ∀ p ∈ bs, (∀ e ∈ p.1, entryIsDefault e = false) ∧
      (∀ e ∈ p.2, entryIsDefault e = true))
    (hnd1 : ∀ i (hi : i < bs.length), 0 < i → (bs.get ⟨i, hi⟩).1 ≠ [])
    (hrunne : ∀ i (hi : i < bs.length), i + 1 < bs.length → (bs.get ⟨i, hi⟩).2 ≠ [])
    (hhead : ∀ q ∈ bs.head?, q.1 ≠ []) :
    collapseLines padding (blocksToList bs) = specBlocks padding 0 bs := by
  have h := collapseF_blocks padding ((blocksToList bs).length + 1) bs [] [] 0
    hbl hnd1 hrunne (by intro e he; cases he) (by simp)
    (fun h2 => absurd rfl h2) (fun h2 => absurd rfl h2)
    (Or.inl (by simp)) (by intro h2; simp at h2) (Or.inr hhead) (by simp)
  simpa [collapseLines] using h

/-- A concrete alternating decomposition exercising both a replaced run and
the end-of-sequence run. -/
def bsC5 : List (List Entry × List Entry) :=
  [([Entry.hole, Entry.line { type := LineType.added }],
    [Entry.line { type := LineType.default }, Entry.line { type := LineType.default },
     Entry.line { type := LineType.default }, Entry.line { type := LineType.default }]),
   ([Entry.line { type := LineType.removed }],
    [Entry.line { type := LineType.default }, Entry.line { type := LineType.default }])]

/-- Witness: the run specification theorem applies to a concrete two-run
sequence at padding 1. -/
theorem C5_collapse_maximal_runs_witness :
    collapseLines 1 (blocksToList bsC5) = specBlocks 1 0 bsC5 :=
  C5_collapse_maximal_runs 1 bsC5 (by decide)
    (fun i hi _ => by
      have h2 : ∀ j (hj : j < bsC5.length), (bsC5.get ⟨j, hj⟩).1.isEmpty = false := by
        decide
      intro hc
      have h3 := h2 i hi
      rw [hc] at h3
      cases h3)
    (fun i hi _ => by
      have h2 : ∀ j (hj : j < bsC5.length), (bsC5.get ⟨j, hj⟩).2.isEmpty = false := by
        decide
      intro hc
      have h3 := h2 i hi
      rw [hc] at h3
      cases h3)
    (by simp [bsC5])

/-- C6 counterexample: with padding 0, before text
"u1\nu2\ny\nm\nz\n" and after text "u1\nu2\nx\nm\nw\n" (an interior unchanged
line "m" sits between the two changes), the very first render item is a
collapsed group that contains the line with old line number 1 — the line
adjacent to the very start of the file has been collapsed, because the
`start == 1` special case skips the leading trim instead of protecting the
boundary line. -/
theorem C6_counterexample :
    (match (tokenizeRef ("u1\nu2\nx\nm\nw\n".toList)
        (some ("u1\nu2\ny\nm\nz\n".toList)) false (some ⟨0⟩)).items.head? with
      | some (RenderItem.collapsedSection n lines) =>
        n == 2 && lines.any (fun rl => rl.oldLineNumber == some 1)
      | _ => false) = true := by decide

/-- C6 amended: with padding 0, the collapse pass absorbs every maximal run of
`default` records — interior runs and runs touching the very start or end of
the sequence alike — wholly into exactly one collapsed group; no record of any
such run stays visible. -/
theorem C6_amended_padding0 (bs : List (List Entry × List Entry))
    (hbl : ∀ p ∈ bs, (∀ e ∈ p.1, entryIsDefault e = false) ∧
      (∀ e ∈ p.2, entryIsDefault e = true))
    (hnd1 : ∀ i (hi : i < bs.length), 0 < i → (bs.get ⟨i, hi⟩).1 ≠ [])
    (hrunne : ∀ i (hi : i < bs.length), i + 1 < bs.length → (bs.get ⟨i, hi⟩).2 ≠ [])
    (hhead : ∀ q ∈ bs.head?, q.1 ≠ []) :
    collapseLines 0 (blocksToList bs) =
      (bs.map (fun p =>
        p.1 ++ if p.2.isEmpty then [] else [Entry.collapsed p.2])).flatten := by
  have h := collapseF_blocks 0 ((blocksToList bs).length + 1) bs [] [] 0
    hbl hnd1 hrunne (by intro e he; cases he) (by simp)
    (fun h2 => absurd rfl h2) (fun h2 => absurd rfl h2)
    (Or.inl (by simp)) (by intro h2; simp at h2) (Or.inr hhead) (by simp)
  rw [specBlocks_padding0] at h
  simpa [collapseLines] using h

/-- Witness: the padding-0 absorption theorem applies to a concrete two-run
sequence. -/
theorem C6_amended_padding0_witness :
    collapseLines 0 (blocksToList bsC5) =
      (bsC5.map (fun p =>
        p.1 ++ if p.2.isEmpty then [] else [Entry.collapsed p.2])).flatten :=
  C6_amended_padding0 bsC5 (by decide)
    (fun i hi _ => by
      have h2 : ∀ j (hj : j < bsC5.length), (bsC5.get ⟨j, hj⟩).1.isEmpty = false := by
        decide
      intro hc
      have h3 := h2 i hi
      rw [hc] at h3
      cases h3)
    (fun i hi _ => by
      have h2 : ∀ j (hj : j < bsC5.length), (bsC5.get ⟨j, hj⟩).2.isEmpty = false := by
        decide
      intro hc
      have h3 := h2 i hi
      rw [hc] at h3
      cases h3)
    (by simp [bsC5])
